import Mathlib

/-!
Verification of the pmemkv `mvtree` storage engine (`src/engines/mvtree.cc`):
a shallow embedding of the hybrid volatile/persistent B+-tree, its slot protocol,
the Pearson hasher, recovery, and the enumeration operations, together with proofs
of the specified properties.

Keys and values are byte strings (`std::string`), modelled as lists of naturals.
The persistent pool is modelled as a heap of persistent leaves addressed by
allocation ids, with the leaf linked list kept as a list of ids.
-/

namespace mvtree

/-- Keys are byte strings; `std::string` contents, compared bytewise. -/
abbrev Key := List Nat

/-- Values are byte strings as well. -/
abbrev Val := List Nat

/-- Three-way comparison with the semantics of `std::string::compare`:
bytewise lexicographic comparison (bytes as unsigned chars), where a strict
prefix sorts before any extension. -/
def keyCompare : Key → Key → Ordering
  | [], [] => .eq
  | [], _ :: _ => .lt
  | _ :: _, [] => .gt
  | a :: as, b :: bs =>
      if a < b then .lt else if b < a then .gt else keyCompare as bs

/-- Boolean form of `x.compare(y) < 0`. -/
def keyLt (a b : Key) : Bool :=
  match keyCompare a b with
  | .lt => true
  | _ => false

/-- Boolean form of `x.compare(y) > 0`. -/
def keyGt (a b : Key) : Bool :=
  match keyCompare a b with
  | .gt => true
  | _ => false

/-- Boolean form of `x.compare(y) <= 0`. -/
def keyLe (a b : Key) : Bool := !(keyGt a b)

/-- A cons pair is lexicographically below another iff the head is smaller, or the
heads agree and the tails compare. (Characterisation of the `List Nat` linear order.) -/
theorem list_lt_cons_iff {a b : Nat} {as bs : List Nat} :
    (a :: as : List Nat) < b :: bs ↔ a < b ∨ a = b ∧ as < bs := by
  constructor
  · intro h
    cases h with
    | cons h => exact Or.inr ⟨rfl, h⟩
    | rel h => exact Or.inl h
  · intro h
    rcases h with h | ⟨rfl, h⟩
    · exact List.Lex.rel h
    · exact List.Lex.cons h

theorem list_lt_nil (a : Nat) (as : List Nat) : ¬ ((a :: as : List Nat) < []) := by
  intro h; cases h

theorem nil_list_lt (b : Nat) (bs : List Nat) : ([] : List Nat) < b :: bs :=
  List.Lex.nil

/-- The three-way comparison agrees with the lexicographic strict order. -/
theorem keyCompare_eq_lt {a b : Key} : keyCompare a b = .lt ↔ a < b := by
  induction a generalizing b with
  | nil =>
    cases b with
    | nil =>
      constructor
      · intro h; exact absurd h (by decide)
      · intro h; cases h
    | cons x xs =>
      exact ⟨fun _ => nil_list_lt x xs, fun _ => rfl⟩
  | cons x xs ih =>
    cases b with
    | nil =>
      constructor
      · intro h; simp [keyCompare] at h
      · intro h; exact absurd h (list_lt_nil x xs)
    | cons y ys =>
      show (if x < y then Ordering.lt else if y < x then Ordering.gt
            else keyCompare xs ys) = .lt ↔ _
      rcases Nat.lt_trichotomy x y with hxy | hxy | hxy
      · rw [if_pos hxy]
        exact ⟨fun _ => List.Lex.rel hxy, fun _ => rfl⟩
      · subst hxy
        rw [if_neg (lt_irrefl x), if_neg (lt_irrefl x), ih]
        constructor
        · intro h; exact List.Lex.cons h
        · intro h
          rcases list_lt_cons_iff.mp h with h | ⟨_, h⟩
          · omega
          · exact h
      · rw [if_neg (Nat.lt_asymm hxy), if_pos hxy]
        constructor
        · intro h; exact absurd h (by decide)
        · intro h
          rcases list_lt_cons_iff.mp h with h | ⟨h, _⟩ <;> omega

/-- The three-way comparison returns `eq` exactly on equal keys. -/
theorem keyCompare_eq_eq {a b : Key} : keyCompare a b = .eq ↔ a = b := by
  induction a generalizing b with
  | nil =>
    cases b with
    | nil => exact ⟨fun _ => rfl, fun _ => rfl⟩
    | cons x xs =>
      constructor
      · intro h; simp [keyCompare] at h
      · intro h; exact absurd h (by simp)
  | cons x xs ih =>
    cases b with
    | nil =>
      constructor
      · intro h; simp [keyCompare] at h
      · intro h; exact absurd h (by simp)
    | cons y ys =>
      show (if x < y then Ordering.lt else if y < x then Ordering.gt
            else keyCompare xs ys) = .eq ↔ _
      rcases Nat.lt_trichotomy x y with hxy | hxy | hxy
      · rw [if_pos hxy]
        constructor
        · intro h; exact absurd h (by decide)
        · intro h; cases h; omega
      · subst hxy
        rw [if_neg (lt_irrefl x), if_neg (lt_irrefl x), ih]
        constructor
        · intro h; rw [h]
        · intro h; cases h; rfl
      · rw [if_neg (Nat.lt_asymm hxy), if_pos hxy]
        constructor
        · intro h; exact absurd h (by decide)
        · intro h; cases h; omega

/-- The three-way comparison returns `gt` exactly when the arguments are in
reverse strict order. -/
theorem keyCompare_eq_gt {a b : Key} : keyCompare a b = .gt ↔ b < a := by
  rcases h : keyCompare a b with _ | _ | _
  · have hab := keyCompare_eq_lt.mp h
    constructor
    · intro hc; exact absurd hc (by decide)
    · intro hba; exact absurd hab (lt_asymm hba)
  · have hab := keyCompare_eq_eq.mp h
    constructor
    · intro hc; exact absurd hc (by decide)
    · intro hba
      rw [hab] at hba
      exact absurd hba (lt_irrefl b)
  · constructor
    · intro _
      rcases lt_trichotomy b a with hba | hba | hba
      · exact hba
      · exfalso
        have hc := keyCompare_eq_eq.mpr hba.symm
        rw [hc] at h
        exact absurd h (by decide)
      · exfalso
        have hc := keyCompare_eq_lt.mpr hba
        rw [hc] at h
        exact absurd h (by decide)
    · intro _; rfl

theorem keyLt_iff {a b : Key} : keyLt a b = true ↔ a < b := by
  unfold keyLt
  rcases h : keyCompare a b with _ | _ | _
  · simpa using keyCompare_eq_lt.mp h
  · have hc := keyCompare_eq_eq.mp h
    simp [hc]
  · have hc := keyCompare_eq_gt.mp h
    simp [lt_asymm hc]

theorem keyGt_iff {a b : Key} : keyGt a b = true ↔ b < a := by
  unfold keyGt
  rcases h : keyCompare a b with _ | _ | _
  · have hc := keyCompare_eq_lt.mp h
    simp [lt_asymm hc]
  · have hc := keyCompare_eq_eq.mp h
    simp [hc]
  · simpa using keyCompare_eq_gt.mp h

theorem keyLt_false_iff {a b : Key} : keyLt a b = false ↔ b ≤ a := by
  rw [Bool.eq_false_iff]
  simp [keyLt_iff, not_lt]

theorem keyGt_false_iff {a b : Key} : keyGt a b = false ↔ a ≤ b := by
  rw [Bool.eq_false_iff]
  simp [keyGt_iff, not_lt]

theorem keyLe_iff {a b : Key} : keyLe a b = true ↔ a ≤ b := by
  unfold keyLe
  rw [Bool.not_eq_true']
  exact keyGt_false_iff

theorem keyLe_false_iff {a b : Key} : keyLe a b = false ↔ b < a := by
  unfold keyLe
  rw [Bool.not_eq_false']
  exact keyGt_iff

/-- Insert an element into a list sorted by the boolean order `le`, keeping it
sorted; auxiliary to the model of the standard-library sorts. -/
def insSorted (le : α → α → Bool) (x : α) : List α → List α
  | [] => [x]
  | y :: ys => if le x y then x :: y :: ys else y :: insSorted le x ys

/-- Model of `std::sort` and `std::list::sort` with a strict-weak-order
comparator: the result is a permutation of the input ordered by the matching
non-strict order.  (On the distinct keys these sorts are applied to, the sorted
permutation is unique, so any correct sorting algorithm is a faithful model.) -/
def sortBy (le : α → α → Bool) (l : List α) : List α :=
  l.foldr (insSorted le) []

theorem insSorted_perm (le : α → α → Bool) (x : α) (l : List α) :
    (insSorted le x l).Perm (x :: l) := by
  induction l with
  | nil => simp [insSorted]
  | cons y ys ih =>
    simp only [insSorted]
    by_cases h : le x y
    · simp [h]
    · simp only [h, if_false]
      exact (List.Perm.cons y ih).trans (List.Perm.swap x y ys)

theorem sortBy_perm (le : α → α → Bool) (l : List α) : (sortBy le l).Perm l := by
  induction l with
  | nil => simp [sortBy]
  | cons y ys ih =>
    simp only [sortBy, List.foldr_cons]
    exact (insSorted_perm le y _).trans (List.Perm.cons y ih)

theorem insSorted_pairwise (le : α → α → Bool)
    (htot : ∀ a b, le a b = true ∨ le b a = true)
    (htrans : ∀ a b c, le a b = true → le b c = true → le a c = true)
    (x : α) (l : List α)
    (hl : l.Pairwise (fun a b => le a b = true)) :
    (insSorted le x l).Pairwise (fun a b => le a b = true) := by
  induction l with
  | nil => simp [insSorted]
  | cons y ys ih =>
    rcases List.pairwise_cons.mp hl with ⟨hy, hys⟩
    simp only [insSorted]
    by_cases h : le x y
    · simp only [h, if_true]
      refine List.pairwise_cons.mpr ⟨?_, hl⟩
      intro b hb
      rcases List.mem_cons.mp hb with hbe | hb
      · rw [hbe]; exact h
      · exact htrans x y b h (hy b hb)
    · simp only [h, if_false]
      refine List.pairwise_cons.mpr ⟨?_, ih hys⟩
      intro b hb
      have hb' : b ∈ x :: ys := (insSorted_perm le x ys).mem_iff.mp hb
      rcases List.mem_cons.mp hb' with hbe | hb'
      · rw [hbe]
        rcases htot x y with hc | hc
        · exact absurd hc h
        · exact hc
      · exact hy b hb'

theorem sortBy_pairwise (le : α → α → Bool)
    (htot : ∀ a b, le a b = true ∨ le b a = true)
    (htrans : ∀ a b c, le a b = true → le b c = true → le a c = true)
    (l : List α) :
    (sortBy le l).Pairwise (fun a b => le a b = true) := by
  induction l with
  | nil => simp [sortBy]
  | cons y ys ih =>
    exact insSorted_pairwise le htot htrans y _ ih

/-- Pearson hashing lookup table from RFC 3074, as in the source
(`PEARSON_LOOKUP_TABLE`). -/
def PEARSON_LOOKUP_TABLE : List Nat := [
  251, 175, 119, 215, 81, 14, 79, 191, 103, 49, 181, 143, 186, 157, 0,
  232, 31, 32, 55, 60, 152, 58, 17, 237, 174, 70, 160, 144, 220, 90, 57,
  223, 59, 3, 18, 140, 111, 166, 203, 196, 134, 243, 124, 95, 222, 179,
  197, 65, 180, 48, 36, 15, 107, 46, 233, 130, 165, 30, 123, 161, 209, 23,
  97, 16, 40, 91, 219, 61, 100, 10, 210, 109, 250, 127, 22, 138, 29, 108,
  244, 67, 207, 9, 178, 204, 74, 98, 126, 249, 167, 116, 34, 77, 193,
  200, 121, 5, 20, 113, 71, 35, 128, 13, 182, 94, 25, 226, 227, 199, 75,
  27, 41, 245, 230, 224, 43, 225, 177, 26, 155, 150, 212, 142, 218, 115,
  241, 73, 88, 105, 39, 114, 62, 255, 192, 201, 145, 214, 168, 158, 221,
  148, 154, 122, 12, 84, 82, 163, 44, 139, 228, 236, 205, 242, 217, 11,
  187, 146, 159, 64, 86, 239, 195, 42, 106, 198, 118, 112, 184, 172, 87,
  2, 173, 117, 176, 229, 247, 253, 137, 185, 99, 164, 102, 147, 45, 66,
  231, 52, 141, 211, 194, 206, 246, 238, 56, 110, 78, 248, 63, 240, 189,
  93, 92, 51, 53, 183, 19, 171, 72, 50, 33, 104, 101, 69, 8, 252, 83, 120,
  76, 135, 85, 54, 202, 125, 188, 213, 96, 235, 136, 208, 162, 129, 190,
  132, 156, 38, 47, 1, 7, 254, 24, 4, 216, 131, 89, 21, 28, 133, 37, 153,
  149, 80, 170, 68, 6, 169, 234, 151]

/-- One loop iteration of `MVTree::PearsonHash`:
`hash = PEARSON_LOOKUP_TABLE[hash ^ data[--i]]`. -/
def pearsonStep (hash b : Nat) : Nat := PEARSON_LOOKUP_TABLE.getD (hash ^^^ b) 0

/-- `MVTree::PearsonHash(data, size)`: the accumulator starts at `(uint8_t) size`;
the loop visits the input bytes from the last one back to the first; a zero
final accumulator is remapped to 1 (0 is reserved to mean an empty slot). -/
def PearsonHash (data : List Nat) : Nat :=
  let h := data.reverse.foldl pearsonStep (data.length % 256)
  if h = 0 then 1 else h

theorem PearsonHash_ne_zero (data : List Nat) : PearsonHash data ≠ 0 := by
  unfold PearsonHash
  by_cases h : data.reverse.foldl pearsonStep (data.length % 256) = 0
  · rw [if_pos h]; exact one_ne_zero
  · rw [if_neg h]; exact h

/-- C7: the Pearson hash contract.  `PearsonHash` is a pure deterministic
function of the input bytes and size (equal inputs give equal outputs), and it
never returns 0: when the Pearson chain ends at accumulator 0 the function
returns 1 instead, since 0 is reserved to mean an empty slot. -/
theorem C7_pearson_hash_contract :
    (∀ d₁ d₂ : List Nat, d₁ = d₂ → PearsonHash d₁ = PearsonHash d₂) ∧
    (∀ d : List Nat, PearsonHash d ≠ 0) :=
  ⟨fun _ _ h => by rw [h], PearsonHash_ne_zero⟩

/-- Witness for C7 at a concrete input. -/
theorem C7_pearson_hash_contract_witness :
    PearsonHash [104, 105] = PearsonHash [104, 105] ∧ PearsonHash [104, 105] ≠ 0 :=
  ⟨C7_pearson_hash_contract.1 [104, 105] [104, 105] rfl,
   C7_pearson_hash_contract.2 [104, 105]⟩

/-- A `memcpy` of `src` into `block` at offset `off` (in-bounds in every use,
where it coincides with this take/append/drop form). -/
def writeBytes (block : List Nat) (off : Nat) (src : List Nat) : List Nat :=
  block.take off ++ src ++ block.drop (off + src.length)

/-- Modelled from the spec: little-endian byte encoding of a `u32`.  The header
accessors `set_ph_direct` / `set_ks_direct` / `set_vs_direct` and their getters
are declared in `mvtree.h`, which is not part of src/; the spec fixes the block
layout as `hash:u8 | key_size:u32 | value_size:u32 | key | 0x00 | value | 0x00`. -/
def le32 (n : Nat) : List Nat :=
  [n % 256, n / 256 % 256, n / 65536 % 256, n / 16777216 % 256]

/-- Modelled from the spec: read back a `u32` header field written by `le32`. -/
def get32 (block : List Nat) (off : Nat) : Nat :=
  block.getD off 0 + 256 * block.getD (off + 1) 0 +
    65536 * block.getD (off + 2) 0 + 16777216 * block.getD (off + 3) 0

/-- `MVSlot::set(hash, key, value)`, at the byte level: allocate
`1 + 4 + 4 + |key| + 1 + |value| + 1` zero-initialised bytes
(`make_persistent<char[]>` value-initialises the array), write the header
fields, `memcpy` the key at offset 9, advance past one byte, and `memcpy` the
value; the two separator bytes keep their zero value.  Returns the content of
the slot's owned allocation. -/
def MVSlot.setBlock (hash : Nat) (key value : List Nat) : List Nat :=
  let size := key.length + value.length + 2 + 4 + 4 + 1
  let b0 := List.replicate size 0
  let b1 := writeBytes b0 0 [hash]
  let b2 := writeBytes b1 1 (le32 key.length)
  let b3 := writeBytes b2 5 (le32 value.length)
  let b4 := writeBytes b3 9 key
  writeBytes b4 (9 + key.length + 1) value

/-- `MVSlot::clear()` on a non-empty slot: zero the header fields in the owned
block and then free it, where the freed size
`sizeof(uint8_t) + 2 * sizeof(uint32_t) + get_ks_direct(p) + get_vs_direct(p) + 2`
reads the size fields back only after they have been zeroed.  Returns the number
of bytes passed to `delete_persistent<char[]>`. -/
def MVSlot.clearFreeSize (block : List Nat) : Nat :=
  let p1 := writeBytes block 0 [0]
  let p2 := writeBytes p1 1 (le32 0)
  let p3 := writeBytes p2 5 (le32 0)
  1 + 4 + 4 + get32 p3 1 + get32 p3 5 + 2

/-- The size `MVSlot::set` passes to `make_persistent<char[]>`:
`ksize + vsize + 2 + sizeof(uint32_t) + sizeof(uint32_t) + sizeof(uint8_t)`. -/
def MVSlot.setAllocSize (key value : List Nat) : Nat :=
  key.length + value.length + 2 + 4 + 4 + 1

theorem writeBytes_split (pre seg tail src : List Nat) (off : Nat)
    (hoff : off = pre.length) (hlen : seg.length = src.length) :
    writeBytes (pre ++ (seg ++ tail)) off src = pre ++ (src ++ tail) := by
  unfold writeBytes
  subst hoff
  rw [List.take_left]
  have h2 : (pre ++ (seg ++ tail)).drop (pre.length + src.length) = tail := by
    rw [← List.append_assoc]
    have hl : pre.length + src.length = (pre ++ seg).length := by
      simp [hlen]
    rw [hl, List.drop_left]
  rw [h2, List.append_assoc]

theorem writeBytes_zero (seg tail src : List Nat) (hlen : seg.length = src.length) :
    writeBytes (seg ++ tail) 0 src = src ++ tail := by
  unfold writeBytes
  have h2 : (seg ++ tail).drop (0 + src.length) = tail := by
    rw [Nat.zero_add]
    exact List.drop_left' hlen
  rw [h2, List.take_zero, List.nil_append]

theorem le32_length (n : Nat) : (le32 n).length = 4 := rfl

/-- C8: persistent slot layout.  `MVSlot::set(hash, key, value)` produces a single
owned allocation of exactly `1 + 4 + 4 + |key| + 1 + |value| + 1` bytes, and after
the hash/key_size/value_size header the block contains the key bytes followed by a
zero byte, then the value bytes followed by a zero byte. -/
theorem C8_slot_layout (hash : Nat) (key value : List Nat) :
    (MVSlot.setBlock hash key value).length
        = 1 + 4 + 4 + key.length + 1 + value.length + 1 ∧
    MVSlot.setBlock hash key value
        = hash :: (le32 key.length ++ (le32 value.length
            ++ (key ++ (0 :: (value ++ [0]))))) := by
  have hb : MVSlot.setBlock hash key value
      = hash :: (le32 key.length ++ (le32 value.length
          ++ (key ++ (0 :: (value ++ [0]))))) := by
    unfold MVSlot.setBlock
    dsimp only
    have harith : key.length + value.length + 2 + 4 + 4 + 1
        = 1 + (4 + (4 + (key.length + (1 + (value.length + 1))))) := by omega
    rw [harith]
    have hb0 : List.replicate (1 + (4 + (4 + (key.length + (1 + (value.length + 1)))))) (0 : Nat)
        = [0] ++ (List.replicate 4 0 ++ (List.replicate 4 0
            ++ (List.replicate key.length 0 ++ ([0] ++ (List.replicate value.length 0 ++ [0]))))) := by
      simp [List.replicate_add]
    rw [hb0]
    rw [writeBytes_zero ([0]) _ [hash] (by rfl)]
    rw [writeBytes_split [hash] (List.replicate 4 0) _ (le32 key.length) 1 (by rfl) (by simp [le32_length])]
    rw [show ([hash] : List Nat) ++ (le32 key.length ++ (List.replicate 4 0
          ++ (List.replicate key.length 0 ++ ([0] ++ (List.replicate value.length 0 ++ [0])))))
        = ([hash] ++ le32 key.length) ++ (List.replicate 4 0
          ++ (List.replicate key.length 0 ++ ([0] ++ (List.replicate value.length 0 ++ [0]))))
      from by simp]
    rw [writeBytes_split ([hash] ++ le32 key.length) (List.replicate 4 0) _
          (le32 value.length) 5 (by simp [le32]) (by simp [le32_length])]
    rw [show ([hash] ++ le32 key.length) ++ (le32 value.length
          ++ (List.replicate key.length 0 ++ ([0] ++ (List.replicate value.length 0 ++ [0]))))
        = ([hash] ++ le32 key.length ++ le32 value.length)
          ++ (List.replicate key.length 0 ++ ([0] ++ (List.replicate value.length 0 ++ [0])))
      from by simp]
    rw [writeBytes_split ([hash] ++ le32 key.length ++ le32 value.length)
          (List.replicate key.length 0) _ key 9 (by simp [le32]) (by simp)]
    rw [show ([hash] ++ le32 key.length ++ le32 value.length)
          ++ (key ++ ([0] ++ (List.replicate value.length 0 ++ [0])))
        = ([hash] ++ le32 key.length ++ le32 value.length ++ key ++ [0])
          ++ (List.replicate value.length 0 ++ [0])
      from by simp]
    rw [writeBytes_split ([hash] ++ le32 key.length ++ le32 value.length ++ key ++ [0])
          (List.replicate value.length 0) _ value (9 + key.length + 1)
          (by simp [le32]; omega) (by simp)]
    simp
  refine ⟨?_, hb⟩
  rw [hb]
  simp [le32]
  omega

/-- C9: `MVSlot::clear` computes the deallocation size from the key-size and
value-size header fields after it has already zeroed them, so it always requests
freeing exactly `1 + 4 + 4 + 0 + 0 + 2 = 11` bytes; whenever the stored key or
value is non-empty this differs from the `1 + 4 + 4 + |key| + 1 + |value| + 1`
bytes that `MVSlot::set` allocated for the same block. -/
theorem C9_clear_free_size_mismatch :
    (∀ block : List Nat, MVSlot.clearFreeSize block = 11) ∧
    (∀ key value : List Nat, key ≠ [] ∨ value ≠ [] →
        MVSlot.setAllocSize key value ≠ 11) := by
  constructor
  · intro block
    simp [MVSlot.clearFreeSize, writeBytes, le32, get32]
  · intro key value hne
    unfold MVSlot.setAllocSize
    rcases hne with hne | hne
    · have : 0 < key.length := List.length_pos.mpr hne
      omega
    · have : 0 < value.length := List.length_pos.mpr hne
      omega

/-- Witness for C9 at concrete inputs. -/
theorem C9_clear_free_size_mismatch_witness :
    MVSlot.clearFreeSize (MVSlot.setBlock 7 [1] [2, 3]) = 11 ∧
    (([1] : List Nat) ≠ [] ∨ ([2, 3] : List Nat) ≠ []) ∧
    MVSlot.setAllocSize [1] [2, 3] ≠ 11 :=
  ⟨C9_clear_free_size_mismatch.1 _,
   Or.inl (by simp),
   C9_clear_free_size_mismatch.2 [1] [2, 3] (Or.inl (by simp))⟩

/-- Modelled from the spec: `LEAF_KEYS` (slots per leaf, denoted L, even, with
`LEAF_KEYS_MIDPOINT = L / 2`).  The header `mvtree.h` defining the constant is not
part of src/; scenario S4 of the spec fixes L = 48. -/
def LEAF_KEYS : Nat := 48

/-- Modelled from the spec: `LEAF_KEYS_MIDPOINT` = L / 2. -/
def LEAF_KEYS_MIDPOINT : Nat := LEAF_KEYS / 2

/-- Modelled from the spec: `INNER_KEYS` (separator keys per inner node, denoted I).
The header `mvtree.h` defining the constant is not part of src/; the spec fixes
`INNER_KEYS_UPPER = ceil((I+1)/2)` and `INNER_KEYS_MIDPOINT = I - INNER_KEYS_UPPER + 1`;
the concrete fanout is taken to be 4. -/
def INNER_KEYS : Nat := 4

/-- Modelled from the spec: `INNER_KEYS_UPPER = ceil((I+1)/2)`. -/
def INNER_KEYS_UPPER : Nat := (INNER_KEYS + 1 + 1) / 2

/-- Modelled from the spec: `INNER_KEYS_MIDPOINT = I - INNER_KEYS_UPPER + 1`. -/
def INNER_KEYS_MIDPOINT : Nat := INNER_KEYS - INNER_KEYS_UPPER + 1

/-- Abstract content of a non-empty persistent slot (`MVSlot` whose `kv` block is
allocated): the stored hash byte, key bytes and value bytes.  The byte-level
layout of the block is verified separately (`MVSlot.setBlock`). -/
structure PSlot where
  hash : Nat
  key : Key
  val : Val
deriving DecidableEq

/-- A persistent leaf (`MVLeaf`): an array of `LEAF_KEYS` persistent slots,
`none` denoting an empty slot.  The `next` pointer is represented by the leaf's
position in the engine's list of leaf ids. -/
abbrev PLeaf := List (Option PSlot)

/-- Persistent leaves are addressed by allocation ids into the engine heap. -/
abbrev LeafId := Nat

/-- A volatile tree node: either a leaf descriptor (`MVLeafNode`, mirroring one
persistent leaf: an array of `LEAF_KEYS` hash bytes with 0 denoting an empty
slot, an array of `LEAF_KEYS` mirror keys, and the id of its persistent leaf),
or an inner routing node (`MVInnerNode`, with `keycount` separator keys and
`keycount + 1` children; the model keeps exactly the active prefixes of the
fixed-capacity arrays, unused child entries being null in the source). -/
inductive MVNode where
  | leafN (hashes : List Nat) (keys : List Key) (leaf : LeafId)
  | innerN (keys : List Key) (children : List MVNode)

instance : Inhabited MVNode := ⟨.leafN [] [] 0⟩

/-- The persistent and shared-volatile parts of the engine state that the write
operations thread through: the heap of all allocated persistent leaves (by
allocation id), the persistent linked list of leaves anchored at
`kv_root->head` (as the list of ids in list order), and the volatile
`leaves_prealloc` recycling pool. -/
structure PEnv where
  heap : List PLeaf
  headIds : List LeafId
  leaves_prealloc : List LeafId
deriving DecidableEq

/-- The whole engine state: the persistent environment plus the volatile
routing tree root `tree_top` (null for an empty tree). -/
structure MVTreeState where
  env : PEnv
  tree_top : Option MVNode

/-- The status enum of the public engine operations. -/
inductive KVStatus where
  | OK
  | FAILED
  | NOT_FOUND
deriving DecidableEq

/-- The child index `MVTree::LeafSearch` descends into at an inner node: scan
the separators left to right and take the first index whose separator satisfies
`key.compare(keys[idx]) <= 0`; if none matches take index `keycount`. -/
def searchIdx (keys : List Key) (k : Key) : Nat :=
  match keys with
  | [] => 0
  | s :: rest => if keyLe k s then 0 else searchIdx rest k + 1

mutual

/-- `MVTree::LeafSearch`: descend the volatile routing tree to the leaf
descriptor responsible for the key; returns its mirror arrays and leaf id. -/
def LeafSearch (k : Key) : MVNode → List Nat × List Key × LeafId
  | .leafN hs ks id => (hs, ks, id)
  | .innerN keys children => LeafSearchChild k children (searchIdx keys k)

/-- Walk to the `idx`-th child and continue `LeafSearch` there.  (The empty
case is unreachable: under the node invariants `children[idx]` is non-null.) -/
def LeafSearchChild (k : Key) : List MVNode → Nat → List Nat × List Key × LeafId
  | [], _ => ([], [], 0)
  | c :: _, 0 => LeafSearch k c
  | _ :: cs, n + 1 => LeafSearchChild k cs n

end

/-- `MVTree::LeafFillSpecificSlot`: if the mirror hash of the slot is 0, write
the hash and key into the descriptor's mirror arrays; in all cases overwrite the
persistent slot with `set(hash, key, value)`.  Returns the updated mirror
arrays and persistent leaf content. -/
def LeafFillSpecificSlot (hs : List Nat) (ks : List Key) (pl : PLeaf)
    (h : Nat) (k : Key) (v : Val) (slot : Nat) :
    List Nat × List Key × PLeaf :=
  if hs.getD slot 0 = 0 then
    (hs.set slot h, ks.set slot k, pl.set slot (some ⟨h, k, v⟩))
  else
    (hs, ks, pl.set slot (some ⟨h, k, v⟩))

/-- The descending scan of `MVTree::LeafFillSlotForKey`: iterate slots from
`LEAF_KEYS - 1` down to 0, tracking the last empty slot seen, and stop at the
first slot whose hash and key both match.  Returns
`(last_empty_slot, key_match_slot)`. -/
def scanFillSlots (hs : List Nat) (ks : List Key) (h : Nat) (k : Key) :
    Nat → Option Nat → Option Nat × Option Nat
  | 0, lastEmpty => (lastEmpty, none)
  | n + 1, lastEmpty =>
      let sh := hs.getD n 0
      if sh = 0 then scanFillSlots hs ks h k n (some n)
      else if sh = h ∧ ks.getD n [] = k then (lastEmpty, some n)
      else scanFillSlots hs ks h k n lastEmpty

/-- `MVTree::LeafFillSlotForKey`: pick the matching slot if any, else the last
empty slot seen; fill it via `LeafFillSpecificSlot` (inside one persistent
transaction).  Returns `none` when no slot could absorb the write (the caller
then splits). -/
def LeafFillSlotForKey (hs : List Nat) (ks : List Key) (pl : PLeaf)
    (h : Nat) (k : Key) (v : Val) :
    Option (List Nat × List Key × PLeaf) :=
  match scanFillSlots hs ks h k LEAF_KEYS none with
  | (lastEmpty, keyMatch) =>
      match keyMatch with
      | some slot => some (LeafFillSpecificSlot hs ks pl h k v slot)
      | none =>
          match lastEmpty with
          | some slot => some (LeafFillSpecificSlot hs ks pl h k v slot)
          | none => none

/-- The descending scan of `MVTree::LeafFillEmptySlot`: the first slot (from
`LEAF_KEYS - 1` down) whose mirror hash is 0. -/
def findEmptySlotDesc (hs : List Nat) : Nat → Option Nat
  | 0 => none
  | n + 1 => if hs.getD n 0 = 0 then some n else findEmptySlotDesc hs n

/-- `MVTree::LeafFillEmptySlot`: fill the first empty slot found by the
descending scan; a no-op when the leaf is full. -/
def LeafFillEmptySlot (hs : List Nat) (ks : List Key) (pl : PLeaf)
    (h : Nat) (k : Key) (v : Val) :
    List Nat × List Key × PLeaf :=
  match findEmptySlotDesc hs LEAF_KEYS with
  | some slot => LeafFillSpecificSlot hs ks pl h k v slot
  | none => (hs, ks, pl)

/-- Obtain the persistent leaf for a split or first insert, as in the bodies of
`MVTree::Put` and `MVTree::LeafSplitFull`: pop the back of `leaves_prealloc`
when it is non-empty; otherwise `make_persistent` a fresh (zero-initialised)
leaf and prepend it to the persistent linked list. -/
def obtainLeaf (env : PEnv) : LeafId × PEnv :=
  match env.leaves_prealloc.getLast? with
  | some id =>
      (id, { env with leaves_prealloc := env.leaves_prealloc.dropLast })
  | none =>
      let id := env.heap.length
      (id, { heap := env.heap ++ [List.replicate LEAF_KEYS none],
             headIds := id :: env.headIds,
             leaves_prealloc := env.leaves_prealloc })

/-- The state of the two leaves being rearranged by `MVTree::LeafSplitFull`. -/
structure LeafPair where
  srcHs : List Nat
  srcKs : List Key
  srcPl : PLeaf
  newHs : List Nat
  newKs : List Key
  newPl : PLeaf

/-- The slot-moving loop of `MVTree::LeafSplitFull` (iterating slots from
`LEAF_KEYS - 1` down to 0): for every slot whose mirror key sorts strictly above
the split key, swap the persistent slot into the same slot index of the new
leaf, copy the mirror hash and key to the new descriptor, and clear the mirrors
in the source. -/
def splitMoveLoop (sk : Key) : Nat → LeafPair → LeafPair
  | 0, st => st
  | n + 1, st =>
      let st' :=
        if keyGt (st.srcKs.getD n []) sk then
          { srcHs := st.srcHs.set n 0
            srcKs := st.srcKs.set n []
            srcPl := st.srcPl.set n (st.newPl.getD n none)
            newHs := st.newHs.set n (st.srcHs.getD n 0)
            newKs := st.newKs.set n (st.srcKs.getD n [])
            newPl := st.newPl.set n (st.srcPl.getD n none) }
        else st
      splitMoveLoop sk n st'

/-- Result of `MVTree::LeafSplitFull`: the updated environment, the rewritten
source descriptor, the new sibling descriptor, and the split key. -/
structure SplitResult where
  env : PEnv
  srcHs : List Nat
  srcKs : List Key
  sibHs : List Nat
  sibKs : List Key
  sibId : LeafId
  splitKey : Key

/-- `MVTree::LeafSplitFull`: build the sorted union of the `LEAF_KEYS` mirror
keys plus the incoming key; the split key is the element at index
`LEAF_KEYS_MIDPOINT`; obtain a new persistent leaf; move every slot whose key
sorts strictly above the split key to the new leaf; then place the incoming
pair in the new descriptor when `key.compare(split_key) > 0` and in the source
descriptor otherwise, via `LeafFillEmptySlot`. -/
def LeafSplitFull (env : PEnv) (hs : List Nat) (ks : List Key) (id : LeafId)
    (h : Nat) (k : Key) (v : Val) : SplitResult :=
  let sorted := sortBy keyLe (ks ++ [k])
  let sk := sorted.getD LEAF_KEYS_MIDPOINT []
  let (nid, env1) := obtainLeaf env
  let st0 : LeafPair :=
    { srcHs := hs, srcKs := ks, srcPl := env1.heap.getD id []
      newHs := List.replicate LEAF_KEYS 0
      newKs := List.replicate LEAF_KEYS []
      newPl := env1.heap.getD nid [] }
  let st := splitMoveLoop sk LEAF_KEYS st0
  let st2 :=
    if keyGt k sk then
      match LeafFillEmptySlot st.newHs st.newKs st.newPl h k v with
      | (nh, nk, npl) => { st with newHs := nh, newKs := nk, newPl := npl }
    else
      match LeafFillEmptySlot st.srcHs st.srcKs st.srcPl h k v with
      | (sh, sks, spl) => { st with srcHs := sh, srcKs := sks, srcPl := spl }
  { env := { env1 with heap := (env1.heap.set id st2.srcPl).set nid st2.newPl }
    srcHs := st2.srcHs
    srcKs := st2.srcKs
    sibHs := st2.newHs
    sibKs := st2.newKs
    sibId := nid
    splitKey := sk }

/-- The separator-insertion position of `MVTree::InnerUpdateAfterSplit`:
`while (idx < keycount && inner->keys[idx].compare(*split_key) <= 0) idx++`. -/
def insIdx (keys : List Key) (sk : Key) : Nat :=
  match keys with
  | [] => 0
  | s :: rest => if keyLe s sk then insIdx rest sk + 1 else 0

/-- The per-node step of `MVTree::InnerUpdateAfterSplit`: insert the split key
at the scan position and the new sibling right of it; if the node now holds
more than `INNER_KEYS` keys, split it at the midpoint, keeping
`INNER_KEYS_MIDPOINT` keys on each side and promoting the key at index
`INNER_KEYS_MIDPOINT` (returned with the new sibling node for the recursive
parent update). -/
def innerInsertStep (keys : List Key) (children : List MVNode) (sk : Key)
    (sib : MVNode) : MVNode × Option (MVNode × Key) :=
  let idx := insIdx keys sk
  let keys2 := keys.take idx ++ sk :: keys.drop idx
  let children2 := children.take (idx + 1) ++ sib :: children.drop (idx + 1)
  if keys2.length ≤ INNER_KEYS then
    (.innerN keys2 children2, none)
  else
    let promoted := keys2.getD INNER_KEYS_MIDPOINT []
    (.innerN (keys2.take INNER_KEYS_MIDPOINT) (children2.take (INNER_KEYS_MIDPOINT + 1)),
     some (.innerN (keys2.drop INNER_KEYS_UPPER) (children2.drop INNER_KEYS_UPPER), promoted))

mutual

/-- The action of `MVTree::Put` on an existing tree, at one node: at the leaf
reached by `LeafSearch`, try `LeafFillSlotForKey` (one transaction) and fall
back to `LeafSplitFull`; on the way back up, perform the parent update of
`InnerUpdateAfterSplit` whenever the child below was split.  (The C++ code
propagates the split along parent pointers from the found leaf; the parent
chain is exactly the descent path of `LeafSearch`, handled here on return.)
Returns the updated environment and node, and the new sibling and split key
when this node itself was split. -/
def putRec (env : PEnv) (h : Nat) (k : Key) (v : Val) :
    MVNode → PEnv × MVNode × Option (MVNode × Key)
  | .leafN hs ks id =>
      let pl := env.heap.getD id []
      match LeafFillSlotForKey hs ks pl h k v with
      | some (hs2, ks2, pl2) =>
          ({ env with heap := env.heap.set id pl2 }, .leafN hs2 ks2 id, none)
      | none =>
          let r := LeafSplitFull env hs ks id h k v
          (r.env, .leafN r.srcHs r.srcKs id,
           some (.leafN r.sibHs r.sibKs r.sibId, r.splitKey))
  | .innerN keys children =>
      match putChildren env h k v children (searchIdx keys k) with
      | (env2, children2, os) =>
          match os with
          | none => (env2, .innerN keys children2, none)
          | some (sib, sk) =>
              match innerInsertStep keys children2 sk sib with
              | (n2, os2) => (env2, n2, os2)

/-- Apply `putRec` to the `idx`-th child, leaving the others unchanged. -/
def putChildren (env : PEnv) (h : Nat) (k : Key) (v : Val) :
    List MVNode → Nat → PEnv × List MVNode × Option (MVNode × Key)
  | [], _ => (env, [], none)
  | c :: cs, 0 =>
      match putRec env h k v c with
      | (env2, c2, os) => (env2, c2 :: cs, os)
  | c :: cs, n + 1 =>
      match putChildren env h k v cs n with
      | (env2, cs2, os) => (env2, c :: cs2, os)

end

/-- `MVTree::Put` (the successful execution, in which every persistent
transaction commits).  On an empty tree, obtain a persistent leaf (preferring
the prealloc pool, else prepending a fresh leaf to the persistent list), fill
slot 0 via `LeafFillSpecificSlot`, and install the descriptor as the top.
Otherwise run the fill-or-split insertion; a split that bubbles out of the root
creates a new top inner node with one separator. -/
def Put (s : MVTreeState) (k : Key) (v : Val) : MVTreeState :=
  let h := PearsonHash k
  match s.tree_top with
  | none =>
      match obtainLeaf s.env with
      | (id, env1) =>
          match LeafFillSpecificSlot (List.replicate LEAF_KEYS 0)
              (List.replicate LEAF_KEYS []) (env1.heap.getD id []) h k v 0 with
          | (hs2, ks2, pl2) =>
              { env := { env1 with heap := env1.heap.set id pl2 },
                tree_top := some (.leafN hs2 ks2 id) }
  | some t =>
      match putRec s.env h k v t with
      | (env2, t2, none) => { env := env2, tree_top := some t2 }
      | (env2, t2, some (sib, sk)) =>
          { env := env2, tree_top := some (.innerN [sk] [t2, sib]) }

/-- The descending removal scan of `MVTree::Remove`: on the first slot whose
hash and key both match, zero the mirror hash, clear the mirror key, clear the
persistent slot (inside a transaction), and stop. -/
def removeSlotScan (hs : List Nat) (ks : List Key) (pl : PLeaf)
    (h : Nat) (k : Key) : Nat → List Nat × List Key × PLeaf
  | 0 => (hs, ks, pl)
  | n + 1 =>
      if hs.getD n 0 = h ∧ ks.getD n [] = k then
        (hs.set n 0, ks.set n [], pl.set n none)
      else removeSlotScan hs ks pl h k n

mutual

/-- The action of `MVTree::Remove` on the leaf reached by `LeafSearch`. -/
def removeRec (env : PEnv) (h : Nat) (k : Key) : MVNode → PEnv × MVNode
  | .leafN hs ks id =>
      let pl := env.heap.getD id []
      match removeSlotScan hs ks pl h k LEAF_KEYS with
      | (hs2, ks2, pl2) =>
          ({ env with heap := env.heap.set id pl2 }, .leafN hs2 ks2 id)
  | .innerN keys children =>
      match removeChildren env h k children (searchIdx keys k) with
      | (env2, children2) => (env2, .innerN keys children2)

/-- Apply `removeRec` to the `idx`-th child, leaving the others unchanged. -/
def removeChildren (env : PEnv) (h : Nat) (k : Key) :
    List MVNode → Nat → PEnv × List MVNode
  | [], _ => (env, [])
  | c :: cs, 0 =>
      match removeRec env h k c with
      | (env2, c2) => (env2, c2 :: cs)
  | c :: cs, n + 1 =>
      match removeChildren env h k cs n with
      | (env2, cs2) => (env2, c :: cs2)

end

/-- `MVTree::Remove`: idempotent removal; a null tree returns `OK` at once. -/
def Remove (s : MVTreeState) (k : Key) : MVTreeState :=
  match s.tree_top with
  | none => s
  | some t =>
      match removeRec s.env (PearsonHash k) k t with
      | (env2, t2) => { env := env2, tree_top := some t2 }

/-- The descending lookup scan shared by the two `MVTree::Get` overloads: the
first slot (from `LEAF_KEYS - 1` down) whose mirror hash equals the key's hash
and whose mirror key equals the key. -/
def leafFindSlot (hs : List Nat) (ks : List Key) (h : Nat) (k : Key) :
    Nat → Option Nat
  | 0 => none
  | n + 1 =>
      if hs.getD n 0 = h ∧ ks.getD n [] = k then some n
      else leafFindSlot hs ks h k n

/-- The search-and-scan common to both `MVTree::Get` overloads: `LeafSearch`,
then the descending hash scan, then the read of the matched persistent slot.
Returns `none` when the tree is empty or no slot matches, and `some` of the
matched slot's content otherwise.  (A matched mirror over an empty persistent
slot cannot occur in a reachable state; the C++ would dereference null there,
and the model reports a miss.) -/
def findSlot (s : MVTreeState) (k : Key) : Option (Option PSlot) :=
  match s.tree_top with
  | none => none
  | some t =>
      match LeafSearch k t with
      | (hs, ks, id) =>
          match leafFindSlot hs ks (PearsonHash k) k LEAF_KEYS with
          | some slot => some ((s.env.heap.getD id []).getD slot none)
          | none => none

/-- The value `MVTree::Get` observes for a key, if any. -/
def GetOpt (s : MVTreeState) (k : Key) : Option Val :=
  match findSlot s k with
  | some (some ps) => some ps.val
  | _ => none

/-- `MVTree::Get(key, value)` (the string overload): on a hit the stored value
is appended (`value->append`) to the output string, which is otherwise left
untouched. -/
def GetStr (s : MVTreeState) (k : Key) (value : Val) : KVStatus × Val :=
  match findSlot s k with
  | some (some ps) => (.OK, value ++ ps.val)
  | _ => (.NOT_FOUND, value)

/-- `MVTree::Get(limit, keybytes, valuebytes, key, value)` (the buffer-limit
overload).  Returns the status, the size written to `*valuebytes` (if any), and
the bytes copied into the output buffer (if any).  The stored value's size is
written to `*valuebytes` before the limit check; the value is copied and `OK`
returned when `valsize <= limit`, else `FAILED` with the buffer untouched. -/
def GetLimited (s : MVTreeState) (limit : Int) (k : Key) :
    KVStatus × Option Nat × Option Val :=
  match findSlot s k with
  | some (some ps) =>
      let vs := ps.val.length
      if (vs : Int) ≤ limit then (.OK, some vs, some ps.val)
      else (.FAILED, some vs, none)
  | _ => (.NOT_FOUND, none, none)

/-- The keys of the non-empty slots of one persistent leaf, in the descending
slot order the enumeration loops use. -/
def leafKeysDesc (pl : PLeaf) : Nat → List Key
  | 0 => []
  | n + 1 =>
      match pl.getD n none with
      | some ps => ps.key :: leafKeysDesc pl n
      | none => leafKeysDesc pl n

/-- `MVTree::ListAllKeys`: walk the persistent linked list and emit the key of
every non-empty slot (slots scanned in descending order within each leaf). -/
def ListAllKeys (s : MVTreeState) : List Key :=
  (s.env.headIds.map (fun id => leafKeysDesc (s.env.heap.getD id []) LEAF_KEYS)).flatten

/-- Accumulator of the per-leaf recovery scan of `MVTree::Recover`: the mirror
arrays being rebuilt and the largest key seen so far (`none` while the leaf
looks empty). -/
structure RecoverAcc where
  hs : List Nat
  ks : List Key
  maxKey : Option Key

/-- The per-leaf scan of `MVTree::Recover` (slots from `LEAF_KEYS - 1` down to
0): skip empty slots; copy the stored hash into the mirror array; skip a zero
stored hash; otherwise track the lexicographically largest key and copy the key
into the mirror array. -/
def recoverLeafLoop (pl : PLeaf) : Nat → RecoverAcc → RecoverAcc
  | 0, acc => acc
  | n + 1, acc =>
      match pl.getD n none with
      | none => recoverLeafLoop pl n acc
      | some ps =>
          if ps.hash = 0 then
            recoverLeafLoop pl n { acc with hs := acc.hs.set n ps.hash }
          else
            let mk :=
              match acc.maxKey with
              | none => ps.key
              | some m => if keyLt m ps.key then ps.key else m
            recoverLeafLoop pl n
              { hs := acc.hs.set n ps.hash
                ks := acc.ks.set n ps.key
                maxKey := some mk }

/-- One recovered leaf descriptor together with its largest live key
(`MVRecoveredLeaf`). -/
def recoverLeaf (heap : List PLeaf) (id : LeafId) : RecoverAcc :=
  recoverLeafLoop (heap.getD id []) LEAF_KEYS
    { hs := List.replicate LEAF_KEYS 0
      ks := List.replicate LEAF_KEYS []
      maxKey := none }

/-- The list walk of `MVTree::Recover`: build a descriptor for every leaf of
the persistent list; leaves with no live slot go to `leaves_prealloc`, the
others are collected (in list order) with their max keys. -/
def recoverWalk (heap : List PLeaf) : List LeafId → List (MVNode × Key) × List LeafId
  | [] => ([], [])
  | id :: rest =>
      let acc := recoverLeaf heap id
      match recoverWalk heap rest with
      | (ls, pre) =>
          match acc.maxKey with
          | none => (ls, id :: pre)
          | some mk => ((.leafN acc.hs acc.ks id, mk) :: ls, pre)

mutual

/-- The functional form of `MVTree::InnerUpdateAfterSplit` as invoked by
`Recover`: the node it starts from (`prevnode`) is always the rightmost leaf of
the tree built so far, so the C++ parent-pointer walk is exactly the rightmost
spine, handled here by descending to the last child and performing the
`innerInsertStep` parent updates on return. -/
def insertRightmost (sib : MVNode) (sk : Key) : MVNode → MVNode × Option (MVNode × Key)
  | .leafN hs ks id => (.leafN hs ks id, some (sib, sk))
  | .innerN keys children =>
      match insertRightmostChildren sib sk children with
      | (children2, none) => (.innerN keys children2, none)
      | (children2, some (sib2, sk2)) => innerInsertStep keys children2 sk2 sib2

/-- Descend to the last child of the list (the rightmost spine). -/
def insertRightmostChildren (sib : MVNode) (sk : Key) :
    List MVNode → List MVNode × Option (MVNode × Key)
  | [] => ([], none)
  | [c] =>
      match insertRightmost sib sk c with
      | (c2, os) => ([c2], os)
  | c :: cs =>
      match insertRightmostChildren sib sk cs with
      | (cs2, os) => (c :: cs2, os)

end

/-- One iteration of the tree rebuild of `MVTree::Recover`:
`InnerUpdateAfterSplit(prevnode, next_leaf, prev_max_key)`, creating a fresh
top inner node when the split reaches the root. -/
def installLeaf (t : MVNode) (sk : Key) (sib : MVNode) : MVNode :=
  match insertRightmost sib sk t with
  | (t2, none) => t2
  | (t2, some (sib2, sk2)) => .innerN [sk2] [t2, sib2]

/-- The rebuild loop of `MVTree::Recover` over the sorted recovered leaves. -/
def buildLoop : MVNode → Key → List (MVNode × Key) → MVNode
  | t, _, [] => t
  | t, mk, (n, nmk) :: rest => buildLoop (installLeaf t mk n) nmk rest

/-- `MVTree::Recover`: walk the persistent list, keep all-empty leaves in
`leaves_prealloc`, sort the remaining recovered leaves by max key ascending,
and rebuild the routing tree by installing them left to right. -/
def RecoverState (heap : List PLeaf) (headIds : List LeafId) : MVTreeState :=
  match recoverWalk heap headIds with
  | (ls, pre) =>
      let sorted := sortBy (fun a b => keyLe a.2 b.2) ls
      { env := { heap := heap, headIds := headIds, leaves_prealloc := pre }
        tree_top :=
          match sorted with
          | [] => none
          | (t0, mk0) :: rest => some (buildLoop t0 mk0 rest) }

/-- A fresh engine: a newly created pool whose root holds an empty leaf list;
the constructor's `Recover` finds nothing. -/
def initialState : MVTreeState := RecoverState [] []

/-- One client write operation. -/
inductive Op where
  | put (k : Key) (v : Val)
  | del (k : Key)

/-- Apply one operation to the engine. -/
def applyOp (s : MVTreeState) : Op → MVTreeState
  | .put k v => Put s k v
  | .del k => Remove s k

/-- Run a sequence of operations on a fresh engine. -/
def run (ops : List Op) : MVTreeState := ops.foldl applyOp initialState

/-- The reference map semantics: the value of the most recent `put` for each
key, erased by `del`. -/
def mapStep (m : Key → Option Val) : Op → Key → Option Val
  | .put k v => fun q => if q = k then some v else m q
  | .del k => fun q => if q = k then none else m q

/-- The reference map after a sequence of operations on a fresh engine. -/
def specMap (ops : List Op) : Key → Option Val :=
  ops.foldl mapStep (fun _ => none)

/-- Consistency of one mirror entry with its persistent slot: an empty slot has
mirror hash 0; a full slot's mirror hash and key equal the stored ones, and the
stored hash is the (non-zero) Pearson hash of the stored key. -/
def slotOK (mh : Nat) (mk : Key) (s : Option PSlot) : Prop :=
  match s with
  | none => mh = 0
  | some ps => mh = ps.hash ∧ mk = ps.key ∧ ps.hash = PearsonHash ps.key ∧ ps.hash ≠ 0

/-- Consistency of a leaf descriptor with its persistent leaf. -/
structure LeafInv (hs : List Nat) (ks : List Key) (pl : PLeaf) : Prop where
  hs_len : hs.length = LEAF_KEYS
  ks_len : ks.length = LEAF_KEYS
  pl_len : pl.length = LEAF_KEYS
  slots : ∀ i, i < LEAF_KEYS → slotOK (hs.getD i 0) (ks.getD i []) (pl.getD i none)

/-- The live mirror keys of a leaf descriptor (descending slot order). -/
def liveKeysAux (hs : List Nat) (ks : List Key) : Nat → List Key
  | 0 => []
  | n + 1 =>
      if hs.getD n 0 = 0 then liveKeysAux hs ks n
      else ks.getD n [] :: liveKeysAux hs ks n

/-- All live mirror keys of a leaf descriptor. -/
def liveKeys (hs : List Nat) (ks : List Key) : List Key :=
  liveKeysAux hs ks LEAF_KEYS

/-- The entries of the non-empty slots of one persistent leaf (descending slot
order). -/
def leafEntriesAux (pl : PLeaf) : Nat → List (Key × Val)
  | 0 => []
  | n + 1 =>
      match pl.getD n none with
      | some ps => (ps.key, ps.val) :: leafEntriesAux pl n
      | none => leafEntriesAux pl n

mutual

/-- All live mirror keys stored in a subtree. -/
def nodeKeys : MVNode → List Key
  | .leafN hs ks _ => liveKeys hs ks
  | .innerN _ children => childrenKeys children

def childrenKeys : List MVNode → List Key
  | [] => []
  | c :: cs => nodeKeys c ++ childrenKeys cs

end

mutual

/-- The persistent leaf ids referenced by a subtree. -/
def nodeIds : MVNode → List LeafId
  | .leafN _ _ id => [id]
  | .innerN _ children => childrenIds children

def childrenIds : List MVNode → List LeafId
  | [] => []
  | c :: cs => nodeIds c ++ childrenIds cs

end

mutual

/-- All key-value entries stored in the persistent leaves of a subtree. -/
def nodeEntries (heap : List PLeaf) : MVNode → List (Key × Val)
  | .leafN _ _ id => leafEntriesAux (heap.getD id []) LEAF_KEYS
  | .innerN _ children => childrenEntries heap children

def childrenEntries (heap : List PLeaf) : List MVNode → List (Key × Val)
  | [] => []
  | c :: cs => nodeEntries heap c ++ childrenEntries heap cs

end

/-- First-match association lookup (used to state the map semantics). -/
def lookupKey : List (Key × Val) → Key → Option Val
  | [], _ => none
  | (k, v) :: rest, q => if q = k then some v else lookupKey rest q

/-- Strictly above an optional lower bound. -/
def aboveLo : Option Key → Key → Prop
  | none, _ => True
  | some l, k => l < k

/-- At or below an optional upper bound. -/
def belowHi : Option Key → Key → Prop
  | none, _ => True
  | some h, k => k ≤ h

/-- Strictly below an optional upper bound. -/
def strictBelow : Option Key → Key → Prop
  | none, _ => True
  | some h, k => k < h

/-- A key inside the half-open range of a subtree. -/
def inRange (lo hi : Option Key) (k : Key) : Prop := aboveLo lo k ∧ belowHi hi k

/-- Separator-chain soundness for one inner node: separators strictly
ascending and strictly inside the node's range. -/
def ChainBounds (lo hi : Option Key) (keys : List Key) : Prop :=
  keys.Chain' (· < ·) ∧ ∀ s ∈ keys, aboveLo lo s ∧ strictBelow hi s

/-- Lower bound of the range of the `i`-th child. -/
def sepLo (lo : Option Key) (keys : List Key) : Nat → Option Key
  | 0 => lo
  | i + 1 => some (keys.getD i [])

/-- Upper bound of the range of the `i`-th child. -/
def sepHi (hi : Option Key) (keys : List Key) (i : Nat) : Option Key :=
  if i < keys.length then some (keys.getD i []) else hi

/-- The routing-tree invariant: every leaf is consistent with the heap and its
keys lie inside the node's range; every inner node has `keycount + 1` children,
`1 ≤ keycount ≤ INNER_KEYS`, a sound separator chain, and children good for the
ranges the separators carve out. -/
inductive Good : Option Key → Option Key → List PLeaf → MVNode → Prop
  | leaf {lo hi : Option Key} {heap : List PLeaf} {hs : List Nat} {ks : List Key}
      {id : LeafId}
      (hid : id < heap.length)
      (hinv : LeafInv hs ks (heap.getD id []))
      (hrange : ∀ q ∈ liveKeys hs ks, inRange lo hi q) :
      Good lo hi heap (.leafN hs ks id)
  | inner {lo hi : Option Key} {heap : List PLeaf} {keys : List Key}
      {children : List MVNode}
      (hlen : children.length = keys.length + 1)
      (hk1 : 1 ≤ keys.length)
      (hk2 : keys.length ≤ INNER_KEYS)
      (hchain : ChainBounds lo hi keys)
      (hchild : ∀ i, i < children.length →
          Good (sepLo lo keys i) (sepHi hi keys i) heap (children.getD i default)) :
      Good lo hi heap (.innerN keys children)

/-- The reachable-state invariant maintained by every operation on a fresh
engine: the persistent list enumerates the heap exactly once, the prealloc pool
is empty, an absent top means an empty heap, and the routing tree is good, has
each heap leaf exactly once, and stores pairwise distinct keys. -/
structure RInv (s : MVTreeState) : Prop where
  perm : s.env.headIds.Perm (List.range s.env.heap.length)
  prealloc_nil : s.env.leaves_prealloc = []
  top_none : s.tree_top = none → s.env.heap = []
  top_good : ∀ t, s.tree_top = some t → Good none none s.env.heap t
  top_ids : ∀ t, s.tree_top = some t → (nodeIds t).Perm (List.range s.env.heap.length)
  top_nodup : ∀ t, s.tree_top = some t → (nodeKeys t).Nodup

theorem getD_set_self {α : Type _} {l : List α} {i : Nat} (h : i < l.length)
    (x d : α) : (l.set i x).getD i d = x := by
  simp [List.getD_eq_getElem?_getD, List.getElem?_set_self, h]

theorem getD_set_ne {α : Type _} {l : List α} {i j : Nat} (h : i ≠ j)
    (x d : α) : (l.set i x).getD j d = l.getD j d := by
  simp [List.getD_eq_getElem?_getD, List.getElem?_set_ne h]

theorem getD_replicate {α : Type _} {n i : Nat} (h : i < n) (a d : α) :
    (List.replicate n a).getD i d = a := by
  induction n generalizing i with
  | zero => omega
  | succ n ih =>
    cases i with
    | zero => rfl
    | succ i => exact ih (by omega)

theorem lookupKey_eq_none {l : List (Key × Val)} {q : Key} :
    lookupKey l q = none ↔ q ∉ l.map Prod.fst := by
  induction l with
  | nil => simp [lookupKey]
  | cons e rest ih =>
    match e with
    | (k, v) =>
      by_cases h : q = k
      · subst h
        simp [lookupKey]
      · simp [lookupKey, h, ih]

theorem lookupKey_mem {l : List (Key × Val)} {q : Key} {v : Val}
    (h : lookupKey l q = some v) : (q, v) ∈ l := by
  induction l with
  | nil => simp [lookupKey] at h
  | cons e rest ih =>
    match e with
    | (k, w) =>
      by_cases hq : q = k
      · subst hq
        simp [lookupKey] at h
        simp [h]
      · rw [lookupKey, if_neg hq] at h
        exact List.mem_cons_of_mem _ (ih h)

theorem lookupKey_of_mem_nodup {l : List (Key × Val)} {q : Key} {v : Val}
    (hmem : (q, v) ∈ l) (hnd : (l.map Prod.fst).Nodup) : lookupKey l q = some v := by
  induction l with
  | nil => simp at hmem
  | cons e rest ih =>
    match e with
    | (k, w) =>
      simp only [List.map_cons, List.nodup_cons] at hnd
      rcases List.mem_cons.mp hmem with he | hmem2
      · rw [Prod.mk.injEq] at he
        rcases he with ⟨h1, h2⟩
        subst h1
        subst h2
        simp [lookupKey]
      · have hqk : q ≠ k := by
          intro hq
          subst hq
          exact hnd.1 (List.mem_map.mpr ⟨(q, v), hmem2, rfl⟩)
        rw [lookupKey, if_neg hqk]
        exact ih hmem2 hnd.2

theorem lookupKey_append {a b : List (Key × Val)} {q : Key} :
    lookupKey (a ++ b) q =
      match lookupKey a q with
      | some v => some v
      | none => lookupKey b q := by
  induction a with
  | nil => simp [lookupKey]
  | cons e rest ih =>
    match e with
    | (k, v) =>
      by_cases h : q = k
      · subst h
        simp [lookupKey]
      · simp [lookupKey, h, ih]

theorem lookupKey_append_left {a b : List (Key × Val)} {q : Key}
    (h : q ∉ b.map Prod.fst) : lookupKey (a ++ b) q = lookupKey a q := by
  rw [lookupKey_append]
  rcases hl : lookupKey a q with _ | v
  · exact lookupKey_eq_none.mpr h
  · rfl

theorem lookupKey_append_right {a b : List (Key × Val)} {q : Key}
    (h : q ∉ a.map Prod.fst) : lookupKey (a ++ b) q = lookupKey b q := by
  rw [lookupKey_append, lookupKey_eq_none.mpr h]

/-- Membership in the entry list of a leaf is the same as having a slot. -/
theorem mem_leafEntriesAux {pl : PLeaf} {q : Key} {v : Val} :
    ∀ {n : Nat}, ((q, v) ∈ leafEntriesAux pl n ↔
      ∃ s, s < n ∧ ∃ ps, pl.getD s none = some ps ∧ ps.key = q ∧ ps.val = v) := by
  intro n
  induction n with
  | zero => simp [leafEntriesAux]
  | succ n ih =>
    rw [leafEntriesAux]
    rcases hn : pl.getD n none with _ | ps
    · rw [ih]
      constructor
      · rintro ⟨s, hs, hps⟩
        exact ⟨s, by omega, hps⟩
      · rintro ⟨s, hs, ps, hps, hk, hv⟩
        refine ⟨s, ?_, ps, hps, hk, hv⟩
        rcases Nat.lt_succ_iff_lt_or_eq.mp hs with h | h
        · exact h
        · subst h
          rw [hn] at hps
          cases hps
    · constructor
      · intro hmem
        rcases List.mem_cons.mp hmem with he | hmem2
        · rw [Prod.mk.injEq] at he
          exact ⟨n, by omega, ps, hn, he.1.symm, he.2.symm⟩
        · rcases ih.mp hmem2 with ⟨s, hs, hps⟩
          exact ⟨s, by omega, hps⟩
      · rintro ⟨s, hs, ps2, hps, hk, hv⟩
        rcases Nat.lt_succ_iff_lt_or_eq.mp hs with h | h
        · exact List.mem_cons_of_mem _ (ih.mpr ⟨s, h, ps2, hps, hk, hv⟩)
        · subst h
          rw [hn] at hps
          cases hps
          subst hk
          subst hv
          exact List.mem_cons_self _ _

/-- Membership in the live mirror keys of a leaf. -/
theorem mem_liveKeysAux {hs : List Nat} {ks : List Key} {q : Key} :
    ∀ {n : Nat}, (q ∈ liveKeysAux hs ks n ↔
      ∃ s, s < n ∧ hs.getD s 0 ≠ 0 ∧ ks.getD s [] = q) := by
  intro n
  induction n with
  | zero => simp [liveKeysAux]
  | succ n ih =>
    rw [liveKeysAux]
    by_cases hn : hs.getD n 0 = 0
    · rw [if_pos hn, ih]
      constructor
      · rintro ⟨s, hs1, hs2⟩
        exact ⟨s, by omega, hs2⟩
      · rintro ⟨s, hs1, hs2, hs3⟩
        refine ⟨s, ?_, hs2, hs3⟩
        rcases Nat.lt_succ_iff_lt_or_eq.mp hs1 with h | h
        · exact h
        · subst h
          exact absurd hn hs2
    · rw [if_neg hn]
      constructor
      · intro hmem
        rcases List.mem_cons.mp hmem with he | hmem2
        · exact ⟨n, by omega, hn, he.symm⟩
        · rcases ih.mp hmem2 with ⟨s, hs1, hs2⟩
          exact ⟨s, by omega, hs2⟩
      · rintro ⟨s, hs1, hs2, hs3⟩
        rcases Nat.lt_succ_iff_lt_or_eq.mp hs1 with h | h
        · exact List.mem_cons_of_mem _ (ih.mpr ⟨s, h, hs2, hs3⟩)
        · subst h
          subst hs3
          exact List.mem_cons_self _ _

/-- Under the leaf invariant the entry keys are exactly the live mirror keys. -/
theorem leafEntries_map_fst {hs : List Nat} {ks : List Key} {pl : PLeaf}
    (hinv : ∀ i, i < LEAF_KEYS → slotOK (hs.getD i 0) (ks.getD i []) (pl.getD i none)) :
    ∀ {n : Nat}, n ≤ LEAF_KEYS →
      (leafEntriesAux pl n).map Prod.fst = liveKeysAux hs ks n := by
  intro n
  induction n with
  | zero => intro _; simp [leafEntriesAux, liveKeysAux]
  | succ n ih =>
    intro hn
    have hok := hinv n (by omega)
    rw [leafEntriesAux, liveKeysAux]
    rcases hps : pl.getD n none with _ | ps
    · rw [hps] at hok
      have hz : hs.getD n 0 = 0 := hok
      rw [if_pos hz]
      exact ih (by omega)
    · rw [hps] at hok
      rcases hok with ⟨hh, hk, _, hnz⟩
      have hz : ¬ hs.getD n 0 = 0 := by rw [hh]; exact hnz
      rw [if_neg hz]
      have hihn := ih (by omega)
      simp [hihn, hk]
      rw [← List.getD_eq_getElem?_getD]
      exact hk.symm

/-- A key-match slot reported by the fill scan really matches. -/
theorem scanFill_match {hs : List Nat} {ks : List Key} {h : Nat} {k : Key} :
    ∀ {n : Nat} {acc le : Option Nat} {s : Nat},
      scanFillSlots hs ks h k n acc = (le, some s) →
      s < n ∧ hs.getD s 0 = h ∧ ks.getD s [] = k := by
  intro n
  induction n with
  | zero => intro acc le s hscan; cases hscan
  | succ n ih =>
    intro acc le s hscan
    rw [scanFillSlots] at hscan
    by_cases h0 : hs.getD n 0 = 0
    · rw [if_pos h0] at hscan
      rcases ih hscan with ⟨h1, h2⟩
      exact ⟨by omega, h2⟩
    · rw [if_neg h0] at hscan
      by_cases hm : hs.getD n 0 = h ∧ ks.getD n [] = k
      · rw [if_pos hm] at hscan
        cases hscan
        exact ⟨by omega, hm⟩
      · rw [if_neg hm] at hscan
        rcases ih hscan with ⟨h1, h2⟩
        exact ⟨by omega, h2⟩

/-- If the fill scan reports no key match, no slot matches. -/
theorem scanFill_nomatch {hs : List Nat} {ks : List Key} {h : Nat} {k : Key}
    (hne : h ≠ 0) :
    ∀ {n : Nat} {acc le : Option Nat},
      scanFillSlots hs ks h k n acc = (le, none) →
      ∀ i, i < n → ¬(hs.getD i 0 = h ∧ ks.getD i [] = k) := by
  intro n
  induction n with
  | zero => intro acc le _ i hi; omega
  | succ n ih =>
    intro acc le hscan i hi
    rw [scanFillSlots] at hscan
    by_cases h0 : hs.getD n 0 = 0
    · rw [if_pos h0] at hscan
      rcases Nat.lt_succ_iff_lt_or_eq.mp hi with h1 | h1
      · exact ih hscan i h1
      · subst h1
        intro hc
        rw [hc.1] at h0
        exact hne h0
    · rw [if_neg h0] at hscan
      by_cases hm : hs.getD n 0 = h ∧ ks.getD n [] = k
      · rw [if_pos hm] at hscan
        cases hscan
      · rw [if_neg hm] at hscan
        rcases Nat.lt_succ_iff_lt_or_eq.mp hi with h1 | h1
        · exact ih hscan i h1
        · subst h1
          exact hm

/-- The last-empty slot reported by the fill scan is empty (or the initial
accumulator). -/
theorem scanFill_le {hs : List Nat} {ks : List Key} {h : Nat} {k : Key} :
    ∀ {n : Nat} {acc le : Option Nat} {km : Option Nat},
      scanFillSlots hs ks h k n acc = (le, km) →
      le = acc ∨ ∃ s, le = some s ∧ s < n ∧ hs.getD s 0 = 0 := by
  intro n
  induction n with
  | zero =>
    intro acc le km hscan
    cases hscan
    exact Or.inl rfl
  | succ n ih =>
    intro acc le km hscan
    rw [scanFillSlots] at hscan
    by_cases h0 : hs.getD n 0 = 0
    · rw [if_pos h0] at hscan
      rcases ih hscan with h1 | ⟨s, h1, h2, h3⟩
      · exact Or.inr ⟨n, h1, by omega, h0⟩
      · exact Or.inr ⟨s, h1, by omega, h3⟩
    · rw [if_neg h0] at hscan
      by_cases hm : hs.getD n 0 = h ∧ ks.getD n [] = k
      · rw [if_pos hm] at hscan
        cases hscan
        exact Or.inl rfl
      · rw [if_neg hm] at hscan
        rcases ih hscan with h1 | ⟨s, h1, h2, h3⟩
        · exact Or.inl h1
        · exact Or.inr ⟨s, h1, by omega, h3⟩

/-- When the fill scan reports neither a match nor an empty slot, every slot in
range is occupied. -/
theorem scanFill_full {hs : List Nat} {ks : List Key} {h : Nat} {k : Key} :
    ∀ {n : Nat},
      scanFillSlots hs ks h k n none = (none, none) →
      ∀ i, i < n → hs.getD i 0 ≠ 0 := by
  intro n
  induction n with
  | zero => intro _ i hi; omega
  | succ n ih =>
    intro hscan i hi
    rw [scanFillSlots] at hscan
    by_cases h0 : hs.getD n 0 = 0
    · rw [if_pos h0] at hscan
      rcases scanFill_le hscan with h1 | ⟨s, h1, _⟩
      · cases h1
      · cases h1
    · rw [if_neg h0] at hscan
      by_cases hm : hs.getD n 0 = h ∧ ks.getD n [] = k
      · rw [if_pos hm] at hscan
        cases hscan
      · rw [if_neg hm] at hscan
        rcases Nat.lt_succ_iff_lt_or_eq.mp hi with h1 | h1
        · exact ih hscan i h1
        · subst h1; exact h0

/-- A slot reported by the lookup scan really matches. -/
theorem leafFindSlot_some {hs : List Nat} {ks : List Key} {h : Nat} {k : Key} :
    ∀ {n s : Nat}, leafFindSlot hs ks h k n = some s →
      s < n ∧ hs.getD s 0 = h ∧ ks.getD s [] = k := by
  intro n
  induction n with
  | zero => intro s hf; cases hf
  | succ n ih =>
    intro s hf
    rw [leafFindSlot] at hf
    by_cases hm : hs.getD n 0 = h ∧ ks.getD n [] = k
    · rw [if_pos hm] at hf
      cases hf
      exact ⟨by omega, hm⟩
    · rw [if_neg hm] at hf
      rcases ih hf with ⟨h1, h2⟩
      exact ⟨by omega, h2⟩

/-- If the lookup scan reports no slot, no slot matches. -/
theorem leafFindSlot_none {hs : List Nat} {ks : List Key} {h : Nat} {k : Key} :
    ∀ {n : Nat}, leafFindSlot hs ks h k n = none →
      ∀ i, i < n → ¬(hs.getD i 0 = h ∧ ks.getD i [] = k) := by
  intro n
  induction n with
  | zero => intro _ i hi; omega
  | succ n ih =>
    intro hf i hi
    rw [leafFindSlot] at hf
    by_cases hm : hs.getD n 0 = h ∧ ks.getD n [] = k
    · rw [if_pos hm] at hf
      cases hf
    · rw [if_neg hm] at hf
      rcases Nat.lt_succ_iff_lt_or_eq.mp hi with h1 | h1
      · exact ih hf i h1
      · subst h1; exact hm

/-- The lookup scan finds a slot whenever one matches. -/
theorem leafFindSlot_isSome {hs : List Nat} {ks : List Key} {h : Nat} {k : Key}
    {s : Nat} (hmh : hs.getD s 0 = h) (hmk : ks.getD s [] = k) :
    ∀ {n : Nat}, s < n → ∃ s2, leafFindSlot hs ks h k n = some s2 := by
  intro n hn
  rcases hf : leafFindSlot hs ks h k n with _ | s2
  · exact absurd ⟨hmh, hmk⟩ (leafFindSlot_none hf s hn)
  · exact ⟨s2, rfl⟩

/-- A slot reported by the empty-slot scan is empty. -/
theorem findEmptySlotDesc_some {hs : List Nat} :
    ∀ {n s : Nat}, findEmptySlotDesc hs n = some s → s < n ∧ hs.getD s 0 = 0 := by
  intro n
  induction n with
  | zero => intro s hf; cases hf
  | succ n ih =>
    intro s hf
    rw [findEmptySlotDesc] at hf
    by_cases h0 : hs.getD n 0 = 0
    · rw [if_pos h0] at hf
      cases hf
      exact ⟨by omega, h0⟩
    · rw [if_neg h0] at hf
      rcases ih hf with ⟨h1, h2⟩
      exact ⟨by omega, h2⟩

/-- The empty-slot scan finds a slot whenever one is empty. -/
theorem findEmptySlotDesc_isSome {hs : List Nat} {s : Nat}
    (h0 : hs.getD s 0 = 0) :
    ∀ {n : Nat}, s < n → ∃ s2, findEmptySlotDesc hs n = some s2 := by
  intro n
  induction n with
  | zero => intro h; omega
  | succ n ih =>
    intro hn
    rw [findEmptySlotDesc]
    by_cases hh : hs.getD n 0 = 0
    · exact ⟨n, by rw [if_pos hh]⟩
    · rw [if_neg hh]
      rcases Nat.lt_succ_iff_lt_or_eq.mp hn with h1 | h1
      · exact ih h1
      · subst h1
        exact absurd h0 hh

/-- The removal scan when no slot matches: identity. -/
theorem removeSlotScan_nomatch {hs : List Nat} {ks : List Key} {pl : PLeaf}
    {h : Nat} {k : Key} :
    ∀ {n : Nat}, (∀ i, i < n → ¬(hs.getD i 0 = h ∧ ks.getD i [] = k)) →
      removeSlotScan hs ks pl h k n = (hs, ks, pl) := by
  intro n
  induction n with
  | zero => intro _; rfl
  | succ n ih =>
    intro hno
    rw [removeSlotScan]
    rw [if_neg (hno n (by omega))]
    exact ih (fun i hi => hno i (by omega))

/-- The removal scan with a unique matching slot clears exactly that slot. -/
theorem removeSlotScan_match {hs : List Nat} {ks : List Key} {pl : PLeaf}
    {h : Nat} {k : Key} {s : Nat}
    (hmh : hs.getD s 0 = h) (hmk : ks.getD s [] = k) :
    ∀ {n : Nat}, s < n →
      (∀ i, i < n → i ≠ s → ¬(hs.getD i 0 = h ∧ ks.getD i [] = k)) →
      removeSlotScan hs ks pl h k n = (hs.set s 0, ks.set s [], pl.set s none) := by
  intro n
  induction n with
  | zero => intro h1; omega
  | succ n ih =>
    intro hn huniq
    rw [removeSlotScan]
    by_cases hns : n = s
    · subst hns
      rw [if_pos ⟨hmh, hmk⟩]
    · rw [if_neg (huniq n (by omega) hns)]
      exact ih (by omega) (fun i hi hine => huniq i (by omega) hine)

/-- Lookups agree on entry lists with distinct keys and the same members. -/
theorem lookupKey_ext {l l2 : List (Key × Val)}
    (hnd : (l.map Prod.fst).Nodup) (hnd2 : (l2.map Prod.fst).Nodup)
    (hiff : ∀ kv : Key × Val, kv ∈ l ↔ kv ∈ l2) (q : Key) :
    lookupKey l q = lookupKey l2 q := by
  rcases hl : lookupKey l q with _ | v
  · rcases hl2 : lookupKey l2 q with _ | v2
    · rfl
    · exfalso
      have hmem := lookupKey_mem hl2
      have hmem2 := (hiff _).mpr hmem
      have := lookupKey_of_mem_nodup hmem2 hnd
      rw [hl] at this
      cases this
  · have hmem := lookupKey_mem hl
    have hmem2 := (hiff _).mp hmem
    exact (lookupKey_of_mem_nodup hmem2 hnd2).symm

/-- Below the written slot, the live mirror keys are unchanged. -/
theorem liveKeysAux_set_low {hs : List Nat} {ks : List Key} {s : Nat}
    (x : Nat) (y : Key) : ∀ {n : Nat}, n ≤ s →
    liveKeysAux (hs.set s x) (ks.set s y) n = liveKeysAux hs ks n := by
  intro n
  induction n with
  | zero => intro _; rfl
  | succ n ih =>
    intro hn
    have hne : s ≠ n := by omega
    rw [liveKeysAux, liveKeysAux, getD_set_ne hne, getD_set_ne hne, ih (by omega)]

/-- Filling an empty slot adds exactly its key to the live mirror keys. -/
theorem liveKeysAux_set_perm {hs : List Nat} {ks : List Key} {s : Nat}
    {x : Nat} {y : Key}
    (hs0 : hs.getD s 0 = 0) (hx : x ≠ 0)
    (hsl : s < hs.length) (ksl : s < ks.length) :
    ∀ {n : Nat}, s < n →
    (liveKeysAux (hs.set s x) (ks.set s y) n).Perm (y :: liveKeysAux hs ks n) := by
  intro n
  induction n with
  | zero => intro h; omega
  | succ n ih =>
    intro hn
    by_cases hns : s = n
    · subst hns
      rw [liveKeysAux, liveKeysAux, getD_set_self hsl, getD_set_self ksl,
        if_neg hx, if_pos hs0, liveKeysAux_set_low x y (le_refl s)]
    · have hlt : s < n := by omega
      simp only [liveKeysAux]
      rw [getD_set_ne hns, getD_set_ne hns]
      by_cases h0 : hs.getD n 0 = 0
      · rw [if_pos h0, if_pos h0]
        exact ih hlt
      · rw [if_neg h0, if_neg h0]
        exact ((ih hlt).cons _).trans (List.Perm.swap _ _ _)

/-- Clearing a live slot removes exactly its key from the live mirror keys. -/
theorem liveKeysAux_clear_perm {hs : List Nat} {ks : List Key} {s : Nat}
    (hs0 : hs.getD s 0 ≠ 0)
    (hsl : s < hs.length) (ksl : s < ks.length) :
    ∀ {n : Nat}, s < n →
    (liveKeysAux hs ks n).Perm (ks.getD s [] :: liveKeysAux (hs.set s 0) (ks.set s []) n) := by
  intro n
  induction n with
  | zero => intro h; omega
  | succ n ih =>
    intro hn
    by_cases hns : s = n
    · subst hns
      rw [liveKeysAux, liveKeysAux, getD_set_self hsl, if_pos rfl, if_neg hs0,
        liveKeysAux_set_low 0 [] (le_refl s)]
    · have hlt : s < n := by omega
      simp only [liveKeysAux]
      rw [getD_set_ne hns, getD_set_ne hns]
      by_cases h0 : hs.getD n 0 = 0
      · rw [if_pos h0, if_pos h0]
        exact ih hlt
      · rw [if_neg h0, if_neg h0]
        exact (List.Perm.cons _ (ih hlt)).trans (List.Perm.swap _ _ _)

/-- Below the written slot, the entry list is unchanged. -/
theorem leafEntriesAux_set_low {pl : PLeaf} {s : Nat} (x : Option PSlot) :
    ∀ {n : Nat}, n ≤ s →
    leafEntriesAux (pl.set s x) n = leafEntriesAux pl n := by
  intro n
  induction n with
  | zero => intro _; rfl
  | succ n ih =>
    intro hn
    have hne : s ≠ n := by omega
    rw [leafEntriesAux, leafEntriesAux, getD_set_ne hne, ih (by omega)]

/-- Filling an empty persistent slot adds exactly its entry. -/
theorem leafEntriesAux_set_perm {pl : PLeaf} {s : Nat} {ps : PSlot}
    (h0 : pl.getD s none = none) (hsl : s < pl.length) :
    ∀ {n : Nat}, s < n →
    (leafEntriesAux (pl.set s (some ps)) n).Perm ((ps.key, ps.val) :: leafEntriesAux pl n) := by
  intro n
  induction n with
  | zero => intro h; omega
  | succ n ih =>
    intro hn
    by_cases hns : s = n
    · subst hns
      rw [leafEntriesAux, leafEntriesAux, getD_set_self hsl, h0,
        leafEntriesAux_set_low (some ps) (le_refl s)]
    · have hlt : s < n := by omega
      simp only [leafEntriesAux]
      rw [getD_set_ne hns]
      rcases hq : pl.getD n none with _ | ps2
      · exact ih hlt
      · exact ((ih hlt).cons _).trans (List.Perm.swap _ _ _)

/-- Clearing a live persistent slot removes exactly its entry. -/
theorem leafEntriesAux_clear_perm {pl : PLeaf} {s : Nat} {ps : PSlot}
    (h0 : pl.getD s none = some ps) (hsl : s < pl.length) :
    ∀ {n : Nat}, s < n →
    (leafEntriesAux pl n).Perm ((ps.key, ps.val) :: leafEntriesAux (pl.set s none) n) := by
  intro n
  induction n with
  | zero => intro h; omega
  | succ n ih =>
    intro hn
    by_cases hns : s = n
    · subst hns
      rw [leafEntriesAux, leafEntriesAux, getD_set_self hsl, h0,
        leafEntriesAux_set_low none (le_refl s)]
    · have hlt : s < n := by omega
      simp only [leafEntriesAux]
      rw [getD_set_ne hns]
      rcases hq : pl.getD n none with _ | ps2
      · exact ih hlt
      · exact (List.Perm.cons _ (ih hlt)).trans (List.Perm.swap _ _ _)

theorem slotOK_nonempty {mh : Nat} {mk : Key} {s : Option PSlot}
    (hok : slotOK mh mk s) (hne : mh ≠ 0) :
    ∃ ps, s = some ps ∧ mh = ps.hash ∧ mk = ps.key ∧ ps.hash = PearsonHash ps.key := by
  rcases s with _ | ps
  · exact absurd hok hne
  · rcases hok with ⟨h1, h2, h3, _⟩
    exact ⟨ps, rfl, h1, h2, h3⟩

theorem slotOK_empty {mh : Nat} {mk : Key} {s : Option PSlot}
    (hok : slotOK mh mk s) (h0 : mh = 0) : s = none := by
  rcases s with _ | ps
  · rfl
  · rcases hok with ⟨h1, _, _, h4⟩
    rw [h0] at h1
    exact absurd h1.symm h4

/-- Filling an empty slot: the leaf invariant is preserved, the key is added to
the live keys, and the leaf behaves as the map updated at the key. -/
theorem fill_empty_spec {hs : List Nat} {ks : List Key} {pl : PLeaf}
    {h s : Nat} {k : Key} {v : Val}
    (hinv : LeafInv hs ks pl) (hnd : (liveKeys hs ks).Nodup)
    (hkn : k ∉ liveKeys hs ks)
    (hs0 : hs.getD s 0 = 0) (hslt : s < LEAF_KEYS) (hh : h = PearsonHash k) :
    LeafInv (hs.set s h) (ks.set s k) (pl.set s (some ⟨h, k, v⟩)) ∧
    (liveKeys (hs.set s h) (ks.set s k)).Perm (k :: liveKeys hs ks) ∧
    (leafEntriesAux (pl.set s (some ⟨h, k, v⟩)) LEAF_KEYS).Perm
        ((k, v) :: leafEntriesAux pl LEAF_KEYS) ∧
    ∀ q, lookupKey (leafEntriesAux (pl.set s (some ⟨h, k, v⟩)) LEAF_KEYS) q
        = if q = k then some v else lookupKey (leafEntriesAux pl LEAF_KEYS) q := by
  have hhne : h ≠ 0 := by rw [hh]; exact PearsonHash_ne_zero k
  have hpls : pl.getD s none = none :=
    slotOK_empty (hinv.slots s hslt) hs0
  have hinv2 : LeafInv (hs.set s h) (ks.set s k) (pl.set s (some ⟨h, k, v⟩)) := by
    refine ⟨by rw [List.length_set]; exact hinv.hs_len,
            by rw [List.length_set]; exact hinv.ks_len,
            by rw [List.length_set]; exact hinv.pl_len, ?_⟩
    intro i hi
    by_cases his : i = s
    · subst his
      rw [getD_set_self (by rw [hinv.hs_len]; exact hslt),
          getD_set_self (by rw [hinv.ks_len]; exact hslt),
          getD_set_self (by rw [hinv.pl_len]; exact hslt)]
      exact ⟨rfl, rfl, hh, hhne⟩
    · have hsi : s ≠ i := fun he => his he.symm
      rw [getD_set_ne hsi, getD_set_ne hsi, getD_set_ne hsi]
      exact hinv.slots i hi
  have hlive : (liveKeys (hs.set s h) (ks.set s k)).Perm (k :: liveKeys hs ks) :=
    liveKeysAux_set_perm hs0 hhne (by rw [hinv.hs_len]; exact hslt)
      (by rw [hinv.ks_len]; exact hslt) hslt
  have hent : (leafEntriesAux (pl.set s (some ⟨h, k, v⟩)) LEAF_KEYS).Perm
      ((k, v) :: leafEntriesAux pl LEAF_KEYS) := by
    have := @leafEntriesAux_set_perm pl s ⟨h, k, v⟩ hpls
      (by rw [hinv.pl_len]; exact hslt) LEAF_KEYS hslt
    exact this
  have hnd2 : ((leafEntriesAux (pl.set s (some ⟨h, k, v⟩)) LEAF_KEYS).map Prod.fst).Nodup := by
    rw [leafEntries_map_fst hinv2.slots (le_refl LEAF_KEYS)]
    exact hlive.nodup_iff.mpr (List.nodup_cons.mpr ⟨hkn, hnd⟩)
  have hndold : ((leafEntriesAux pl LEAF_KEYS).map Prod.fst).Nodup := by
    rw [leafEntries_map_fst hinv.slots (le_refl LEAF_KEYS)]
    exact hnd
  refine ⟨hinv2, hlive, hent, ?_⟩
  intro q
  by_cases hq : q = k
  · subst hq
    rw [if_pos rfl]
    refine lookupKey_of_mem_nodup ?_ hnd2
    refine mem_leafEntriesAux.mpr ⟨s, hslt, ⟨h, q, v⟩, ?_, rfl, rfl⟩
    rw [getD_set_self (by rw [hinv.pl_len]; exact hslt)]
  · rw [if_neg hq]
    rcases hold : lookupKey (leafEntriesAux pl LEAF_KEYS) q with _ | w
    · rw [lookupKey_eq_none]
      rw [leafEntries_map_fst hinv2.slots (le_refl LEAF_KEYS)]
      intro hmem
      have hmem2 := hlive.mem_iff.mp hmem
      rcases List.mem_cons.mp hmem2 with he | hmem3
      · exact hq he
      · have : q ∈ (leafEntriesAux pl LEAF_KEYS).map Prod.fst := by
          rw [leafEntries_map_fst hinv.slots (le_refl LEAF_KEYS)]
          exact hmem3
        exact lookupKey_eq_none.mp hold this
    · have hmem := lookupKey_mem hold
      rcases mem_leafEntriesAux.mp hmem with ⟨i, hi, ps, hps, hk2, hv2⟩
      have his : i ≠ s := by
        intro he
        subst he
        rw [hps] at hpls
        cases hpls
      refine lookupKey_of_mem_nodup ?_ hnd2
      refine mem_leafEntriesAux.mpr ⟨i, hi, ps, ?_, hk2, hv2⟩
      rw [getD_set_ne (fun he => his he.symm)]
      exact hps

/-- Overwriting the slot that already holds the key: the mirrors are unchanged
and the leaf behaves as the map updated at the key. -/
theorem fill_overwrite_spec {hs : List Nat} {ks : List Key} {pl : PLeaf}
    {h s : Nat} {k : Key} {v : Val}
    (hinv : LeafInv hs ks pl) (hnd : (liveKeys hs ks).Nodup)
    (hsh : hs.getD s 0 = h) (hsk : ks.getD s [] = k)
    (hslt : s < LEAF_KEYS) (hh : h = PearsonHash k) :
    LeafInv hs ks (pl.set s (some ⟨h, k, v⟩)) ∧
    ∀ q, lookupKey (leafEntriesAux (pl.set s (some ⟨h, k, v⟩)) LEAF_KEYS) q
        = if q = k then some v else lookupKey (leafEntriesAux pl LEAF_KEYS) q := by
  have hhne : h ≠ 0 := by rw [hh]; exact PearsonHash_ne_zero k
  rcases slotOK_nonempty (hinv.slots s hslt) (by rw [hsh]; exact hhne)
    with ⟨psOld, hpsOld, _, hmkOld, _⟩
  have hinv2 : LeafInv hs ks (pl.set s (some ⟨h, k, v⟩)) := by
    refine ⟨hinv.hs_len, hinv.ks_len,
            by rw [List.length_set]; exact hinv.pl_len, ?_⟩
    intro i hi
    by_cases his : i = s
    · subst his
      rw [getD_set_self (by rw [hinv.pl_len]; exact hslt)]
      exact ⟨hsh, hsk, hh, hhne⟩
    · rw [getD_set_ne (fun he => his he.symm)]
      exact hinv.slots i hi
  have hnd2 : ((leafEntriesAux (pl.set s (some ⟨h, k, v⟩)) LEAF_KEYS).map Prod.fst).Nodup := by
    rw [leafEntries_map_fst hinv2.slots (le_refl LEAF_KEYS)]
    exact hnd
  have hndold : ((leafEntriesAux pl LEAF_KEYS).map Prod.fst).Nodup := by
    rw [leafEntries_map_fst hinv.slots (le_refl LEAF_KEYS)]
    exact hnd
  refine ⟨hinv2, ?_⟩
  intro q
  by_cases hq : q = k
  · subst hq
    rw [if_pos rfl]
    refine lookupKey_of_mem_nodup ?_ hnd2
    refine mem_leafEntriesAux.mpr ⟨s, hslt, ⟨h, q, v⟩, ?_, rfl, rfl⟩
    rw [getD_set_self (by rw [hinv.pl_len]; exact hslt)]
  · rw [if_neg hq]
    rcases hold : lookupKey (leafEntriesAux pl LEAF_KEYS) q with _ | w
    · rw [lookupKey_eq_none]
      rw [leafEntries_map_fst hinv2.slots (le_refl LEAF_KEYS)]
      intro hmem
      have : q ∈ (leafEntriesAux pl LEAF_KEYS).map Prod.fst := by
        rw [leafEntries_map_fst hinv.slots (le_refl LEAF_KEYS)]
        exact hmem
      exact lookupKey_eq_none.mp hold this
    · have hmem := lookupKey_mem hold
      rcases mem_leafEntriesAux.mp hmem with ⟨i, hi, ps, hps, hk2, hv2⟩
      have his : i ≠ s := by
        intro he
        subst he
        rw [hps] at hpsOld
        cases hpsOld
        rw [← hmkOld] at hk2
        exact hq (by rw [← hk2, hsk])
      refine lookupKey_of_mem_nodup ?_ hnd2
      refine mem_leafEntriesAux.mpr ⟨i, hi, ps, ?_, hk2, hv2⟩
      rw [getD_set_ne (fun he => his he.symm)]
      exact hps

/-- Clearing the slot that holds the key: the leaf invariant is preserved, the
key leaves the live keys, and the leaf behaves as the map with the key erased. -/
theorem remove_slot_spec {hs : List Nat} {ks : List Key} {pl : PLeaf}
    {h s : Nat} {k : Key}
    (hinv : LeafInv hs ks pl) (hnd : (liveKeys hs ks).Nodup)
    (hsh : hs.getD s 0 = h) (hsk : ks.getD s [] = k)
    (hslt : s < LEAF_KEYS) (hhne : h ≠ 0) :
    LeafInv (hs.set s 0) (ks.set s []) (pl.set s none) ∧
    (liveKeys hs ks).Perm (k :: liveKeys (hs.set s 0) (ks.set s [])) ∧
    ∀ q, lookupKey (leafEntriesAux (pl.set s none) LEAF_KEYS) q
        = if q = k then none else lookupKey (leafEntriesAux pl LEAF_KEYS) q := by
  have hs0 : hs.getD s 0 ≠ 0 := by rw [hsh]; exact hhne
  rcases slotOK_nonempty (hinv.slots s hslt) hs0
    with ⟨psOld, hpsOld, _, hmkOld, _⟩
  have hinv2 : LeafInv (hs.set s 0) (ks.set s []) (pl.set s none) := by
    refine ⟨by rw [List.length_set]; exact hinv.hs_len,
            by rw [List.length_set]; exact hinv.ks_len,
            by rw [List.length_set]; exact hinv.pl_len, ?_⟩
    intro i hi
    by_cases his : i = s
    · subst his
      rw [getD_set_self (by rw [hinv.hs_len]; exact hslt),
          getD_set_self (by rw [hinv.ks_len]; exact hslt),
          getD_set_self (by rw [hinv.pl_len]; exact hslt)]
      exact rfl
    · have hsi : s ≠ i := fun he => his he.symm
      rw [getD_set_ne hsi, getD_set_ne hsi, getD_set_ne hsi]
      exact hinv.slots i hi
  have hlive : (liveKeys hs ks).Perm (k :: liveKeys (hs.set s 0) (ks.set s [])) := by
    have := @liveKeysAux_clear_perm hs ks s hs0 (by rw [hinv.hs_len]; exact hslt)
      (by rw [hinv.ks_len]; exact hslt) LEAF_KEYS hslt
    rw [hsk] at this
    exact this
  have hnd2l : (liveKeys (hs.set s 0) (ks.set s [])).Nodup := by
    have := hlive.nodup_iff.mp hnd
    exact (List.nodup_cons.mp this).2
  have hkn2 : k ∉ liveKeys (hs.set s 0) (ks.set s []) := by
    have := hlive.nodup_iff.mp hnd
    exact (List.nodup_cons.mp this).1
  have hnd2 : ((leafEntriesAux (pl.set s none) LEAF_KEYS).map Prod.fst).Nodup := by
    rw [leafEntries_map_fst hinv2.slots (le_refl LEAF_KEYS)]
    exact hnd2l
  have hndold : ((leafEntriesAux pl LEAF_KEYS).map Prod.fst).Nodup := by
    rw [leafEntries_map_fst hinv.slots (le_refl LEAF_KEYS)]
    exact hnd
  refine ⟨hinv2, hlive, ?_⟩
  intro q
  by_cases hq : q = k
  · subst hq
    rw [if_pos rfl, lookupKey_eq_none]
    rw [leafEntries_map_fst hinv2.slots (le_refl LEAF_KEYS)]
    exact hkn2
  · rw [if_neg hq]
    rcases hold : lookupKey (leafEntriesAux pl LEAF_KEYS) q with _ | w
    · rw [lookupKey_eq_none]
      rw [leafEntries_map_fst hinv2.slots (le_refl LEAF_KEYS)]
      intro hmem
      have : q ∈ liveKeys hs ks := hlive.mem_iff.mpr (List.mem_cons_of_mem _ hmem)
      have hq2 : q ∈ (leafEntriesAux pl LEAF_KEYS).map Prod.fst := by
        rw [leafEntries_map_fst hinv.slots (le_refl LEAF_KEYS)]
        exact this
      exact lookupKey_eq_none.mp hold hq2
    · have hmem := lookupKey_mem hold
      rcases mem_leafEntriesAux.mp hmem with ⟨i, hi, ps, hps, hk2, hv2⟩
      have his : i ≠ s := by
        intro he
        subst he
        rw [hps] at hpsOld
        cases hpsOld
        exact hq (by rw [← hk2, ← hmkOld, hsk])
      refine lookupKey_of_mem_nodup ?_ hnd2
      refine mem_leafEntriesAux.mpr ⟨i, hi, ps, ?_, hk2, hv2⟩
      rw [getD_set_ne (fun he => his he.symm)]
      exact hps

/-- If no slot matches both the key's hash and the key, the key is not live in
the leaf (the stored hash of a live key is its Pearson hash). -/
theorem nomatch_not_live {hs : List Nat} {ks : List Key} {pl : PLeaf}
    {h : Nat} {k : Key}
    (hinv : LeafInv hs ks pl) (hh : h = PearsonHash k)
    (hno : ∀ i, i < LEAF_KEYS → ¬(hs.getD i 0 = h ∧ ks.getD i [] = k)) :
    k ∉ liveKeys hs ks := by
  intro hmem
  rcases mem_liveKeysAux.mp hmem with ⟨i, hi, hne, hkey⟩
  rcases slotOK_nonempty (hinv.slots i hi) hne with ⟨ps, _, hmh, hmk, hph⟩
  refine hno i hi ⟨?_, hkey⟩
  rw [hmh, hph, ← hmk, hkey, hh]

/-- Specification of `MVTree::LeafFillSlotForKey`: on success the leaf behaves
as the map updated at the key (an existing key is overwritten in place, a new
key fills an empty slot); failure means the leaf is full and does not hold the
key. -/
theorem LeafFillSlotForKey_spec {hs : List Nat} {ks : List Key} {pl : PLeaf}
    {h : Nat} {k : Key} {v : Val}
    (hinv : LeafInv hs ks pl) (hnd : (liveKeys hs ks).Nodup)
    (hh : h = PearsonHash k) :
    match LeafFillSlotForKey hs ks pl h k v with
    | some (hs2, ks2, pl2) =>
        LeafInv hs2 ks2 pl2 ∧
        ((k ∈ liveKeys hs ks ∧ hs2 = hs ∧ ks2 = ks) ∨
         (k ∉ liveKeys hs ks ∧ (liveKeys hs2 ks2).Perm (k :: liveKeys hs ks))) ∧
        ∀ q, lookupKey (leafEntriesAux pl2 LEAF_KEYS) q
            = if q = k then some v else lookupKey (leafEntriesAux pl LEAF_KEYS) q
    | none =>
        (∀ i, i < LEAF_KEYS → hs.getD i 0 ≠ 0) ∧ k ∉ liveKeys hs ks := by
  have hhne : h ≠ 0 := by rw [hh]; exact PearsonHash_ne_zero k
  unfold LeafFillSlotForKey
  rcases hscan : scanFillSlots hs ks h k LEAF_KEYS none with ⟨le, km⟩
  rcases km with _ | s
  · have hno := scanFill_nomatch hhne hscan
    rcases le with _ | s
    · exact ⟨scanFill_full hscan, nomatch_not_live hinv hh hno⟩
    · rcases scanFill_le hscan with hc | ⟨s2, hs2, hlt, h0⟩
      · cases hc
      · cases hs2
        have hkn := nomatch_not_live hinv hh hno
        unfold LeafFillSpecificSlot
        dsimp only
        rw [if_pos h0]
        rcases @fill_empty_spec hs ks pl h s k v hinv hnd hkn h0 hlt hh with ⟨h1, h2, _, h3⟩
        exact ⟨h1, Or.inr ⟨hkn, h2⟩, h3⟩
  · rcases scanFill_match hscan with ⟨hlt, hmh, hmk⟩
    have hmem : k ∈ liveKeys hs ks :=
      mem_liveKeysAux.mpr ⟨s, hlt, by rw [hmh]; exact hhne, hmk⟩
    unfold LeafFillSpecificSlot
    dsimp only
    rw [if_neg (by rw [hmh]; exact hhne)]
    rcases @fill_overwrite_spec hs ks pl h s k v hinv hnd hmh hmk hlt hh with ⟨h1, h3⟩
    exact ⟨h1, Or.inl ⟨hmem, rfl, rfl⟩, h3⟩

/-- Specification of the lookup scan on a consistent leaf: it computes the
association lookup of the leaf entries. -/
theorem leafGet_spec {hs : List Nat} {ks : List Key} {pl : PLeaf} {q : Key}
    (hinv : LeafInv hs ks pl) (hnd : (liveKeys hs ks).Nodup) :
    (match leafFindSlot hs ks (PearsonHash q) q LEAF_KEYS with
     | some s =>
         match pl.getD s none with
         | some ps => some ps.val
         | none => none
     | none => (none : Option Val))
    = lookupKey (leafEntriesAux pl LEAF_KEYS) q := by
  have hndold : ((leafEntriesAux pl LEAF_KEYS).map Prod.fst).Nodup := by
    rw [leafEntries_map_fst hinv.slots (le_refl LEAF_KEYS)]
    exact hnd
  rcases hf : leafFindSlot hs ks (PearsonHash q) q LEAF_KEYS with _ | s
  · have hno := leafFindSlot_none hf
    rcases hl : lookupKey (leafEntriesAux pl LEAF_KEYS) q with _ | w
    · rfl
    · exfalso
      rcases mem_leafEntriesAux.mp (lookupKey_mem hl) with ⟨i, hi, ps, hps, hk2, _⟩
      have hok := hinv.slots i hi
      rw [hps] at hok
      rcases hok with ⟨hmh, hmk, hph, hpne⟩
      refine hno i hi ⟨?_, by rw [hmk, hk2]⟩
      rw [hmh, hph, hk2]
  · rcases leafFindSlot_some hf with ⟨hlt, hmh, hmk⟩
    have hne : hs.getD s 0 ≠ 0 := by
      rw [hmh]; exact PearsonHash_ne_zero q
    rcases slotOK_nonempty (hinv.slots s hlt) hne with ⟨ps, hps, _, hmk2, _⟩
    dsimp only
    rw [hps]
    have hkey : ps.key = q := by rw [← hmk2, hmk]
    exact (lookupKey_of_mem_nodup
      (mem_leafEntriesAux.mpr ⟨s, hlt, ps, hps, hkey, rfl⟩) hndold).symm

theorem getD_append_left {α : Type _} {a b : List α} {i : Nat}
    (h : i < a.length) (d : α) : (a ++ b).getD i d = a.getD i d := by
  rw [List.getD_eq_getElem?_getD, List.getD_eq_getElem?_getD,
    List.getElem?_append_left h]

theorem getD_append_len {α : Type _} {a : List α} {x d : α} :
    (a ++ [x]).getD a.length d = x := by
  rw [List.getD_eq_getElem?_getD]
  rw [List.getElem?_append_right (le_refl a.length)]
  simp

theorem mem_getD_of_mem {α : Type _} [Inhabited α] {l : List α} {x : α}
    (h : x ∈ l) (d : α) : ∃ i, i < l.length ∧ l.getD i d = x := by
  rcases List.mem_iff_getElem.mp h with ⟨i, hi, hx⟩
  exact ⟨i, hi, by rw [List.getD_eq_getElem _ _ hi]; exact hx⟩

/-- On a full leaf the live mirror keys are the reversed mirror-key array. -/
theorem liveKeysAux_full {hs : List Nat} {ks : List Key}
    (hfull : ∀ i, i < LEAF_KEYS → hs.getD i 0 ≠ 0) :
    ∀ {n : Nat}, n ≤ LEAF_KEYS → n ≤ ks.length →
      liveKeysAux hs ks n = ((ks.take n).reverse).map id := by
  intro n
  induction n with
  | zero => intro _ _; simp [liveKeysAux]
  | succ n ih =>
    intro hn hkn
    rw [liveKeysAux, if_neg (hfull n (by omega))]
    rw [List.take_succ, ih (by omega) (by omega)]
    have hget : ks[n]? = some (ks.getD n []) := by
      rw [List.getElem?_eq_getElem (by omega : n < ks.length)]
      rw [List.getD_eq_getElem _ _ (by omega : n < ks.length)]
    rw [hget]
    simp

/-- Same statement without the identity map. -/
theorem liveKeys_full {hs : List Nat} {ks : List Key}
    (hfull : ∀ i, i < LEAF_KEYS → hs.getD i 0 ≠ 0) (hlen : ks.length = LEAF_KEYS) :
    liveKeys hs ks = ks.reverse := by
  have := liveKeysAux_full hfull (le_refl LEAF_KEYS) (le_of_eq hlen.symm)
  rw [liveKeys, this, List.map_id]
  rw [List.take_of_length_le (le_of_eq hlen)]

/-- A pairwise-nonstrictly-sorted list without duplicates is strictly sorted. -/
theorem pairwise_lt_of_le_nodup {l : List Key}
    (hle : l.Pairwise (fun a b => a ≤ b)) (hnd : l.Nodup) :
    l.Pairwise (fun a b => a < b) := by
  have hand := List.Pairwise.and hle hnd
  exact hand.imp (fun hc => lt_of_le_of_ne hc.1 hc.2)

/-- Pairwise order gives order between entries at ordered positions. -/
theorem pairwise_getD_lt {l : List Key}
    (hp : l.Pairwise (fun a b => a < b)) {i j : Nat}
    (hij : i < j) (hj : j < l.length) :
    l.getD i [] < l.getD j [] := by
  rw [List.getD_eq_getElem _ _ (by omega), List.getD_eq_getElem _ _ hj]
  exact List.pairwise_iff_getElem.mp hp i j (by omega) hj hij

theorem splitMoveLoop_step (sk : Key) (n : Nat) (st : LeafPair) :
    splitMoveLoop sk (n + 1) st =
      splitMoveLoop sk n
        (if keyGt (st.srcKs.getD n []) sk then
          { srcHs := st.srcHs.set n 0
            srcKs := st.srcKs.set n []
            srcPl := st.srcPl.set n (st.newPl.getD n none)
            newHs := st.newHs.set n (st.srcHs.getD n 0)
            newKs := st.newKs.set n (st.srcKs.getD n [])
            newPl := st.newPl.set n (st.srcPl.getD n none) }
        else st) := by
  rw [splitMoveLoop]

theorem splitMoveLoop_len (sk : Key) :
    ∀ (n : Nat) (st : LeafPair),
      (splitMoveLoop sk n st).srcHs.length = st.srcHs.length ∧
      (splitMoveLoop sk n st).srcKs.length = st.srcKs.length ∧
      (splitMoveLoop sk n st).srcPl.length = st.srcPl.length ∧
      (splitMoveLoop sk n st).newHs.length = st.newHs.length ∧
      (splitMoveLoop sk n st).newKs.length = st.newKs.length ∧
      (splitMoveLoop sk n st).newPl.length = st.newPl.length := by
  intro n
  induction n with
  | zero => intro st; exact ⟨rfl, rfl, rfl, rfl, rfl, rfl⟩
  | succ n ih =>
    intro st
    rw [splitMoveLoop_step]
    by_cases hg : keyGt (st.srcKs.getD n []) sk
    · rw [if_pos hg]
      rcases ih _ with ⟨h1, h2, h3, h4, h5, h6⟩
      rw [h1, h2, h3, h4, h5, h6]
      exact ⟨List.length_set _ _ _, List.length_set _ _ _, List.length_set _ _ _,
             List.length_set _ _ _, List.length_set _ _ _, List.length_set _ _ _⟩
    · rw [if_neg hg]
      exact ih st

theorem splitMoveLoop_hi (sk : Key) :
    ∀ (n : Nat) (st : LeafPair) (i : Nat), n ≤ i →
      (splitMoveLoop sk n st).srcHs.getD i 0 = st.srcHs.getD i 0 ∧
      (splitMoveLoop sk n st).srcKs.getD i [] = st.srcKs.getD i [] ∧
      (splitMoveLoop sk n st).srcPl.getD i none = st.srcPl.getD i none ∧
      (splitMoveLoop sk n st).newHs.getD i 0 = st.newHs.getD i 0 ∧
      (splitMoveLoop sk n st).newKs.getD i [] = st.newKs.getD i [] ∧
      (splitMoveLoop sk n st).newPl.getD i none = st.newPl.getD i none := by
  intro n
  induction n with
  | zero => intro st i _; exact ⟨rfl, rfl, rfl, rfl, rfl, rfl⟩
  | succ n ih =>
    intro st i hi
    rw [splitMoveLoop_step]
    by_cases hg : keyGt (st.srcKs.getD n []) sk
    · rw [if_pos hg]
      rcases ih _ i (by omega) with ⟨h1, h2, h3, h4, h5, h6⟩
      have hne : n ≠ i := by omega
      rw [h1, h2, h3, h4, h5, h6]
      exact ⟨getD_set_ne hne _ _, getD_set_ne hne _ _, getD_set_ne hne _ _,
             getD_set_ne hne _ _, getD_set_ne hne _ _, getD_set_ne hne _ _⟩
    · rw [if_neg hg]
      exact ih st i (by omega)

theorem splitMoveLoop_lo (sk : Key) :
    ∀ (n : Nat) (st : LeafPair) (i : Nat), i < n →
      i < st.srcHs.length → i < st.srcKs.length → i < st.srcPl.length →
      i < st.newHs.length → i < st.newKs.length → i < st.newPl.length →
      if keyGt (st.srcKs.getD i []) sk then
        (splitMoveLoop sk n st).srcHs.getD i 0 = 0 ∧
        (splitMoveLoop sk n st).srcKs.getD i [] = [] ∧
        (splitMoveLoop sk n st).srcPl.getD i none = st.newPl.getD i none ∧
        (splitMoveLoop sk n st).newHs.getD i 0 = st.srcHs.getD i 0 ∧
        (splitMoveLoop sk n st).newKs.getD i [] = st.srcKs.getD i [] ∧
        (splitMoveLoop sk n st).newPl.getD i none = st.srcPl.getD i none
      else
        (splitMoveLoop sk n st).srcHs.getD i 0 = st.srcHs.getD i 0 ∧
        (splitMoveLoop sk n st).srcKs.getD i [] = st.srcKs.getD i [] ∧
        (splitMoveLoop sk n st).srcPl.getD i none = st.srcPl.getD i none ∧
        (splitMoveLoop sk n st).newHs.getD i 0 = st.newHs.getD i 0 ∧
        (splitMoveLoop sk n st).newKs.getD i [] = st.newKs.getD i [] ∧
        (splitMoveLoop sk n st).newPl.getD i none = st.newPl.getD i none := by
  intro n
  induction n with
  | zero => intro st i hi; omega
  | succ n ih =>
    intro st i hi l1 l2 l3 l4 l5 l6
    rw [splitMoveLoop_step]
    by_cases hgn : keyGt (st.srcKs.getD n []) sk
    · rw [if_pos hgn]
      by_cases hin : i = n
      · subst hin
        rcases splitMoveLoop_hi sk i _ i (le_refl i) with ⟨h1, h2, h3, h4, h5, h6⟩
        rw [if_pos hgn, h1, h2, h3, h4, h5, h6]
        exact ⟨getD_set_self l1 _ _, getD_set_self l2 _ _, getD_set_self l3 _ _,
               getD_set_self l4 _ _, getD_set_self l5 _ _, getD_set_self l6 _ _⟩
      · have hne : n ≠ i := fun he => hin he.symm
        have hres := ih ⟨st.srcHs.set n 0, st.srcKs.set n [],
            st.srcPl.set n (st.newPl.getD n none),
            st.newHs.set n (st.srcHs.getD n 0),
            st.newKs.set n (st.srcKs.getD n []),
            st.newPl.set n (st.srcPl.getD n none)⟩ i (by omega)
          (by simpa using l1) (by simpa using l2) (by simpa using l3)
          (by simpa using l4) (by simpa using l5) (by simpa using l6)
        simp only [getD_set_ne hne] at hres
        exact hres
    · rw [if_neg hgn]
      by_cases hin : i = n
      · subst hin
        rcases splitMoveLoop_hi sk i st i (le_refl i) with ⟨h1, h2, h3, h4, h5, h6⟩
        rw [if_neg hgn]
        exact ⟨h1, h2, h3, h4, h5, h6⟩
      · exact ih st i (by omega) l1 l2 l3 l4 l5 l6

/-- Pointwise description of the slot-moving loop of `LeafSplitFull`, started
on the source leaf and a fresh (all-empty) new leaf. -/
theorem splitMove_facts {hs : List Nat} {ks : List Key} {pl : PLeaf} {sk : Key}
    (hlh : hs.length = LEAF_KEYS) (hlk : ks.length = LEAF_KEYS)
    (hlp : pl.length = LEAF_KEYS) :
    ∀ i, i < LEAF_KEYS →
      (keyGt (ks.getD i []) sk = true →
        (splitMoveLoop sk LEAF_KEYS ⟨hs, ks, pl, List.replicate LEAF_KEYS 0,
          List.replicate LEAF_KEYS [], List.replicate LEAF_KEYS none⟩).srcHs.getD i 0 = 0 ∧
        (splitMoveLoop sk LEAF_KEYS ⟨hs, ks, pl, List.replicate LEAF_KEYS 0,
          List.replicate LEAF_KEYS [], List.replicate LEAF_KEYS none⟩).srcKs.getD i [] = [] ∧
        (splitMoveLoop sk LEAF_KEYS ⟨hs, ks, pl, List.replicate LEAF_KEYS 0,
          List.replicate LEAF_KEYS [], List.replicate LEAF_KEYS none⟩).srcPl.getD i none = none ∧
        (splitMoveLoop sk LEAF_KEYS ⟨hs, ks, pl, List.replicate LEAF_KEYS 0,
          List.replicate LEAF_KEYS [], List.replicate LEAF_KEYS none⟩).newHs.getD i 0 = hs.getD i 0 ∧
        (splitMoveLoop sk LEAF_KEYS ⟨hs, ks, pl, List.replicate LEAF_KEYS 0,
          List.replicate LEAF_KEYS [], List.replicate LEAF_KEYS none⟩).newKs.getD i [] = ks.getD i [] ∧
        (splitMoveLoop sk LEAF_KEYS ⟨hs, ks, pl, List.replicate LEAF_KEYS 0,
          List.replicate LEAF_KEYS [], List.replicate LEAF_KEYS none⟩).newPl.getD i none = pl.getD i none) ∧
      (keyGt (ks.getD i []) sk = false →
        (splitMoveLoop sk LEAF_KEYS ⟨hs, ks, pl, List.replicate LEAF_KEYS 0,
          List.replicate LEAF_KEYS [], List.replicate LEAF_KEYS none⟩).srcHs.getD i 0 = hs.getD i 0 ∧
        (splitMoveLoop sk LEAF_KEYS ⟨hs, ks, pl, List.replicate LEAF_KEYS 0,
          List.replicate LEAF_KEYS [], List.replicate LEAF_KEYS none⟩).srcKs.getD i [] = ks.getD i [] ∧
        (splitMoveLoop sk LEAF_KEYS ⟨hs, ks, pl, List.replicate LEAF_KEYS 0,
          List.replicate LEAF_KEYS [], List.replicate LEAF_KEYS none⟩).srcPl.getD i none = pl.getD i none ∧
        (splitMoveLoop sk LEAF_KEYS ⟨hs, ks, pl, List.replicate LEAF_KEYS 0,
          List.replicate LEAF_KEYS [], List.replicate LEAF_KEYS none⟩).newHs.getD i 0 = 0 ∧
        (splitMoveLoop sk LEAF_KEYS ⟨hs, ks, pl, List.replicate LEAF_KEYS 0,
          List.replicate LEAF_KEYS [], List.replicate LEAF_KEYS none⟩).newKs.getD i [] = [] ∧
        (splitMoveLoop sk LEAF_KEYS ⟨hs, ks, pl, List.replicate LEAF_KEYS 0,
          List.replicate LEAF_KEYS [], List.replicate LEAF_KEYS none⟩).newPl.getD i none = none) := by
  intro i hi
  have hlo := splitMoveLoop_lo sk LEAF_KEYS ⟨hs, ks, pl, List.replicate LEAF_KEYS 0,
      List.replicate LEAF_KEYS [], List.replicate LEAF_KEYS none⟩ i hi
    (by simpa [hlh] using hi) (by simpa [hlk] using hi) (by simpa [hlp] using hi)
    (by simpa using hi) (by simpa using hi) (by simpa using hi)
  constructor
  · intro hg
    rw [if_pos hg] at hlo
    rcases hlo with ⟨h1, h2, h3, h4, h5, h6⟩
    refine ⟨h1, h2, ?_, h4, h5, h6⟩
    rw [h3]
    exact getD_replicate hi none none
  · intro hg
    rw [Bool.eq_false_iff] at hg
    rw [if_neg hg] at hlo
    rcases hlo with ⟨h1, h2, h3, h4, h5, h6⟩
    refine ⟨h1, h2, h3, ?_, ?_, ?_⟩
    · rw [h4]; exact getD_replicate hi 0 0
    · rw [h5]; exact getD_replicate hi [] []
    · rw [h6]; exact getD_replicate hi none none

/-- The live keys of the rearranged source leaf are the original live keys that
do not sort above the split key. -/
theorem liveKeysAux_filter_src {hs hs2 : List Nat} {ks ks2 : List Key} {sk : Key}
    (hfull : ∀ i, i < LEAF_KEYS → hs.getD i 0 ≠ 0)
    (hpt : ∀ i, i < LEAF_KEYS →
      (keyGt (ks.getD i []) sk = true → hs2.getD i 0 = 0) ∧
      (keyGt (ks.getD i []) sk = false →
        hs2.getD i 0 = hs.getD i 0 ∧ ks2.getD i [] = ks.getD i [])) :
    ∀ {n : Nat}, n ≤ LEAF_KEYS →
      liveKeysAux hs2 ks2 n = (liveKeysAux hs ks n).filter (fun x => !(keyGt x sk)) := by
  intro n
  induction n with
  | zero => intro _; rfl
  | succ n ih =>
    intro hn
    rw [liveKeysAux, liveKeysAux, if_neg (hfull n (by omega))]
    rcases hg : keyGt (ks.getD n []) sk with _ | _
    · rcases (hpt n (by omega)).2 hg with ⟨h1, h2⟩
      rw [if_neg (by rw [h1]; exact hfull n (by omega)), h2, ih (by omega)]
      rw [List.filter_cons]
      rw [hg]
      rfl
    · have h1 := (hpt n (by omega)).1 hg
      rw [if_pos h1, ih (by omega)]
      rw [List.filter_cons]
      rw [hg]
      rfl

/-- The live keys of the new leaf (before the incoming fill) are the original
live keys that sort strictly above the split key. -/
theorem liveKeysAux_filter_new {hs hs2 : List Nat} {ks ks2 : List Key} {sk : Key}
    (hfull : ∀ i, i < LEAF_KEYS → hs.getD i 0 ≠ 0)
    (hpt : ∀ i, i < LEAF_KEYS →
      (keyGt (ks.getD i []) sk = true →
        hs2.getD i 0 = hs.getD i 0 ∧ ks2.getD i [] = ks.getD i []) ∧
      (keyGt (ks.getD i []) sk = false → hs2.getD i 0 = 0)) :
    ∀ {n : Nat}, n ≤ LEAF_KEYS →
      liveKeysAux hs2 ks2 n = (liveKeysAux hs ks n).filter (fun x => keyGt x sk) := by
  intro n
  induction n with
  | zero => intro _; rfl
  | succ n ih =>
    intro hn
    rw [liveKeysAux, liveKeysAux, if_neg (hfull n (by omega))]
    rcases hg : keyGt (ks.getD n []) sk with _ | _
    · have h1 := (hpt n (by omega)).2 hg
      rw [if_pos h1, ih (by omega)]
      rw [List.filter_cons]
      rw [hg]
      rfl
    · rcases (hpt n (by omega)).1 hg with ⟨h1, h2⟩
      rw [if_neg (by rw [h1]; exact hfull n (by omega)), h2, ih (by omega)]
      rw [List.filter_cons]
      rw [hg]
      rfl

/-- The entries of the rearranged source leaf are the original entries whose
key does not sort above the split key. -/
theorem leafEntriesAux_filter_src {ks : List Key} {pl pl2 : PLeaf} {sk : Key}
    (hkey : ∀ i, i < LEAF_KEYS → ∀ ps, pl.getD i none = some ps → ps.key = ks.getD i [])
    (hpt : ∀ i, i < LEAF_KEYS →
      (keyGt (ks.getD i []) sk = true → pl2.getD i none = none) ∧
      (keyGt (ks.getD i []) sk = false → pl2.getD i none = pl.getD i none)) :
    ∀ {n : Nat}, n ≤ LEAF_KEYS →
      leafEntriesAux pl2 n = (leafEntriesAux pl n).filter (fun e => !(keyGt e.1 sk)) := by
  intro n
  induction n with
  | zero => intro _; rfl
  | succ n ih =>
    intro hn
    rw [leafEntriesAux, leafEntriesAux]
    rcases hps : pl.getD n none with _ | ps
    · rcases hg : keyGt (ks.getD n []) sk with _ | _
      · rw [(hpt n (by omega)).2 hg, hps, ih (by omega)]
      · rw [(hpt n (by omega)).1 hg, ih (by omega)]
    · have hpk := hkey n (by omega) ps hps
      rcases hg : keyGt (ks.getD n []) sk with _ | _
      · rw [(hpt n (by omega)).2 hg, hps, ih (by omega)]
        rw [List.filter_cons]
        have : keyGt (ps.key, ps.val).1 sk = false := by rw [hpk]; exact hg
        rw [this]
        rfl
      · rw [(hpt n (by omega)).1 hg, ih (by omega)]
        rw [List.filter_cons]
        have : keyGt (ps.key, ps.val).1 sk = true := by rw [hpk]; exact hg
        rw [this]
        rfl

/-- The entries of the new leaf (before the incoming fill) are the original
entries whose key sorts strictly above the split key. -/
theorem leafEntriesAux_filter_new {ks : List Key} {pl pl2 : PLeaf} {sk : Key}
    (hkey : ∀ i, i < LEAF_KEYS → ∀ ps, pl.getD i none = some ps → ps.key = ks.getD i [])
    (hpt : ∀ i, i < LEAF_KEYS →
      (keyGt (ks.getD i []) sk = true → pl2.getD i none = pl.getD i none) ∧
      (keyGt (ks.getD i []) sk = false → pl2.getD i none = none)) :
    ∀ {n : Nat}, n ≤ LEAF_KEYS →
      leafEntriesAux pl2 n = (leafEntriesAux pl n).filter (fun e => keyGt e.1 sk) := by
  intro n
  induction n with
  | zero => intro _; rfl
  | succ n ih =>
    intro hn
    rw [leafEntriesAux, leafEntriesAux]
    rcases hps : pl.getD n none with _ | ps
    · rcases hg : keyGt (ks.getD n []) sk with _ | _
      · rw [(hpt n (by omega)).2 hg, ih (by omega)]
      · rw [(hpt n (by omega)).1 hg, hps, ih (by omega)]
    · have hpk := hkey n (by omega) ps hps
      rcases hg : keyGt (ks.getD n []) sk with _ | _
      · rw [(hpt n (by omega)).2 hg, ih (by omega)]
        rw [List.filter_cons]
        have : keyGt (ps.key, ps.val).1 sk = false := by rw [hpk]; exact hg
        rw [this]
        rfl
      · rw [(hpt n (by omega)).1 hg, hps, ih (by omega)]
        rw [List.filter_cons]
        have : keyGt (ps.key, ps.val).1 sk = true := by rw [hpk]; exact hg
        rw [this]
        rfl

theorem keyLe_total (a b : Key) : keyLe a b = true ∨ keyLe b a = true := by
  rcases le_total a b with h | h
  · exact Or.inl (keyLe_iff.mpr h)
  · exact Or.inr (keyLe_iff.mpr h)

theorem keyLe_trans (a b c : Key) (h1 : keyLe a b = true) (h2 : keyLe b c = true) :
    keyLe a c = true :=
  keyLe_iff.mpr (le_trans (keyLe_iff.mp h1) (keyLe_iff.mp h2))

/-- The model sort on distinct keys: a strictly sorted permutation. -/
theorem sortBy_keyLe_facts {l : List Key} (hnd : l.Nodup) :
    (sortBy keyLe l).Perm l ∧
    (sortBy keyLe l).Pairwise (fun a b => a < b) ∧
    (sortBy keyLe l).length = l.length := by
  have hperm := sortBy_perm keyLe l
  have hpair := sortBy_pairwise keyLe keyLe_total keyLe_trans l
  have hle : (sortBy keyLe l).Pairwise (fun a b => a ≤ b) :=
    hpair.imp (fun hc => keyLe_iff.mp hc)
  have hnd2 : (sortBy keyLe l).Nodup := hperm.nodup_iff.mpr hnd
  exact ⟨hperm, pairwise_lt_of_le_nodup hle hnd2, hperm.length_eq⟩

theorem lookupKey_cons (e : Key × Val) (l : List (Key × Val)) (q : Key) :
    lookupKey (e :: l) q = if q = e.1 then some e.2 else lookupKey l q := rfl

theorem nodup_append_singleton {l : List Key} {k : Key}
    (hnd : l.Nodup) (hk : k ∉ l) : (l ++ [k]).Nodup := by
  rw [List.nodup_append]
  refine ⟨hnd, List.nodup_singleton k, ?_⟩
  intro a ha hb
  rcases List.mem_singleton.mp hb with rfl
  exact hk ha

/-- Specification of `MVTree::LeafSplitFull` on a full, consistent leaf that
does not hold the incoming key, with an empty prealloc pool: the split key is
strictly between some pair of the union keys, the two leaves partition the
union at the split key, both leaves stay consistent with the heap, the fresh
leaf is appended to the heap and prepended to the persistent list, and the
pair of leaves behaves as the map updated at the incoming key. -/
theorem LeafSplitFull_spec {env : PEnv} {hs : List Nat} {ks : List Key}
    {id : LeafId} {h : Nat} {k : Key} {v : Val} {r : SplitResult}
    (hr : r = LeafSplitFull env hs ks id h k v)
    (hinv : LeafInv hs ks (env.heap.getD id []))
    (hnd : (liveKeys hs ks).Nodup)
    (hfull : ∀ i, i < LEAF_KEYS → hs.getD i 0 ≠ 0)
    (hkn : k ∉ liveKeys hs ks)
    (hh : h = PearsonHash k)
    (hpre : env.leaves_prealloc = [])
    (hid : id < env.heap.length) :
    r.env.leaves_prealloc = [] ∧
    r.env.heap.length = env.heap.length + 1 ∧
    r.sibId = env.heap.length ∧
    r.env.headIds = env.heap.length :: env.headIds ∧
    (∀ j, j < env.heap.length → j ≠ id →
        r.env.heap.getD j [] = env.heap.getD j []) ∧
    LeafInv r.srcHs r.srcKs (r.env.heap.getD id []) ∧
    LeafInv r.sibHs r.sibKs (r.env.heap.getD r.sibId []) ∧
    (liveKeys r.srcHs r.srcKs ++ liveKeys r.sibHs r.sibKs).Perm (k :: liveKeys hs ks) ∧
    (∀ q ∈ liveKeys r.srcHs r.srcKs, q ≤ r.splitKey) ∧
    (∀ q ∈ liveKeys r.sibHs r.sibKs, r.splitKey < q) ∧
    (r.splitKey ∈ k :: liveKeys hs ks ∧
      ∃ w, w ∈ k :: liveKeys hs ks ∧ r.splitKey < w) ∧
    (∀ q, lookupKey (leafEntriesAux (r.env.heap.getD id []) LEAF_KEYS
            ++ leafEntriesAux (r.env.heap.getD r.sibId []) LEAF_KEYS) q
        = if q = k then some v
          else lookupKey (leafEntriesAux (env.heap.getD id []) LEAF_KEYS) q) := by
  obtain ⟨pl, hpl⟩ : ∃ x, env.heap.getD id [] = x := ⟨_, rfl⟩
  rw [hpl] at hinv
  rw [hpl]
  have hklen : ks.length = LEAF_KEYS := hinv.ks_len
  have hhlen : hs.length = LEAF_KEYS := hinv.hs_len
  have hplen : pl.length = LEAF_KEYS := hinv.pl_len
  have hliveks : liveKeys hs ks = ks.reverse := liveKeys_full hfull hklen
  have hndks : ks.Nodup := by
    rw [hliveks] at hnd
    exact List.nodup_reverse.mp hnd
  have hkks : k ∉ ks := by
    rw [hliveks] at hkn
    intro hm
    exact hkn (List.mem_reverse.mpr hm)
  have hconv : ∀ x : Key, x ∈ ks ++ [k] → x ∈ k :: liveKeys hs ks := by
    intro x hx
    rw [hliveks]
    rcases List.mem_append.mp hx with hx | hx
    · exact List.mem_cons_of_mem _ (List.mem_reverse.mpr hx)
    · rcases List.mem_singleton.mp hx with rfl
      exact List.mem_cons_self _ _
  have hndall : (ks ++ [k]).Nodup := nodup_append_singleton hndks hkks
  obtain ⟨hsperm, hsplt, hslen⟩ := sortBy_keyLe_facts hndall
  have hslen2 : (sortBy keyLe (ks ++ [k])).length = LEAF_KEYS + 1 := by
    rw [hslen, List.length_append, hklen]
    rfl
  obtain ⟨skv, hskv⟩ : ∃ x, (sortBy keyLe (ks ++ [k])).getD LEAF_KEYS_MIDPOINT [] = x :=
    ⟨_, rfl⟩
  have hmidlt : LEAF_KEYS_MIDPOINT < LEAF_KEYS := by decide
  have hmid0 : 0 < LEAF_KEYS_MIDPOINT := by decide
  have hskmem : skv ∈ ks ++ [k] := by
    rw [← hskv]
    refine hsperm.mem_iff.mp ?_
    rw [List.getD_eq_getElem _ _ (by omega : LEAF_KEYS_MIDPOINT < (sortBy keyLe (ks ++ [k])).length)]
    exact List.getElem_mem _
  have hwex : ∃ w, w ∈ ks ++ [k] ∧ skv < w := by
    refine ⟨(sortBy keyLe (ks ++ [k])).getD LEAF_KEYS [], ?_, ?_⟩
    · refine hsperm.mem_iff.mp ?_
      rw [List.getD_eq_getElem _ _ (by omega : LEAF_KEYS < (sortBy keyLe (ks ++ [k])).length)]
      exact List.getElem_mem _
    · rw [← hskv]
      exact pairwise_getD_lt hsplt hmidlt (by omega)
  have hlowex : ∃ w, w ∈ ks ++ [k] ∧ w < skv := by
    refine ⟨(sortBy keyLe (ks ++ [k])).getD 0 [], ?_, ?_⟩
    · refine hsperm.mem_iff.mp ?_
      rw [List.getD_eq_getElem _ _ (by omega : 0 < (sortBy keyLe (ks ++ [k])).length)]
      exact List.getElem_mem _
    · rw [← hskv]
      exact pairwise_getD_lt hsplt hmid0 (by omega)
  obtain ⟨lp, hlp⟩ : ∃ x, splitMoveLoop skv LEAF_KEYS
      ⟨hs, ks, pl, List.replicate LEAF_KEYS 0, List.replicate LEAF_KEYS [],
       List.replicate LEAF_KEYS none⟩ = x := ⟨_, rfl⟩
  rcases lp with ⟨sh0, sk0, sp0, nh0, nk0, np0⟩
  have hfacts := @splitMove_facts hs ks pl skv hhlen hklen hplen
  rw [hlp] at hfacts
  dsimp only at hfacts
  have hlens := splitMoveLoop_len skv LEAF_KEYS
      ⟨hs, ks, pl, List.replicate LEAF_KEYS 0, List.replicate LEAF_KEYS [],
       List.replicate LEAF_KEYS none⟩
  rw [hlp] at hlens
  dsimp only at hlens
  rcases hlens with ⟨hl1, hl2, hl3, hl4, hl5, hl6⟩
  rw [hhlen] at hl1
  rw [hklen] at hl2
  rw [hplen] at hl3
  rw [List.length_replicate] at hl4 hl5 hl6
  have hkey0 : ∀ i, i < LEAF_KEYS → ∀ ps, pl.getD i none = some ps →
      ps.key = ks.getD i [] := by
    intro i hi ps hps
    have hok := hinv.slots i hi
    rw [hps] at hok
    exact hok.2.1.symm
  have hinvSrc : LeafInv sh0 sk0 sp0 := by
    refine ⟨hl1, hl2, hl3, ?_⟩
    intro i hi
    rcases hg : keyGt (ks.getD i []) skv with _ | _
    · rcases (hfacts i hi).2 hg with ⟨e1, e2, e3, _, _, _⟩
      rw [e1, e2, e3]
      exact hinv.slots i hi
    · rcases (hfacts i hi).1 hg with ⟨e1, e2, e3, _, _, _⟩
      rw [e1, e2, e3]
      exact rfl
  have hinvNew : LeafInv nh0 nk0 np0 := by
    refine ⟨hl4, hl5, hl6, ?_⟩
    intro i hi
    rcases hg : keyGt (ks.getD i []) skv with _ | _
    · rcases (hfacts i hi).2 hg with ⟨_, _, _, e4, e5, e6⟩
      rw [e4, e5, e6]
      exact rfl
    · rcases (hfacts i hi).1 hg with ⟨_, _, _, e4, e5, e6⟩
      rw [e4, e5, e6]
      exact hinv.slots i hi
  have hliveSrc : liveKeys sh0 sk0
      = (liveKeys hs ks).filter (fun x => !(keyGt x skv)) := by
    refine liveKeysAux_filter_src hfull ?_ (le_refl LEAF_KEYS)
    intro i hi
    exact ⟨fun hg => ((hfacts i hi).1 hg).1,
           fun hg => ⟨((hfacts i hi).2 hg).1, ((hfacts i hi).2 hg).2.1⟩⟩
  have hliveNew : liveKeys nh0 nk0
      = (liveKeys hs ks).filter (fun x => keyGt x skv) := by
    refine liveKeysAux_filter_new hfull ?_ (le_refl LEAF_KEYS)
    intro i hi
    exact ⟨fun hg => ⟨((hfacts i hi).1 hg).2.2.2.1, ((hfacts i hi).1 hg).2.2.2.2.1⟩,
           fun hg => ((hfacts i hi).2 hg).2.2.2.1⟩
  have hentSrc : leafEntriesAux sp0 LEAF_KEYS
      = (leafEntriesAux pl LEAF_KEYS).filter (fun e => !(keyGt e.1 skv)) := by
    refine leafEntriesAux_filter_src hkey0 ?_ (le_refl LEAF_KEYS)
    intro i hi
    exact ⟨fun hg => ((hfacts i hi).1 hg).2.2.1,
           fun hg => ((hfacts i hi).2 hg).2.2.1⟩
  have hentNew : leafEntriesAux np0 LEAF_KEYS
      = (leafEntriesAux pl LEAF_KEYS).filter (fun e => keyGt e.1 skv) := by
    refine leafEntriesAux_filter_new hkey0 ?_ (le_refl LEAF_KEYS)
    intro i hi
    exact ⟨fun hg => ((hfacts i hi).1 hg).2.2.2.2.2,
           fun hg => ((hfacts i hi).2 hg).2.2.2.2.2⟩
  have hndSrc : (liveKeys sh0 sk0).Nodup := by
    rw [hliveSrc]
    exact hnd.filter _
  have hndNew : (liveKeys nh0 nk0).Nodup := by
    rw [hliveNew]
    exact hnd.filter _
  have hkSrc : k ∉ liveKeys sh0 sk0 := by
    rw [hliveSrc]
    intro hm
    exact hkn (List.mem_filter.mp hm).1
  have hkNew : k ∉ liveKeys nh0 nk0 := by
    rw [hliveNew]
    intro hm
    exact hkn (List.mem_filter.mp hm).1
  have hndpl : ((leafEntriesAux pl LEAF_KEYS).map Prod.fst).Nodup := by
    rw [leafEntries_map_fst hinv.slots (le_refl LEAF_KEYS)]
    exact hnd
  have hfilters : ((liveKeys hs ks).filter (fun x => !(keyGt x skv))
      ++ (liveKeys hs ks).filter (fun x => keyGt x skv)).Perm (liveKeys hs ks) := by
    have := List.filter_append_perm (fun x => !(keyGt x skv)) (liveKeys hs ks)
    simpa [Bool.not_not] using this
  have hfiltersE : ((leafEntriesAux pl LEAF_KEYS).filter (fun e => !(keyGt e.1 skv))
      ++ (leafEntriesAux pl LEAF_KEYS).filter (fun e => keyGt e.1 skv)).Perm
      (leafEntriesAux pl LEAF_KEYS) := by
    have := List.filter_append_perm (fun e : Key × Val => !(keyGt e.1 skv))
      (leafEntriesAux pl LEAF_KEYS)
    simpa [Bool.not_not] using this
  have hobtain : obtainLeaf env = (env.heap.length,
      { heap := env.heap ++ [List.replicate LEAF_KEYS none],
        headIds := env.heap.length :: env.headIds,
        leaves_prealloc := env.leaves_prealloc }) := by
    unfold obtainLeaf
    rw [hpre]
    rfl
  rcases hgt : keyGt k skv with _ | _
  · -- incoming key goes to the source leaf (k <= split key)
    have hkle : k ≤ skv := keyGt_false_iff.mp hgt
    rcases hwex with ⟨w, hwmem, hwlt⟩
    have hwks : w ∈ ks := by
      rcases List.mem_append.mp hwmem with hx | hx
      · exact hx
      · rcases List.mem_singleton.mp hx with rfl
        exact absurd hwlt (not_lt_of_le hkle)
    rcases mem_getD_of_mem hwks [] with ⟨iw, hiw, hiwk⟩
    have hiw2 : iw < LEAF_KEYS := by omega
    have hempty : sh0.getD iw 0 = 0 := by
      have hg : keyGt (ks.getD iw []) skv = true := by
        rw [hiwk]
        exact keyGt_iff.mpr hwlt
      exact ((hfacts iw hiw2).1 hg).1
    rcases findEmptySlotDesc_isSome hempty hiw2 with ⟨slot, hslot⟩
    rcases findEmptySlotDesc_some hslot with ⟨hslotlt, hslot0⟩
    rcases @fill_empty_spec sh0 sk0 sp0 h slot k v hinvSrc hndSrc hkSrc hslot0 hslotlt hh
      with ⟨hinvF, hliveF, hentF, hlookF⟩
    have hre : r = { env := { heap := ((env.heap ++ [List.replicate LEAF_KEYS none]).set id (sp0.set slot (some ⟨h, k, v⟩))).set env.heap.length np0, headIds := env.heap.length :: env.headIds, leaves_prealloc := env.leaves_prealloc }, srcHs := sh0.set slot h, srcKs := sk0.set slot k, sibHs := nh0, sibKs := nk0, sibId := env.heap.length, splitKey := skv } := by
      rw [hr]
      unfold LeafSplitFull
      rw [hobtain]
      dsimp only
      rw [hskv]
      rw [getD_append_left hid, getD_append_len, hpl, hlp]
      dsimp only
      rw [hgt]
      simp only [Bool.false_eq_true, if_false]
      unfold LeafFillEmptySlot
      rw [hslot]
      unfold LeafFillSpecificSlot
      dsimp only
      rw [if_pos hslot0]
    have hheapid : r.env.heap.getD id [] = sp0.set slot (some ⟨h, k, v⟩) := by
      rw [hre]
      have hne : env.heap.length ≠ id := ne_of_gt hid
      rw [getD_set_ne hne]
      rw [getD_set_self (by simp only [List.length_append, List.length_singleton]; exact Nat.lt_succ_of_lt hid)]
    have hheapsib : r.env.heap.getD r.sibId [] = np0 := by
      rw [hre]
      rw [getD_set_self (by simp only [List.length_set, List.length_append, List.length_singleton]; omega)]
    refine ⟨by rw [hre]; exact hpre, ?_, by rw [hre], by rw [hre], ?_, ?_, ?_, ?_, ?_, ?_, ?_, ?_⟩
    · rw [hre]
      simp
    · intro j hj hjid
      rw [hre]
      have hne1 : env.heap.length ≠ j := by omega
      have hne2 : id ≠ j := fun he => hjid he.symm
      rw [getD_set_ne hne1, getD_set_ne hne2, getD_append_left hj]
    · rw [hheapid, hre]
      exact hinvF
    · rw [hheapsib, hre]
      exact hinvNew
    · rw [hre]
      dsimp only
      refine List.Perm.trans (List.Perm.append hliveF (List.Perm.refl _)) ?_
      rw [hliveSrc, hliveNew]
      exact (List.perm_cons k).mpr hfilters
    · rw [hre]
      dsimp only
      intro q hq
      have hq2 := hliveF.mem_iff.mp hq
      rcases List.mem_cons.mp hq2 with rfl | hq3
      · exact hkle
      · rw [hliveSrc] at hq3
        have := (List.mem_filter.mp hq3).2
        rw [Bool.not_eq_true'] at this
        exact keyGt_false_iff.mp this
    · rw [hre]
      dsimp only
      intro q hq
      rw [hliveNew] at hq
      exact keyGt_iff.mp (List.mem_filter.mp hq).2
    · rw [hre]
      dsimp only
      exact ⟨hconv skv hskmem, w, hconv w hwmem, hwlt⟩
    · intro q
      rw [hheapid, hheapsib]
      have hndcomb : ((leafEntriesAux (sp0.set slot (some ⟨h, k, v⟩)) LEAF_KEYS
          ++ leafEntriesAux np0 LEAF_KEYS).map Prod.fst).Nodup := by
        rw [List.map_append]
        rw [leafEntries_map_fst hinvF.slots (le_refl LEAF_KEYS),
            leafEntries_map_fst hinvNew.slots (le_refl LEAF_KEYS)]
        have hp : (liveKeys (sh0.set slot h) (sk0.set slot k)
            ++ liveKeys nh0 nk0).Perm (k :: liveKeys hs ks) := by
          refine List.Perm.trans (List.Perm.append hliveF (List.Perm.refl _)) ?_
          rw [hliveSrc, hliveNew]
          exact (List.perm_cons k).mpr hfilters
        exact hp.nodup_iff.mpr (List.nodup_cons.mpr ⟨hkn, hnd⟩)
      have hndtgt : (((k, v) :: leafEntriesAux pl LEAF_KEYS).map Prod.fst).Nodup := by
        rw [List.map_cons]
        refine List.nodup_cons.mpr ⟨?_, hndpl⟩
        rw [leafEntries_map_fst hinv.slots (le_refl LEAF_KEYS)]
        exact hkn
      have hmemiff : ∀ kv : Key × Val,
          kv ∈ leafEntriesAux (sp0.set slot (some ⟨h, k, v⟩)) LEAF_KEYS
              ++ leafEntriesAux np0 LEAF_KEYS
          ↔ kv ∈ (k, v) :: leafEntriesAux pl LEAF_KEYS := by
        intro kv
        constructor
        · intro hm
          rcases List.mem_append.mp hm with hm | hm
          · have hm2 := hentF.mem_iff.mp hm
            rcases List.mem_cons.mp hm2 with rfl | hm3
            · exact List.mem_cons_self _ _
            · rw [hentSrc] at hm3
              exact List.mem_cons_of_mem _ (List.mem_filter.mp hm3).1
          · rw [hentNew] at hm
            exact List.mem_cons_of_mem _ (List.mem_filter.mp hm).1
        · intro hm
          rcases List.mem_cons.mp hm with rfl | hm2
          · exact List.mem_append.mpr (Or.inl (hentF.mem_iff.mpr (List.mem_cons_self _ _)))
          · rcases hgq : keyGt kv.1 skv with _ | _
            · refine List.mem_append.mpr (Or.inl ?_)
              refine hentF.mem_iff.mpr (List.mem_cons_of_mem _ ?_)
              rw [hentSrc]
              exact List.mem_filter.mpr ⟨hm2, by rw [hgq]; rfl⟩
            · refine List.mem_append.mpr (Or.inr ?_)
              rw [hentNew]
              exact List.mem_filter.mpr ⟨hm2, hgq⟩
      rw [lookupKey_ext hndcomb hndtgt hmemiff q, lookupKey_cons]
  · -- incoming key goes to the new leaf (k > split key)
    have hklt : skv < k := keyGt_iff.mp hgt
    rcases hlowex with ⟨w, hwmem, hwlt⟩
    have hwks : w ∈ ks := by
      rcases List.mem_append.mp hwmem with hx | hx
      · exact hx
      · rcases List.mem_singleton.mp hx with rfl
        exact absurd hklt (not_lt_of_lt hwlt)
    rcases mem_getD_of_mem hwks [] with ⟨iw, hiw, hiwk⟩
    have hiw2 : iw < LEAF_KEYS := by omega
    have hempty : nh0.getD iw 0 = 0 := by
      have hg : keyGt (ks.getD iw []) skv = false := by
        rw [hiwk]
        exact keyGt_false_iff.mpr (le_of_lt hwlt)
      exact ((hfacts iw hiw2).2 hg).2.2.2.1
    rcases findEmptySlotDesc_isSome hempty hiw2 with ⟨slot, hslot⟩
    rcases findEmptySlotDesc_some hslot with ⟨hslotlt, hslot0⟩
    rcases @fill_empty_spec nh0 nk0 np0 h slot k v hinvNew hndNew hkNew hslot0 hslotlt hh
      with ⟨hinvF, hliveF, hentF, hlookF⟩
    have hre : r = { env := { heap := ((env.heap ++ [List.replicate LEAF_KEYS none]).set id sp0).set env.heap.length (np0.set slot (some ⟨h, k, v⟩)), headIds := env.heap.length :: env.headIds, leaves_prealloc := env.leaves_prealloc }, srcHs := sh0, srcKs := sk0, sibHs := nh0.set slot h, sibKs := nk0.set slot k, sibId := env.heap.length, splitKey := skv } := by
      rw [hr]
      unfold LeafSplitFull
      rw [hobtain]
      dsimp only
      rw [hskv]
      rw [getD_append_left hid, getD_append_len, hpl, hlp]
      dsimp only
      rw [hgt]
      rw [if_pos rfl]
      unfold LeafFillEmptySlot
      rw [hslot]
      unfold LeafFillSpecificSlot
      dsimp only
      rw [if_pos hslot0]
    have hheapid : r.env.heap.getD id [] = sp0 := by
      rw [hre]
      have hne : env.heap.length ≠ id := ne_of_gt hid
      rw [getD_set_ne hne]
      rw [getD_set_self (by simp only [List.length_append, List.length_singleton]; exact Nat.lt_succ_of_lt hid)]
    have hheapsib : r.env.heap.getD r.sibId [] = np0.set slot (some ⟨h, k, v⟩) := by
      rw [hre]
      rw [getD_set_self (by simp only [List.length_set, List.length_append, List.length_singleton]; omega)]
    refine ⟨by rw [hre]; exact hpre, ?_, by rw [hre], by rw [hre], ?_, ?_, ?_, ?_, ?_, ?_, ?_, ?_⟩
    · rw [hre]
      simp
    · intro j hj hjid
      rw [hre]
      have hne1 : env.heap.length ≠ j := by omega
      have hne2 : id ≠ j := fun he => hjid he.symm
      rw [getD_set_ne hne1, getD_set_ne hne2, getD_append_left hj]
    · rw [hheapid, hre]
      exact hinvSrc
    · rw [hheapsib, hre]
      exact hinvF
    · rw [hre]
      dsimp only
      refine List.Perm.trans (List.Perm.append (List.Perm.refl _) hliveF) ?_
      rw [hliveSrc, hliveNew]
      refine List.Perm.trans (List.perm_middle) ?_
      exact (List.perm_cons k).mpr hfilters
    · rw [hre]
      dsimp only
      intro q hq
      rw [hliveSrc] at hq
      have := (List.mem_filter.mp hq).2
      rw [Bool.not_eq_true'] at this
      exact keyGt_false_iff.mp this
    · rw [hre]
      dsimp only
      intro q hq
      have hq2 := hliveF.mem_iff.mp hq
      rcases List.mem_cons.mp hq2 with rfl | hq3
      · exact hklt
      · rw [hliveNew] at hq3
        exact keyGt_iff.mp (List.mem_filter.mp hq3).2
    · rw [hre]
      dsimp only
      refine ⟨hconv skv hskmem, k, List.mem_cons_self _ _, hklt⟩
    · intro q
      rw [hheapid, hheapsib]
      have hndcomb : ((leafEntriesAux sp0 LEAF_KEYS
          ++ leafEntriesAux (np0.set slot (some ⟨h, k, v⟩)) LEAF_KEYS).map Prod.fst).Nodup := by
        rw [List.map_append]
        rw [leafEntries_map_fst hinvSrc.slots (le_refl LEAF_KEYS),
            leafEntries_map_fst hinvF.slots (le_refl LEAF_KEYS)]
        have hp : (liveKeys sh0 sk0
            ++ liveKeys (nh0.set slot h) (nk0.set slot k)).Perm (k :: liveKeys hs ks) := by
          refine List.Perm.trans (List.Perm.append (List.Perm.refl _) hliveF) ?_
          rw [hliveSrc, hliveNew]
          refine List.Perm.trans (List.perm_middle) ?_
          exact (List.perm_cons k).mpr hfilters
        exact hp.nodup_iff.mpr (List.nodup_cons.mpr ⟨hkn, hnd⟩)
      have hndtgt : (((k, v) :: leafEntriesAux pl LEAF_KEYS).map Prod.fst).Nodup := by
        rw [List.map_cons]
        refine List.nodup_cons.mpr ⟨?_, hndpl⟩
        rw [leafEntries_map_fst hinv.slots (le_refl LEAF_KEYS)]
        exact hkn
      have hmemiff : ∀ kv : Key × Val,
          kv ∈ leafEntriesAux sp0 LEAF_KEYS
              ++ leafEntriesAux (np0.set slot (some ⟨h, k, v⟩)) LEAF_KEYS
          ↔ kv ∈ (k, v) :: leafEntriesAux pl LEAF_KEYS := by
        intro kv
        constructor
        · intro hm
          rcases List.mem_append.mp hm with hm | hm
          · rw [hentSrc] at hm
            exact List.mem_cons_of_mem _ (List.mem_filter.mp hm).1
          · have hm2 := hentF.mem_iff.mp hm
            rcases List.mem_cons.mp hm2 with rfl | hm3
            · exact List.mem_cons_self _ _
            · rw [hentNew] at hm3
              exact List.mem_cons_of_mem _ (List.mem_filter.mp hm3).1
        · intro hm
          rcases List.mem_cons.mp hm with rfl | hm2
          · exact List.mem_append.mpr (Or.inr (hentF.mem_iff.mpr (List.mem_cons_self _ _)))
          · rcases hgq : keyGt kv.1 skv with _ | _
            · refine List.mem_append.mpr (Or.inl ?_)
              rw [hentSrc]
              exact List.mem_filter.mpr ⟨hm2, by rw [hgq]; rfl⟩
            · refine List.mem_append.mpr (Or.inr ?_)
              refine hentF.mem_iff.mpr (List.mem_cons_of_mem _ ?_)
              rw [hentNew]
              exact List.mem_filter.mpr ⟨hm2, hgq⟩
      rw [lookupKey_ext hndcomb hndtgt hmemiff q, lookupKey_cons]

theorem getD_take {α : Type _} (l : List α) (n j : Nat) (h : j < n) (d : α) :
    (l.take n).getD j d = l.getD j d := by
  induction l generalizing n j with
  | nil => simp
  | cons a l ih =>
    cases n with
    | zero => omega
    | succ n =>
      cases j with
      | zero => rfl
      | succ j =>
        simp only [List.take_succ_cons, List.getD_cons_succ]
        exact ih n j (by omega)

theorem getD_drop {α : Type _} (l : List α) (n j : Nat) (d : α) :
    (l.drop n).getD j d = l.getD (n + j) d := by
  induction l generalizing n with
  | nil => simp
  | cons a l ih =>
    cases n with
    | zero => simp
    | succ n =>
      simp only [List.drop_succ_cons]
      rw [ih n]
      have he : n + 1 + j = n + j + 1 := by omega
      rw [he, List.getD_cons_succ]

theorem set_eq_splice {α : Type _} {l : List α} {i : Nat} (h : i < l.length) (x : α) :
    l.set i x = l.take i ++ x :: l.drop (i + 1) := by
  induction l generalizing i with
  | nil => cases h
  | cons a l ih =>
    cases i with
    | zero => rfl
    | succ i =>
      simp only [List.set_cons_succ, List.take_succ_cons, List.drop_succ_cons,
        List.cons_append]
      rw [ih (by simpa using h)]

theorem eq_splice_getD {α : Type _} {l : List α} {i : Nat} (h : i < l.length) (d : α) :
    l = l.take i ++ l.getD i d :: l.drop (i + 1) := by
  induction l generalizing i with
  | nil => cases h
  | cons a l ih =>
    cases i with
    | zero => rfl
    | succ i =>
      simp only [List.take_succ_cons, List.drop_succ_cons, List.cons_append,
        List.getD_cons_succ]
      rw [← ih (by simpa using h)]

theorem getD_mem {α : Type _} {l : List α} {i : Nat} (h : i < l.length) (d : α) :
    l.getD i d ∈ l := by
  rw [List.getD_eq_getElem _ _ h]
  exact List.getElem_mem _

theorem childrenKeys_append (a b : List MVNode) :
    childrenKeys (a ++ b) = childrenKeys a ++ childrenKeys b := by
  induction a with
  | nil => rfl
  | cons c cs ih =>
    simp only [List.cons_append, childrenKeys, List.append_eq, ih, List.append_assoc]

theorem childrenIds_append (a b : List MVNode) :
    childrenIds (a ++ b) = childrenIds a ++ childrenIds b := by
  induction a with
  | nil => rfl
  | cons c cs ih =>
    simp only [List.cons_append, childrenIds, List.append_eq, ih, List.append_assoc]

theorem childrenEntries_append (heap : List PLeaf) (a b : List MVNode) :
    childrenEntries heap (a ++ b) = childrenEntries heap a ++ childrenEntries heap b := by
  induction a with
  | nil => rfl
  | cons c cs ih =>
    simp only [List.cons_append, childrenEntries, List.append_eq, ih, List.append_assoc]

theorem mem_childrenKeys {children : List MVNode} {q : Key} :
    q ∈ childrenKeys children ↔ ∃ c ∈ children, q ∈ nodeKeys c := by
  induction children with
  | nil => simp [childrenKeys]
  | cons c cs ih =>
    simp only [childrenKeys, List.mem_append, ih, List.mem_cons]
    constructor
    · rintro (hq | ⟨c2, hc2, hq⟩)
      · exact ⟨c, Or.inl rfl, hq⟩
      · exact ⟨c2, Or.inr hc2, hq⟩
    · rintro ⟨c2, hc2 | hc2, hq⟩
      · subst hc2
        exact Or.inl hq
      · exact Or.inr ⟨c2, hc2, hq⟩

theorem mem_childrenIds {children : List MVNode} {j : LeafId} :
    j ∈ childrenIds children ↔ ∃ c ∈ children, j ∈ nodeIds c := by
  induction children with
  | nil => simp [childrenIds]
  | cons c cs ih =>
    simp only [childrenIds, List.mem_append, ih, List.mem_cons]
    constructor
    · rintro (hq | ⟨c2, hc2, hq⟩)
      · exact ⟨c, Or.inl rfl, hq⟩
      · exact ⟨c2, Or.inr hc2, hq⟩
    · rintro ⟨c2, hc2 | hc2, hq⟩
      · subst hc2
        exact Or.inl hq
      · exact Or.inr ⟨c2, hc2, hq⟩

theorem childrenKeys_decomp {children : List MVNode} {i : Nat}
    (h : i < children.length) :
    childrenKeys children
      = childrenKeys (children.take i) ++ nodeKeys (children.getD i default)
        ++ childrenKeys (children.drop (i + 1)) := by
  conv_lhs => rw [eq_splice_getD h default]
  rw [childrenKeys_append]
  simp only [childrenKeys]
  rw [List.append_assoc]

theorem childrenIds_decomp {children : List MVNode} {i : Nat}
    (h : i < children.length) :
    childrenIds children
      = childrenIds (children.take i) ++ nodeIds (children.getD i default)
        ++ childrenIds (children.drop (i + 1)) := by
  conv_lhs => rw [eq_splice_getD h default]
  rw [childrenIds_append]
  simp only [childrenIds]
  rw [List.append_assoc]

theorem childrenEntries_decomp {heap : List PLeaf} {children : List MVNode} {i : Nat}
    (h : i < children.length) :
    childrenEntries heap children
      = childrenEntries heap (children.take i)
        ++ nodeEntries heap (children.getD i default)
        ++ childrenEntries heap (children.drop (i + 1)) := by
  conv_lhs => rw [eq_splice_getD h default]
  rw [childrenEntries_append]
  simp only [childrenEntries]
  rw [List.append_assoc]

theorem childrenKeys_set {children : List MVNode} {i : Nat}
    (h : i < children.length) (c : MVNode) :
    childrenKeys (children.set i c)
      = childrenKeys (children.take i) ++ nodeKeys c
        ++ childrenKeys (children.drop (i + 1)) := by
  rw [set_eq_splice h, childrenKeys_append]
  simp only [childrenKeys]
  rw [List.append_assoc]

theorem childrenIds_set {children : List MVNode} {i : Nat}
    (h : i < children.length) (c : MVNode) :
    childrenIds (children.set i c)
      = childrenIds (children.take i) ++ nodeIds c
        ++ childrenIds (children.drop (i + 1)) := by
  rw [set_eq_splice h, childrenIds_append]
  simp only [childrenIds]
  rw [List.append_assoc]

theorem childrenEntries_set {heap : List PLeaf} {children : List MVNode} {i : Nat}
    (h : i < children.length) (c : MVNode) :
    childrenEntries heap (children.set i c)
      = childrenEntries heap (children.take i) ++ nodeEntries heap c
        ++ childrenEntries heap (children.drop (i + 1)) := by
  rw [set_eq_splice h, childrenEntries_append]
  simp only [childrenEntries]
  rw [List.append_assoc]

theorem searchIdx_le_length (keys : List Key) (k : Key) :
    searchIdx keys k ≤ keys.length := by
  induction keys with
  | nil => exact Nat.le_refl 0
  | cons s rest ih =>
    simp only [searchIdx]
    rcases h : keyLe k s with _ | _
    · rw [if_neg Bool.false_ne_true, List.length_cons]
      omega
    · rw [if_pos rfl]
      exact Nat.zero_le _

theorem searchIdx_lt {keys : List Key} {k : Key} :
    ∀ {j : Nat}, j < searchIdx keys k → keys.getD j [] < k := by
  induction keys with
  | nil => intro j hj; simp [searchIdx] at hj
  | cons s rest ih =>
    intro j hj
    simp only [searchIdx] at hj
    rcases h : keyLe k s with _ | _
    · rw [h, if_neg Bool.false_ne_true] at hj
      cases j with
      | zero => exact keyLe_false_iff.mp h
      | succ j =>
        rw [List.getD_cons_succ]
        exact ih (by omega)
    · rw [h, if_pos rfl] at hj
      omega

theorem searchIdx_ge {keys : List Key} {k : Key}
    (h : searchIdx keys k < keys.length) :
    k ≤ keys.getD (searchIdx keys k) [] := by
  induction keys with
  | nil => simp [searchIdx] at h
  | cons s rest ih =>
    simp only [searchIdx] at h ⊢
    rcases hks : keyLe k s with _ | _
    · rw [hks, if_neg Bool.false_ne_true] at h
      rw [if_neg Bool.false_ne_true, List.getD_cons_succ]
      exact ih (by simpa using h)
    · rw [if_pos rfl]
      exact keyLe_iff.mp hks

theorem insIdx_le_length (keys : List Key) (sk : Key) :
    insIdx keys sk ≤ keys.length := by
  induction keys with
  | nil => exact Nat.le_refl 0
  | cons s rest ih =>
    simp only [insIdx]
    rcases h : keyLe s sk with _ | _
    · rw [if_neg Bool.false_ne_true]
      exact Nat.zero_le _
    · rw [if_pos rfl, List.length_cons]
      omega

theorem insIdx_eq {keys : List Key} {sk : Key} {idx : Nat}
    (hidx : idx ≤ keys.length)
    (hlo : ∀ j, j < idx → keys.getD j [] < sk)
    (hhi : idx < keys.length → sk < keys.getD idx []) :
    insIdx keys sk = idx := by
  induction keys generalizing idx with
  | nil => simp only [List.length_nil, Nat.le_zero] at hidx; rw [hidx]; rfl
  | cons s rest ih =>
    simp only [insIdx]
    cases idx with
    | zero =>
      have hsk : sk < s := hhi (by simp)
      rw [if_neg (by rw [keyLe_false_iff.mpr hsk]; exact Bool.false_ne_true)]
    | succ j =>
      have hs : s < sk := hlo 0 (by omega)
      rw [if_pos (keyLe_iff.mpr (le_of_lt hs))]
      rw [ih (by simpa using hidx)
        (fun j2 hj2 => hlo (j2 + 1) (by omega))
        (fun hj2 => hhi (by simpa using Nat.succ_lt_succ hj2))]

theorem chain'_lt_pairwise {l : List Key} (h : l.Chain' (fun a b => a < b)) :
    l.Pairwise (fun a b => a < b) :=
  List.chain'_iff_pairwise.mp h

theorem sep_range_sub {lo hi : Option Key} {keys : List Key}
    (hchain : ChainBounds lo hi keys) {i : Nat} (hik : i ≤ keys.length) :
    ∀ q, inRange (sepLo lo keys i) (sepHi hi keys i) q → inRange lo hi q := by
  intro q hq
  constructor
  · cases i with
    | zero => exact hq.1
    | succ j =>
      have hmem : keys.getD j [] ∈ keys := getD_mem (by omega) []
      have hab := (hchain.2 _ hmem).1
      have hlt : keys.getD j [] < q := hq.1
      cases lo with
      | none => trivial
      | some l => exact lt_trans hab hlt
  · rw [sepHi] at hq
    by_cases hlen : i < keys.length
    · rw [if_pos hlen] at hq
      have hmem : keys.getD i [] ∈ keys := getD_mem hlen []
      have hsb := (hchain.2 _ hmem).2
      have hle : q ≤ keys.getD i [] := hq.2
      cases hi with
      | none => trivial
      | some hh => exact le_of_lt (lt_of_le_of_lt hle hsb)
    · rw [if_neg hlen] at hq
      exact hq.2

theorem nodeKeys_inRange {lo hi : Option Key} {heap : List PLeaf} {t : MVNode}
    (hg : Good lo hi heap t) : ∀ q ∈ nodeKeys t, inRange lo hi q := by
  induction hg with
  | leaf hid hinv hrange => exact hrange
  | inner hlen hk1 hk2 hchain hchild ih =>
    intro q hq
    rcases mem_childrenKeys.mp hq with ⟨c, hc, hqc⟩
    rcases mem_getD_of_mem hc default with ⟨i, hi2, hci⟩
    have hi3 := hi2
    rw [hlen] at hi3
    refine sep_range_sub hchain (Nat.lt_succ_iff.mp hi3) q ?_
    refine ih i hi2 q ?_
    rw [hci]
    exact hqc

theorem nodeIds_lt {lo hi : Option Key} {heap : List PLeaf} {t : MVNode}
    (hg : Good lo hi heap t) : ∀ j ∈ nodeIds t, j < heap.length := by
  induction hg with
  | leaf hid hinv hrange =>
    intro j hj
    simp only [nodeIds, List.mem_singleton] at hj
    rw [hj]
    exact hid
  | inner hlen hk1 hk2 hchain hchild ih =>
    intro j hj
    rcases mem_childrenIds.mp hj with ⟨c, hc, hjc⟩
    rcases mem_getD_of_mem hc default with ⟨i, hi2, hci⟩
    refine ih i hi2 j ?_
    rw [hci]
    exact hjc

theorem childrenEntries_congr {heap heap2 : List PLeaf} {children : List MVNode}
    (h : ∀ i, i < children.length →
        nodeEntries heap2 (children.getD i default)
          = nodeEntries heap (children.getD i default)) :
    childrenEntries heap2 children = childrenEntries heap children := by
  induction children with
  | nil => rfl
  | cons c cs ih =>
    simp only [childrenEntries]
    have h0 := h 0 (by simp)
    rw [List.getD_cons_zero] at h0
    rw [h0, ih (fun i hi2 => by
      have hs2 := h (i + 1) (by simpa using Nat.succ_lt_succ hi2)
      rw [List.getD_cons_succ] at hs2
      exact hs2)]

/-- Changing the heap outside a subtree's leaves (and only growing it) keeps
the subtree good and its stored entries unchanged. -/
theorem Good_frame {lo hi : Option Key} {heap heap2 : List PLeaf} {t : MVNode}
    (hg : Good lo hi heap t) :
    heap.length ≤ heap2.length →
    (∀ j ∈ nodeIds t, heap2.getD j [] = heap.getD j []) →
    Good lo hi heap2 t ∧ nodeEntries heap2 t = nodeEntries heap t := by
  induction hg with
  | leaf hid hinv hrange =>
    rename_i lo2 hi2 hp2 hs2 ks2 id2
    intro hlen2 hagree
    have hag := hagree id2 (by simp [nodeIds])
    constructor
    · refine Good.leaf (lt_of_lt_of_le hid hlen2) ?_ hrange
      rw [hag]
      exact hinv
    · simp only [nodeEntries]
      rw [hag]
  | inner hlen hk1 hk2 hchain hchild ih =>
    rename_i lo2 hi2 hp2 keys children
    intro hlen2 hagree
    have hsub : ∀ i, i < children.length →
        ∀ j ∈ nodeIds (children.getD i default), j ∈ nodeIds (MVNode.innerN keys children) := by
      intro i hi3 j hj
      simp only [nodeIds]
      refine mem_childrenIds.mpr ⟨children.getD i default, getD_mem hi3 default, hj⟩
    have hih : ∀ i, i < children.length →
        Good (sepLo lo2 keys i) (sepHi hi2 keys i) heap2 (children.getD i default) ∧
        nodeEntries heap2 (children.getD i default)
          = nodeEntries hp2 (children.getD i default) := by
      intro i hi3
      exact ih i hi3 hlen2 (fun j hj => hagree j (hsub i hi3 j hj))
    constructor
    · exact Good.inner hlen hk1 hk2 hchain (fun i hi3 => (hih i hi3).1)
    · simp only [nodeEntries]
      exact childrenEntries_congr (fun i hi3 => (hih i hi3).2)

theorem childrenEntries_map_fst_congr {heap : List PLeaf} {children : List MVNode}
    (h : ∀ i, i < children.length →
        (nodeEntries heap (children.getD i default)).map Prod.fst
          = nodeKeys (children.getD i default)) :
    (childrenEntries heap children).map Prod.fst = childrenKeys children := by
  induction children with
  | nil => rfl
  | cons c cs ih =>
    simp only [childrenEntries, childrenKeys, List.map_append]
    have h0 := h 0 (by simp)
    rw [List.getD_cons_zero] at h0
    rw [h0, ih (fun i hi2 => by
      have hs2 := h (i + 1) (by simpa using Nat.succ_lt_succ hi2)
      rw [List.getD_cons_succ] at hs2
      exact hs2)]

/-- In a good subtree the stored keys are exactly the mirror keys. -/
theorem nodeEntries_map_fst {lo hi : Option Key} {heap : List PLeaf} {t : MVNode}
    (hg : Good lo hi heap t) :
    (nodeEntries heap t).map Prod.fst = nodeKeys t := by
  induction hg with
  | leaf hid hinv hrange =>
    simp only [nodeEntries, nodeKeys]
    exact leafEntries_map_fst hinv.slots (le_refl LEAF_KEYS)
  | inner hlen hk1 hk2 hchain hchild ih =>
    simp only [nodeEntries, nodeKeys]
    exact childrenEntries_map_fst_congr ih

theorem getD_append_cons {α : Type _} (a b : List α) (x d : α) :
    (a ++ x :: b).getD a.length d = x := by
  induction a with
  | nil => rfl
  | cons y a ih =>
    simp only [List.cons_append, List.length_cons, List.getD_cons_succ]
    exact ih

theorem getD_append_add {α : Type _} (a b : List α) (i : Nat) (d : α) :
    (a ++ b).getD (a.length + i) d = b.getD i d := by
  induction a with
  | nil => simp
  | cons y a ih =>
    have he : (y :: a).length + i = (a.length + i) + 1 := by
      simp only [List.length_cons]
      omega
    rw [he, List.cons_append, List.getD_cons_succ]
    exact ih

theorem length_splice {α : Type _} {l : List α} {idx : Nat} (hle : idx ≤ l.length)
    (x : α) : (l.take idx ++ x :: l.drop idx).length = l.length + 1 := by
  simp only [List.length_append, List.length_take, List.length_cons, List.length_drop]
  omega

theorem getD_splice_lt {α : Type _} {l : List α} {idx j : Nat} {x : α}
    (h : j < idx) (hle : idx ≤ l.length) (d : α) :
    (l.take idx ++ x :: l.drop idx).getD j d = l.getD j d := by
  rw [getD_append_left (by rw [List.length_take]; omega) d]
  exact getD_take l idx j h d

theorem getD_splice_eq {α : Type _} {l : List α} {idx : Nat} {x : α}
    (hle : idx ≤ l.length) (d : α) :
    (l.take idx ++ x :: l.drop idx).getD idx d = x := by
  have h1 : (l.take idx).length = idx := by rw [List.length_take]; omega
  have h2 := getD_append_cons (l.take idx) (l.drop idx) x d
  rw [h1] at h2
  exact h2

theorem getD_splice_gt {α : Type _} {l : List α} {idx j : Nat} {x : α}
    (hij : idx ≤ j) (hle : idx ≤ l.length) (d : α) :
    (l.take idx ++ x :: l.drop idx).getD (j + 1) d = l.getD j d := by
  have h1 : (l.take idx).length = idx := by rw [List.length_take]; omega
  have he : j + 1 = (l.take idx).length + (j - idx + 1) := by rw [h1]; omega
  rw [he, getD_append_add, List.getD_cons_succ, getD_drop]
  have he2 : idx + (j - idx) = j := by omega
  rw [he2]

theorem pairwise_of_getD_lt {l : List Key}
    (h : ∀ i j, i < j → j < l.length → l.getD i [] < l.getD j []) :
    l.Pairwise (fun a b => a < b) := by
  refine List.pairwise_iff_getElem.mpr ?_
  intro i j hi2 hj2 hij
  have hx := h i j hij hj2
  rw [List.getD_eq_getElem _ _ (by omega), List.getD_eq_getElem _ _ hj2] at hx
  exact hx

theorem chainBounds_splice {lo hi : Option Key} {keys : List Key} {sk : Key}
    {idx : Nat}
    (hchain : ChainBounds lo hi keys)
    (hidx : idx ≤ keys.length)
    (hlo : aboveLo (sepLo lo keys idx) sk)
    (hhi : strictBelow (sepHi hi keys idx) sk) :
    ChainBounds lo hi (keys.take idx ++ sk :: keys.drop idx) := by
  have hp := chain'_lt_pairwise hchain.1
  have hsk_gt : ∀ j, j < idx → keys.getD j [] < sk := by
    intro j hj
    have hidx0 : idx = (idx - 1) + 1 := by omega
    have hlo2 : keys.getD (idx - 1) [] < sk := by
      rw [hidx0] at hlo
      exact hlo
    rcases Nat.lt_or_ge j (idx - 1) with hj2 | hj2
    · exact lt_trans (pairwise_getD_lt hp hj2 (by omega)) hlo2
    · have hje : j = idx - 1 := by omega
      rw [hje]
      exact hlo2
  have hsk_lt : ∀ j, idx ≤ j → j < keys.length → sk < keys.getD j [] := by
    intro j hj1 hj2
    have hidxlt : idx < keys.length := by omega
    have hhi2 : sk < keys.getD idx [] := by
      rw [sepHi, if_pos hidxlt] at hhi
      exact hhi
    rcases Nat.lt_or_ge idx j with hj3 | hj3
    · exact lt_trans hhi2 (pairwise_getD_lt hp hj3 hj2)
    · have hje : j = idx := by omega
      rw [hje]
      exact hhi2
  constructor
  · refine List.chain'_iff_pairwise.mpr (pairwise_of_getD_lt ?_)
    intro i j hij hj2
    rw [length_splice hidx] at hj2
    rcases Nat.lt_or_ge i idx with hi3 | hi3
    · rw [getD_splice_lt hi3 hidx]
      rcases Nat.lt_or_ge j idx with hj3 | hj3
      · rw [getD_splice_lt hj3 hidx]
        exact pairwise_getD_lt hp hij (by omega)
      · rcases Nat.eq_or_lt_of_le hj3 with hj4 | hj4
        · rw [← hj4, getD_splice_eq hidx]
          exact hsk_gt i hi3
        · have hj5 : j = (j - 1) + 1 := by omega
          rw [hj5, getD_splice_gt (by omega) hidx]
          exact pairwise_getD_lt hp (by omega) (by omega)
    · rcases Nat.eq_or_lt_of_le hi3 with hi4 | hi4
      · rw [← hi4, getD_splice_eq hidx]
        have hj5 : j = (j - 1) + 1 := by omega
        rw [hj5, getD_splice_gt (by omega) hidx]
        exact hsk_lt (j - 1) (by omega) (by omega)
      · have hi5 : i = (i - 1) + 1 := by omega
        have hj5 : j = (j - 1) + 1 := by omega
        rw [hi5, getD_splice_gt (by omega) hidx, hj5, getD_splice_gt (by omega) hidx]
        exact pairwise_getD_lt hp (by omega) (by omega)
  · intro s hs
    rcases List.mem_append.mp hs with hs2 | hs2
    · exact hchain.2 s (List.mem_of_mem_take hs2)
    · rcases List.mem_cons.mp hs2 with rfl | hs3
      · constructor
        · cases hidx0 : idx with
          | zero =>
            rw [hidx0] at hlo
            exact hlo
          | succ j =>
            rw [hidx0] at hlo
            have hmem : keys.getD j [] ∈ keys := getD_mem (by omega) []
            have hab := (hchain.2 _ hmem).1
            cases lo with
            | none => trivial
            | some l => exact lt_trans hab hlo
        · rw [sepHi] at hhi
          by_cases hlt : idx < keys.length
          · rw [if_pos hlt] at hhi
            have hmem : keys.getD idx [] ∈ keys := getD_mem hlt []
            have hsb := (hchain.2 _ hmem).2
            cases hi with
            | none => trivial
            | some hh => exact lt_trans hhi hsb
          · rw [if_neg hlt] at hhi
            exact hhi
      · exact hchain.2 s (List.mem_of_mem_drop hs3)

theorem chainBounds_take {lo hi : Option Key} {keys : List Key}
    (hchain : ChainBounds lo hi keys) {m : Nat} (hm : m < keys.length) :
    ChainBounds lo (some (keys.getD m [])) (keys.take m) := by
  have hp := chain'_lt_pairwise hchain.1
  constructor
  · exact List.chain'_iff_pairwise.mpr (List.Pairwise.sublist (List.take_sublist m keys) hp)
  · intro s hs
    rcases mem_getD_of_mem hs [] with ⟨j, hj, hjs⟩
    rw [List.length_take] at hj
    rw [getD_take keys m j (by omega) []] at hjs
    constructor
    · exact (hchain.2 s (List.mem_of_mem_take hs)).1
    · rw [← hjs]
      exact pairwise_getD_lt hp (by omega) hm

theorem chainBounds_drop {lo hi : Option Key} {keys : List Key}
    (hchain : ChainBounds lo hi keys) {m : Nat} (hm : m < keys.length) :
    ChainBounds (some (keys.getD m [])) hi (keys.drop (m + 1)) := by
  have hp := chain'_lt_pairwise hchain.1
  constructor
  · exact List.chain'_iff_pairwise.mpr
      (List.Pairwise.sublist (List.drop_sublist (m + 1) keys) hp)
  · intro s hs
    rcases mem_getD_of_mem hs [] with ⟨j, hj, hjs⟩
    rw [List.length_drop] at hj
    rw [getD_drop] at hjs
    constructor
    · rw [← hjs]
      exact pairwise_getD_lt hp (by omega) (by omega)
    · exact (hchain.2 s (List.mem_of_mem_drop hs)).2

theorem splice_children_good {lo hi : Option Key} {heap : List PLeaf}
    {keys : List Key} {children : List MVNode} {sk : Key} {idx : Nat} {sib : MVNode}
    (hlen : children.length = keys.length + 1)
    (hidx : idx ≤ keys.length)
    (hgleft : Good (sepLo lo keys idx) (some sk) heap (children.getD idx default))
    (hgright : Good (some sk) (sepHi hi keys idx) heap sib)
    (hothers : ∀ i, i < children.length → i ≠ idx →
        Good (sepLo lo keys i) (sepHi hi keys i) heap (children.getD i default)) :
    ∀ i, i < (children.take (idx + 1) ++ sib :: children.drop (idx + 1)).length →
      Good (sepLo lo (keys.take idx ++ sk :: keys.drop idx) i)
           (sepHi hi (keys.take idx ++ sk :: keys.drop idx) i) heap
           ((children.take (idx + 1) ++ sib :: children.drop (idx + 1)).getD i default) := by
  intro i hi2
  have hcidx : idx + 1 ≤ children.length := by omega
  rw [length_splice hcidx sib, hlen] at hi2
  have hklen2 : (keys.take idx ++ sk :: keys.drop idx).length = keys.length + 1 :=
    length_splice hidx sk
  rcases Nat.lt_or_ge i (idx + 1) with hi3 | hi3
  · rw [getD_splice_lt hi3 hcidx]
    have hslo : sepLo lo (keys.take idx ++ sk :: keys.drop idx) i = sepLo lo keys i := by
      cases i with
      | zero => rfl
      | succ j =>
        show some ((keys.take idx ++ sk :: keys.drop idx).getD j [])
          = some (keys.getD j [])
        rw [getD_splice_lt (by omega) hidx]
    rcases Nat.lt_or_ge i idx with hi4 | hi4
    · have hshi : sepHi hi (keys.take idx ++ sk :: keys.drop idx) i
          = sepHi hi keys i := by
        rw [sepHi, sepHi, if_pos (by rw [hklen2]; omega), if_pos (by omega)]
        rw [getD_splice_lt hi4 hidx]
      rw [hslo, hshi]
      exact hothers i (by omega) (by omega)
    · have hie : i = idx := by omega
      subst hie
      have hshi : sepHi hi (keys.take i ++ sk :: keys.drop i) i = some sk := by
        rw [sepHi, if_pos (by rw [hklen2]; omega)]
        rw [getD_splice_eq hidx]
      rw [hslo, hshi]
      exact hgleft
  · rcases Nat.eq_or_lt_of_le hi3 with hi4 | hi4
    · rw [← hi4]
      have hg1 : (children.take (idx + 1) ++ sib :: children.drop (idx + 1)).getD
          (idx + 1) default = sib := getD_splice_eq hcidx default
      rw [hg1]
      have hslo : sepLo lo (keys.take idx ++ sk :: keys.drop idx) (idx + 1)
          = some sk := by
        show some ((keys.take idx ++ sk :: keys.drop idx).getD idx []) = some sk
        rw [getD_splice_eq hidx]
      have hshi : sepHi hi (keys.take idx ++ sk :: keys.drop idx) (idx + 1)
          = sepHi hi keys idx := by
        rw [sepHi, sepHi]
        by_cases hx : idx < keys.length
        · rw [if_pos (by rw [hklen2]; omega), if_pos hx]
          rw [getD_splice_gt (le_refl idx) hidx]
        · rw [if_neg (by rw [hklen2]; omega), if_neg hx]
      rw [hslo, hshi]
      exact hgright
    · have hi5 : i = (i - 1) + 1 := by omega
      have hgc : (children.take (idx + 1) ++ sib :: children.drop (idx + 1)).getD
          i default = children.getD (i - 1) default := by
        rw [hi5]
        exact getD_splice_gt (by omega) hcidx default
      rw [hgc]
      have hslo : sepLo lo (keys.take idx ++ sk :: keys.drop idx) i
          = sepLo lo keys (i - 1) := by
        rw [hi5]
        show some ((keys.take idx ++ sk :: keys.drop idx).getD (i - 1) [])
          = sepLo lo keys (i - 1)
        have hi6 : i - 1 = (i - 2) + 1 := by omega
        rw [hi6, getD_splice_gt (by omega) hidx]
        rfl
      have hshi : sepHi hi (keys.take idx ++ sk :: keys.drop idx) i
          = sepHi hi keys (i - 1) := by
        rw [sepHi, sepHi]
        by_cases hx : i - 1 < keys.length
        · rw [if_pos (by rw [hklen2]; omega), if_pos hx]
          rw [hi5, getD_splice_gt (by omega) hidx, Nat.add_sub_cancel]
        · rw [if_neg (by rw [hklen2]; omega), if_neg hx]
      rw [hslo, hshi]
      exact hothers (i - 1) (by omega) (by omega)

theorem inner_split_good {lo hi : Option Key} {heap : List PLeaf}
    {keys : List Key} {children : List MVNode}
    (hlen : children.length = keys.length + 1)
    (hchain : ChainBounds lo hi keys)
    (hchild : ∀ i, i < children.length →
        Good (sepLo lo keys i) (sepHi hi keys i) heap (children.getD i default))
    (m : Nat) (hm1 : 1 ≤ m) (hm2 : m + 2 ≤ keys.length)
    (hmK : m ≤ INNER_KEYS) (hmK2 : keys.length - (m + 1) ≤ INNER_KEYS) :
    Good lo (some (keys.getD m [])) heap
      (.innerN (keys.take m) (children.take (m + 1))) ∧
    Good (some (keys.getD m [])) hi heap
      (.innerN (keys.drop (m + 1)) (children.drop (m + 1))) ∧
    aboveLo lo (keys.getD m []) ∧ strictBelow hi (keys.getD m []) := by
  have hmlt : m < keys.length := by omega
  refine ⟨?_, ?_, ?_, ?_⟩
  · refine Good.inner (by simp only [List.length_take]; omega)
      (by simp only [List.length_take]; omega)
      (by simp only [List.length_take]; omega)
      (chainBounds_take hchain hmlt) ?_
    intro i hi2
    have hi3 : i < m + 1 := by
      rw [List.length_take] at hi2
      omega
    rw [getD_take children (m + 1) i hi3 default]
    have hslo : sepLo lo (keys.take m) i = sepLo lo keys i := by
      cases i with
      | zero => rfl
      | succ j =>
        show some ((keys.take m).getD j []) = some (keys.getD j [])
        rw [getD_take keys m j (by omega) []]
    rcases Nat.lt_or_ge i m with hi4 | hi4
    · have hshi : sepHi (some (keys.getD m [])) (keys.take m) i = sepHi hi keys i := by
        rw [sepHi, sepHi, if_pos (by rw [List.length_take]; omega), if_pos (by omega)]
        rw [getD_take keys m i hi4 []]
      rw [hslo, hshi]
      exact hchild i (by omega)
    · have hie : i = m := by omega
      subst hie
      have hshi : sepHi (some (keys.getD i [])) (keys.take i) i = sepHi hi keys i := by
        rw [sepHi, sepHi, if_neg (by rw [List.length_take]; omega), if_pos (by omega)]
      rw [hslo, hshi]
      exact hchild i (by omega)
  · refine Good.inner (by simp only [List.length_drop]; omega)
      (by simp only [List.length_drop]; omega)
      (by simp only [List.length_drop]; omega)
      (chainBounds_drop hchain hmlt) ?_
    intro i hi2
    rw [List.length_drop] at hi2
    rw [getD_drop children (m + 1) i default]
    have hslo : sepLo (some (keys.getD m [])) (keys.drop (m + 1)) i
        = sepLo lo keys (m + 1 + i) := by
      cases i with
      | zero => rfl
      | succ j =>
        show some ((keys.drop (m + 1)).getD j []) = some (keys.getD (m + 1 + j) [])
        rw [getD_drop]
    have hshi : sepHi hi (keys.drop (m + 1)) i = sepHi hi keys (m + 1 + i) := by
      rw [sepHi, sepHi]
      by_cases hx : m + 1 + i < keys.length
      · rw [if_pos (by rw [List.length_drop]; omega), if_pos hx, getD_drop]
      · rw [if_neg (by rw [List.length_drop]; omega), if_neg hx]
    rw [hslo, hshi]
    exact hchild (m + 1 + i) (by omega)
  · exact (hchain.2 _ (getD_mem hmlt [])).1
  · exact (hchain.2 _ (getD_mem hmlt [])).2

theorem innerInsertStep_eq (keys : List Key) (children : List MVNode) (sk : Key)
    (sib : MVNode) :
    innerInsertStep keys children sk sib =
      if (keys.take (insIdx keys sk) ++ sk :: keys.drop (insIdx keys sk)).length
          ≤ INNER_KEYS then
        (.innerN (keys.take (insIdx keys sk) ++ sk :: keys.drop (insIdx keys sk))
          (children.take (insIdx keys sk + 1)
            ++ sib :: children.drop (insIdx keys sk + 1)), none)
      else
        (.innerN
          ((keys.take (insIdx keys sk)
            ++ sk :: keys.drop (insIdx keys sk)).take INNER_KEYS_MIDPOINT)
          ((children.take (insIdx keys sk + 1)
            ++ sib :: children.drop (insIdx keys sk + 1)).take (INNER_KEYS_MIDPOINT + 1)),
         some (.innerN
          ((keys.take (insIdx keys sk)
            ++ sk :: keys.drop (insIdx keys sk)).drop INNER_KEYS_UPPER)
          ((children.take (insIdx keys sk + 1)
            ++ sib :: children.drop (insIdx keys sk + 1)).drop INNER_KEYS_UPPER),
          (keys.take (insIdx keys sk)
            ++ sk :: keys.drop (insIdx keys sk)).getD INNER_KEYS_MIDPOINT [])) := rfl

/-- Specification of one parent update of `MVTree::InnerUpdateAfterSplit`: when
the split child is at the descent index and the separator fits strictly between
its bounds, the result is good for the node's range (or a good split pair), and
its leaf ids, mirror keys and stored entries are exactly those of the children
with the new sibling inserted right of the split child. -/
theorem innerInsertStep_spec {lo hi : Option Key} {heap : List PLeaf}
    {keys : List Key} {children : List MVNode} {sk : Key} {sib : MVNode} {idx : Nat}
    (hlen : children.length = keys.length + 1)
    (hk2 : keys.length ≤ INNER_KEYS)
    (hchain : ChainBounds lo hi keys)
    (hinsidx : insIdx keys sk = idx)
    (hidx : idx ≤ keys.length)
    (hlo : aboveLo (sepLo lo keys idx) sk)
    (hhi : strictBelow (sepHi hi keys idx) sk)
    (hgleft : Good (sepLo lo keys idx) (some sk) heap (children.getD idx default))
    (hgright : Good (some sk) (sepHi hi keys idx) heap sib)
    (hothers : ∀ i, i < children.length → i ≠ idx →
        Good (sepLo lo keys i) (sepHi hi keys i) heap (children.getD i default)) :
    match innerInsertStep keys children sk sib with
    | (n2, none) =>
        Good lo hi heap n2 ∧
        nodeIds n2
          = childrenIds (children.take (idx + 1) ++ sib :: children.drop (idx + 1)) ∧
        nodeKeys n2
          = childrenKeys (children.take (idx + 1) ++ sib :: children.drop (idx + 1)) ∧
        nodeEntries heap n2
          = childrenEntries heap
              (children.take (idx + 1) ++ sib :: children.drop (idx + 1))
    | (n2, some (sib2, pk)) =>
        Good lo (some pk) heap n2 ∧ Good (some pk) hi heap sib2 ∧
        aboveLo lo pk ∧ strictBelow hi pk ∧
        nodeIds n2 ++ nodeIds sib2
          = childrenIds (children.take (idx + 1) ++ sib :: children.drop (idx + 1)) ∧
        nodeKeys n2 ++ nodeKeys sib2
          = childrenKeys (children.take (idx + 1) ++ sib :: children.drop (idx + 1)) ∧
        nodeEntries heap n2 ++ nodeEntries heap sib2
          = childrenEntries heap
              (children.take (idx + 1) ++ sib :: children.drop (idx + 1)) := by
  have hchain2 := chainBounds_splice hchain hidx hlo hhi
  have hchild2 := splice_children_good hlen hidx hgleft hgright hothers
  have hklen2 : (keys.take idx ++ sk :: keys.drop idx).length = keys.length + 1 :=
    length_splice hidx sk
  have hclen2 : (children.take (idx + 1) ++ sib :: children.drop (idx + 1)).length
      = children.length + 1 := length_splice (by omega) sib
  rw [innerInsertStep_eq, hinsidx]
  by_cases hov : (keys.take idx ++ sk :: keys.drop idx).length ≤ INNER_KEYS
  · rw [if_pos hov]
    refine ⟨?_, by simp only [nodeIds], by simp only [nodeKeys],
      by simp only [nodeEntries]⟩
    exact Good.inner (by rw [hclen2, hklen2, hlen]) (by rw [hklen2]; omega)
      hov hchain2 hchild2
  · rw [if_neg hov]
    have hkl4 : keys.length = INNER_KEYS := by
      rw [hklen2] at hov
      omega
    have hup : INNER_KEYS_UPPER = INNER_KEYS_MIDPOINT + 1 := by decide
    have hlen3 : (children.take (idx + 1) ++ sib :: children.drop (idx + 1)).length
        = (keys.take idx ++ sk :: keys.drop idx).length + 1 := by
      rw [hclen2, hklen2, hlen]
    have hsplit := inner_split_good hlen3 hchain2 hchild2 INNER_KEYS_MIDPOINT (by decide)
      (by rw [hklen2, hkl4]; decide) (by decide) (by rw [hklen2, hkl4]; decide)
    rw [hup]
    refine ⟨hsplit.1, hsplit.2.1, hsplit.2.2.1, hsplit.2.2.2, ?_, ?_, ?_⟩
    · simp only [nodeIds]
      rw [← childrenIds_append, List.take_append_drop]
    · simp only [nodeKeys]
      rw [← childrenKeys_append, List.take_append_drop]
    · simp only [nodeEntries]
      rw [← childrenEntries_append, List.take_append_drop]

theorem take_set_succ {α : Type _} {l : List α} {i : Nat} (h : i < l.length) (x : α) :
    (l.set i x).take (i + 1) = l.take i ++ [x] := by
  induction l generalizing i with
  | nil => cases h
  | cons a l ih =>
    cases i with
    | zero => rfl
    | succ i =>
      simp only [List.set_cons_succ, List.take_succ_cons, List.cons_append]
      rw [ih (by simpa using h)]

theorem drop_set_succ {α : Type _} {l : List α} {i : Nat} (h : i < l.length) (x : α) :
    (l.set i x).drop (i + 1) = l.drop (i + 1) := by
  induction l generalizing i with
  | nil => cases h
  | cons a l ih =>
    cases i with
    | zero => rfl
    | succ i =>
      simp only [List.set_cons_succ, List.drop_succ_cons]
      exact ih (by simpa using h)

theorem nodup_of_append_middle {α : Type _} {A B C : List α}
    (h : (A ++ B ++ C).Nodup) : B.Nodup := by
  have hsub : B.Sublist (A ++ B ++ C) := by
    rw [List.append_assoc]
    exact (List.sublist_append_left B C).trans (List.sublist_append_right A (B ++ C))
  exact List.Nodup.sublist hsub h

theorem childrenIds_disjoint {children : List MVNode}
    (hnd : (childrenIds children).Nodup) :
    ∀ i j, i < children.length → j < children.length → i ≠ j →
      ∀ x ∈ nodeIds (children.getD i default), x ∉ nodeIds (children.getD j default) := by
  induction children with
  | nil => intro i j hi2 _ _; cases hi2
  | cons c cs ih =>
    intro i j hi2 hj2 hij x hx
    simp only [childrenIds] at hnd
    rcases List.nodup_append.mp hnd with ⟨hnd1, hnd2, hdisj⟩
    cases i with
    | zero =>
      cases j with
      | zero => exact absurd rfl hij
      | succ j =>
        intro hx2
        exact hdisj hx (mem_childrenIds.mpr
          ⟨cs.getD j default, getD_mem (by simpa using hj2) default, hx2⟩)
    | succ i =>
      cases j with
      | zero =>
        intro hx2
        exact hdisj hx2 (mem_childrenIds.mpr
          ⟨cs.getD i default, getD_mem (by simpa using hi2) default, hx⟩)
      | succ j =>
        exact ih hnd2 i j (by simpa using hi2) (by simpa using hj2)
          (fun he => hij (by rw [he])) x hx

theorem lookupKey_mid {A B C D : List (Key × Val)} {k q : Key} {v : Val}
    (hq : lookupKey B q = if q = k then some v else lookupKey C q)
    (hkA : k ∉ A.map Prod.fst) :
    lookupKey (A ++ B ++ D) q = if q = k then some v else lookupKey (A ++ C ++ D) q := by
  by_cases h : q = k
  · subst h
    rw [if_pos rfl] at hq ⊢
    rw [List.append_assoc, lookupKey_append_right hkA, lookupKey_append, hq]
  · rw [if_neg h] at hq ⊢
    rw [List.append_assoc, List.append_assoc, lookupKey_append]
    conv_rhs => rw [lookupKey_append]
    rcases h2 : lookupKey A q with _ | w
    · dsimp only
      rw [lookupKey_append, hq]
      conv_rhs => rw [lookupKey_append]
    · rfl

theorem putChildren_eq (env : PEnv) (h : Nat) (k : Key) (v : Val) :
    ∀ (children : List MVNode) (idx : Nat), idx < children.length →
      putChildren env h k v children idx
        = ((putRec env h k v (children.getD idx default)).1,
           children.set idx (putRec env h k v (children.getD idx default)).2.1,
           (putRec env h k v (children.getD idx default)).2.2) := by
  intro children
  induction children with
  | nil => intro idx hidx; cases hidx
  | cons c cs ih =>
    intro idx hidx
    cases idx with
    | zero =>
      simp only [putChildren, List.getD_cons_zero]
      rcases hr : putRec env h k v c with ⟨env2, c2, os⟩
      rfl
    | succ n =>
      simp only [putChildren]
      rw [ih n (by simpa using hidx)]
      rfl

/-- Specification of `putRec` (the fill-or-split descent of `MVTree::Put` with
the parent updates of `InnerUpdateAfterSplit`), by induction on the tree
invariant: the environment bookkeeping (prealloc pool, heap growth, persistent
list, untouched leaves), and — depending on whether a split escapes the node —
goodness, leaf ids, mirror keys and the map semantics of the stored entries. -/
theorem putRec_spec {lo hi : Option Key} {heap : List PLeaf} {t : MVNode}
    (hg : Good lo hi heap t) :
    ∀ {env : PEnv} {h : Nat} {k : Key} {v : Val} {env2 : PEnv} {t2 : MVNode}
      {os : Option (MVNode × Key)},
      env.heap = heap →
      putRec env h k v t = (env2, t2, os) →
      (nodeKeys t).Nodup →
      (nodeIds t).Nodup →
      inRange lo hi k →
      h = PearsonHash k →
      env.leaves_prealloc = [] →
      ((env2.leaves_prealloc = [] ∧
        env.heap.length ≤ env2.heap.length ∧
        ((env2.heap.length = env.heap.length ∧ env2.headIds = env.headIds) ∨
         (env2.heap.length = env.heap.length + 1 ∧
          env2.headIds = env.heap.length :: env.headIds)) ∧
        (∀ j, j < env.heap.length → j ∉ nodeIds t →
            env2.heap.getD j [] = env.heap.getD j [])) ∧
       (match os with
        | none =>
           Good lo hi env2.heap t2 ∧
           (nodeIds t2).Perm
             (List.range' env.heap.length (env2.heap.length - env.heap.length)
               ++ nodeIds t) ∧
           ((k ∈ nodeKeys t ∧ (nodeKeys t2).Perm (nodeKeys t)) ∨
            (k ∉ nodeKeys t ∧ (nodeKeys t2).Perm (k :: nodeKeys t))) ∧
           (∀ q, lookupKey (nodeEntries env2.heap t2) q
               = if q = k then some v else lookupKey (nodeEntries env.heap t) q)
        | some (sib, sk) =>
           Good lo (some sk) env2.heap t2 ∧
           Good (some sk) hi env2.heap sib ∧
           aboveLo lo sk ∧ strictBelow hi sk ∧
           (nodeIds t2 ++ nodeIds sib).Perm
             (List.range' env.heap.length (env2.heap.length - env.heap.length)
               ++ nodeIds t) ∧
           k ∉ nodeKeys t ∧
           (nodeKeys t2 ++ nodeKeys sib).Perm (k :: nodeKeys t) ∧
           (∀ q, lookupKey (nodeEntries env2.heap t2
                   ++ nodeEntries env2.heap sib) q
               = if q = k then some v
                 else lookupKey (nodeEntries env.heap t) q))) := by
  induction hg with
  | leaf hid hinv hrange =>
    rename_i lo2 hi2 hp2 hsm ksm id2
    intro env h k v env2 t2 os heq hrec hnd hndid hk hh hpre
    subst heq
    have hndl : (liveKeys hsm ksm).Nodup := hnd
    unfold putRec at hrec
    dsimp only at hrec
    have hspec := @LeafFillSlotForKey_spec hsm ksm (env.heap.getD id2 []) h k v
      hinv hndl hh
    rcases hfill : LeafFillSlotForKey hsm ksm (env.heap.getD id2 []) h k v
      with _ | ⟨hsx, ksx, plx⟩
    · -- leaf full without the key: split
      rw [hfill] at hspec hrec
      dsimp only at hrec
      obtain ⟨hfull, hkn⟩ := hspec
      obtain ⟨r, hr⟩ : ∃ x, LeafSplitFull env hsm ksm id2 h k v = x := ⟨_, rfl⟩
      rw [hr] at hrec
      have hsplit := LeafSplitFull_spec hr.symm hinv hndl hfull hkn hh hpre hid
      obtain ⟨hc1, hc2, hc3, hc4, hc5, hc6, hc7, hc8, hc9, hc10, hc11, hc12⟩ := hsplit
      injection hrec with h1 hrec2
      injection hrec2 with h2 h3
      subst h1
      subst h2
      subst h3
      have hmemrange : ∀ q ∈ k :: liveKeys hsm ksm, inRange lo2 hi2 q := by
        intro q hq
        rcases List.mem_cons.mp hq with rfl | hq2
        · exact hk
        · exact hrange q hq2
      refine ⟨⟨hc1, by rw [hc2]; omega, Or.inr ⟨hc2, hc4⟩, ?_⟩, ?_⟩
      · intro j hj hjm
        refine hc5 j hj ?_
        intro hje
        exact hjm (by rw [hje]; simp [nodeIds])
      dsimp only
      refine ⟨?_, ?_, ?_, ?_, ?_, hkn, hc8, ?_⟩
      · refine Good.leaf (by rw [hc2]; exact lt_trans hid (Nat.lt_succ_self _)) hc6 ?_
        intro q hq
        have hqm : q ∈ k :: liveKeys hsm ksm :=
          hc8.mem_iff.mp (List.mem_append.mpr (Or.inl hq))
        exact ⟨(hmemrange q hqm).1, hc9 q hq⟩
      · refine Good.leaf (by rw [hc2, hc3]; exact Nat.lt_succ_self _) hc7 ?_
        intro q hq
        have hqm : q ∈ k :: liveKeys hsm ksm :=
          hc8.mem_iff.mp (List.mem_append.mpr (Or.inr hq))
        exact ⟨hc10 q hq, (hmemrange q hqm).2⟩
      · exact (hmemrange r.splitKey hc11.1).1
      · rcases hc11.2 with ⟨w, hw1, hw2⟩
        cases hi2 with
        | none => trivial
        | some m =>
          have hwm : w ≤ m := (hmemrange w hw1).2
          exact lt_of_lt_of_le hw2 hwm
      · simp only [nodeIds]
        rw [hc2, Nat.add_sub_cancel_left, hc3]
        refine List.perm_iff_count.mpr ?_
        intro a
        simp only [List.count_append, List.range', List.count_cons, List.count_nil]
        omega
      · intro q
        exact hc12 q
    · -- the fill succeeded inside one leaf
      rw [hfill] at hspec hrec
      dsimp only at hrec
      obtain ⟨hinvx, hcase, hlook⟩ := hspec
      injection hrec with h1 hrec2
      injection hrec2 with h2 h3
      subst h1
      subst h2
      subst h3
      have hsetlen : (env.heap.set id2 plx).length = env.heap.length := by simp
      refine ⟨⟨hpre, by rw [hsetlen], Or.inl ⟨hsetlen, rfl⟩, ?_⟩, ?_⟩
      · intro j hj hjm
        show (env.heap.set id2 plx).getD j [] = env.heap.getD j []
        refine getD_set_ne (fun hje => hjm ?_) plx []
        rw [← hje]
        simp [nodeIds]
      dsimp only
      have hplx : (env.heap.set id2 plx).getD id2 [] = plx :=
        getD_set_self hid plx []
      refine ⟨?_, ?_, ?_, ?_⟩
      · refine Good.leaf (by rw [hsetlen]; exact hid) (by rw [hplx]; exact hinvx) ?_
        intro q hq
        rcases hcase with ⟨hkin, he1, he2⟩ | ⟨hkout, hperm⟩
        · rw [he1, he2] at hq
          exact hrange q hq
        · have hqm := hperm.mem_iff.mp hq
          rcases List.mem_cons.mp hqm with rfl | hq2
          · exact hk
          · exact hrange q hq2
      · simp only [nodeIds, hsetlen, Nat.sub_self, List.range', List.nil_append]
        exact List.Perm.refl _
      · rcases hcase with ⟨hkin, he1, he2⟩ | ⟨hkout, hperm⟩
        · refine Or.inl ⟨hkin, ?_⟩
          simp only [nodeKeys]
          rw [he1, he2]
        · exact Or.inr ⟨hkout, hperm⟩
      · intro q
        simp only [nodeEntries, hplx]
        exact hlook q
  | inner hlen hk1 hk2 hchain hchild ih =>
    rename_i lo2 hi2 hp2 keys children
    intro env h k v env2 t2 os heq hrec hnd hndid hk hh hpre
    subst heq
    have hndw : (childrenKeys children).Nodup := hnd
    have hndidw : (childrenIds children).Nodup := hndid
    have hp := chain'_lt_pairwise hchain.1
    unfold putRec at hrec
    obtain ⟨idxv, hidxv⟩ : ∃ x, searchIdx keys k = x := ⟨_, rfl⟩
    rw [hidxv] at hrec
    have hidxle : idxv ≤ keys.length := by
      rw [← hidxv]
      exact searchIdx_le_length keys k
    have hidxc : idxv < children.length := by rw [hlen]; omega
    rw [putChildren_eq env h k v children idxv hidxc] at hrec
    rcases hcall : putRec env h k v (children.getD idxv default) with ⟨env3, c2, osc⟩
    rw [hcall] at hrec
    dsimp only at hrec
    have hdK := childrenKeys_decomp hidxc
    have hdI := childrenIds_decomp hidxc
    have hndC : (nodeKeys (children.getD idxv default)).Nodup := by
      rw [hdK] at hndw
      exact nodup_of_append_middle hndw
    have hndidC : (nodeIds (children.getD idxv default)).Nodup := by
      rw [hdI] at hndidw
      exact nodup_of_append_middle hndidw
    have hkC : inRange (sepLo lo2 keys idxv) (sepHi hi2 keys idxv) k := by
      refine ⟨?_, ?_⟩
      · cases idxv with
        | zero => exact hk.1
        | succ j =>
          show keys.getD j [] < k
          refine searchIdx_lt ?_
          rw [hidxv]
          omega
      · rw [sepHi]
        by_cases hlt : idxv < keys.length
        · rw [if_pos hlt]
          show k ≤ keys.getD idxv []
          have hx := searchIdx_ge (by rw [hidxv]; exact hlt)
          rw [hidxv] at hx
          exact hx
        · rw [if_neg hlt]
          exact hk.2
    have hknot : ∀ i, i < children.length → i ≠ idxv →
        k ∉ nodeKeys (children.getD i default) := by
      intro i hi3 hine hkmem
      have hzr := nodeKeys_inRange (hchild i hi3) k hkmem
      rcases Nat.lt_or_ge i idxv with hilt | hige
      · have hle2 : k ≤ keys.getD i [] := by
          have hb := hzr.2
          rw [sepHi, if_pos (by omega)] at hb
          exact hb
        have hlt2 : keys.getD i [] < k := searchIdx_lt (by rw [hidxv]; exact hilt)
        exact absurd hle2 (not_le_of_lt hlt2)
      · have hgt2 : idxv < i := by omega
        have hia : i = (i - 1) + 1 := by omega
        have hab : keys.getD (i - 1) [] < k := by
          have ha := hzr.1
          rw [hia] at ha
          exact ha
        have hsge : k ≤ keys.getD idxv [] := by
          have hx : searchIdx keys k < keys.length := by
            rw [hidxv]
            rw [hlen] at hi3
            omega
          have h2 := searchIdx_ge hx
          rw [hidxv] at h2
          exact h2
        have hmono : keys.getD idxv [] ≤ keys.getD (i - 1) [] := by
          rcases Nat.eq_or_lt_of_le (by omega : idxv ≤ i - 1) with he | hlt3
          · rw [he]
          · refine le_of_lt (pairwise_getD_lt hp hlt3 ?_)
            rw [hlen] at hi3
            omega
        exact absurd hab (not_lt_of_le (le_trans hsge hmono))
    have hIH := ih idxv hidxc rfl hcall hndC hndidC hkC hh hpre
    obtain ⟨⟨hpre3, hlen3, hdisj3, hframe3⟩, hbranch⟩ := hIH
    have hgothers : ∀ i, i < children.length → i ≠ idxv →
        Good (sepLo lo2 keys i) (sepHi hi2 keys i) env3.heap
          (children.getD i default) ∧
        nodeEntries env3.heap (children.getD i default)
          = nodeEntries env.heap (children.getD i default) := by
      intro i hi3 hine
      refine Good_frame (hchild i hi3) hlen3 ?_
      intro j hj
      refine hframe3 j (nodeIds_lt (hchild i hi3) j hj) ?_
      exact childrenIds_disjoint hndidw i idxv hi3 hidxc hine j hj
    have hentA : childrenEntries env3.heap (children.take idxv)
        = childrenEntries env.heap (children.take idxv) := by
      refine childrenEntries_congr ?_
      intro i hi3
      rw [List.length_take] at hi3
      rw [getD_take children idxv i (by omega) default]
      exact (hgothers i (by omega) (by omega)).2
    have hentC : childrenEntries env3.heap (children.drop (idxv + 1))
        = childrenEntries env.heap (children.drop (idxv + 1)) := by
      refine childrenEntries_congr ?_
      intro i hi3
      rw [List.length_drop] at hi3
      rw [getD_drop children (idxv + 1) i default]
      exact (hgothers (idxv + 1 + i) (by omega) (by omega)).2
    have hmapA : (childrenEntries env.heap (children.take idxv)).map Prod.fst
        = childrenKeys (children.take idxv) := by
      refine childrenEntries_map_fst_congr ?_
      intro i hi3
      rw [List.length_take] at hi3
      rw [getD_take children idxv i (by omega) default]
      exact nodeEntries_map_fst (hchild i (by omega))
    have hkA : k ∉ childrenKeys (children.take idxv) := by
      intro hmem
      rcases mem_childrenKeys.mp hmem with ⟨c, hcmem, hkc⟩
      rcases mem_getD_of_mem hcmem default with ⟨i, hi3, hci⟩
      rw [List.length_take] at hi3
      rw [getD_take children idxv i (by omega) default] at hci
      refine hknot i (by omega) (by omega) ?_
      rw [hci]
      exact hkc
    have hkD : k ∉ childrenKeys (children.drop (idxv + 1)) := by
      intro hmem
      rcases mem_childrenKeys.mp hmem with ⟨c, hcmem, hkc⟩
      rcases mem_getD_of_mem hcmem default with ⟨i, hi3, hci⟩
      rw [List.length_drop] at hi3
      rw [getD_drop children (idxv + 1) i default] at hci
      refine hknot (idxv + 1 + i) (by omega) (by omega) ?_
      rw [hci]
      exact hkc
    have hkAfst : k ∉ (childrenEntries env.heap (children.take idxv)).map Prod.fst := by
      rw [hmapA]
      exact hkA
    have hframeW : ∀ j, j < env.heap.length →
        j ∉ nodeIds (MVNode.innerN keys children) →
        env3.heap.getD j [] = env.heap.getD j [] := by
      intro j hj hjm
      refine hframe3 j hj ?_
      intro hjc
      refine hjm ?_
      simp only [nodeIds]
      exact mem_childrenIds.mpr ⟨children.getD idxv default, getD_mem hidxc default, hjc⟩
    cases osc with
    | none =>
      dsimp only at hrec hbranch
      obtain ⟨hgood2, hids2, hkeys2, hlook2⟩ := hbranch
      injection hrec with h1 hrec2
      injection hrec2 with h2 h3
      subst h1
      subst h2
      subst h3
      refine ⟨⟨hpre3, hlen3, hdisj3, hframeW⟩, ?_⟩
      dsimp only
      refine ⟨?_, ?_, ?_, ?_⟩
      · refine Good.inner (by rw [List.length_set]; exact hlen) hk1 hk2 hchain ?_
        intro i hi3
        rw [List.length_set] at hi3
        by_cases hie : i = idxv
        · subst hie
          rw [getD_set_self hidxc c2 default]
          exact hgood2
        · rw [getD_set_ne (fun he => hie he.symm)]
          exact (hgothers i hi3 hie).1
      · simp only [nodeIds]
        rw [childrenIds_set hidxc c2]
        conv_rhs => rw [hdI]
        refine List.perm_iff_count.mpr ?_
        intro a
        have hc := hids2.count_eq a
        simp only [List.count_append] at hc ⊢
        omega
      · rcases hkeys2 with ⟨hkin, hkp⟩ | ⟨hkout, hkp⟩
        · refine Or.inl ⟨?_, ?_⟩
          · show k ∈ childrenKeys children
            rw [hdK]
            exact List.mem_append.mpr (Or.inl (List.mem_append.mpr (Or.inr hkin)))
          · show (childrenKeys (children.set idxv c2)).Perm (childrenKeys children)
            rw [childrenKeys_set hidxc c2]
            conv_rhs => rw [hdK]
            refine List.perm_iff_count.mpr ?_
            intro a
            have hc := hkp.count_eq a
            simp only [List.count_append] at hc ⊢
            omega
        · refine Or.inr ⟨?_, ?_⟩
          · show k ∉ childrenKeys children
            rw [hdK]
            intro hmem
            rcases List.mem_append.mp hmem with hmem2 | hmem2
            · rcases List.mem_append.mp hmem2 with hmem3 | hmem3
              · exact hkA hmem3
              · exact hkout hmem3
            · exact hkD hmem2
          · show (childrenKeys (children.set idxv c2)).Perm (k :: childrenKeys children)
            rw [childrenKeys_set hidxc c2]
            conv_rhs => rw [hdK]
            refine List.perm_iff_count.mpr ?_
            intro a
            have hc := hkp.count_eq a
            simp only [List.count_append, List.count_cons] at hc ⊢
            omega
      · intro q
        show lookupKey (childrenEntries env3.heap (children.set idxv c2)) q = _
        rw [childrenEntries_set hidxc c2, hentA, hentC]
        conv_rhs => rw [show nodeEntries env.heap (MVNode.innerN keys children)
          = childrenEntries env.heap children from rfl, childrenEntries_decomp hidxc]
        exact lookupKey_mid (hlook2 q) hkAfst
    | some p =>
      rcases p with ⟨csib, csk⟩
      dsimp only at hrec hbranch
      obtain ⟨hgc2, hgsib, habove, hstrict, hidsp, hknotc, hkeysp, hlookp⟩ := hbranch
      rcases hstep : innerInsertStep keys (children.set idxv c2) csk csib
        with ⟨n2, os2⟩
      rw [hstep] at hrec
      dsimp only at hrec
      injection hrec with h1 hrec2
      injection hrec2 with h2 h3
      subst h1
      subst h2
      subst h3
      have hins : insIdx keys csk = idxv := by
        refine insIdx_eq hidxle ?_ ?_
        · intro j hj
          have hidx0 : idxv = (idxv - 1) + 1 := by omega
          have hlo2 : keys.getD (idxv - 1) [] < csk := by
            have ha := habove
            rw [hidx0] at ha
            exact ha
          rcases Nat.lt_or_ge j (idxv - 1) with hj2 | hj2
          · exact lt_trans (pairwise_getD_lt hp hj2 (by omega)) hlo2
          · have hje : j = idxv - 1 := by omega
            rw [hje]
            exact hlo2
        · intro hlt
          have hs := hstrict
          rw [sepHi, if_pos hlt] at hs
          exact hs
      have hlenS : (children.set idxv c2).length = keys.length + 1 := by
        rw [List.length_set]
        exact hlen
      have hgl : Good (sepLo lo2 keys idxv) (some csk) env3.heap
          ((children.set idxv c2).getD idxv default) := by
        rw [getD_set_self hidxc c2 default]
        exact hgc2
      have hothersS : ∀ i, i < (children.set idxv c2).length → i ≠ idxv →
          Good (sepLo lo2 keys i) (sepHi hi2 keys i) env3.heap
            ((children.set idxv c2).getD i default) := by
        intro i hi3 hine
        rw [List.length_set] at hi3
        rw [getD_set_ne (fun he => hine he.symm)]
        exact (hgothers i hi3 hine).1
      have hspec2 := innerInsertStep_spec hlenS hk2 hchain hins hidxle habove
        hstrict hgl hgsib hothersS
      rw [hstep] at hspec2
      have hSsplit : (children.set idxv c2).take (idxv + 1)
            ++ csib :: (children.set idxv c2).drop (idxv + 1)
          = (children.take idxv ++ [c2]) ++ csib :: children.drop (idxv + 1) := by
        rw [take_set_succ hidxc c2, drop_set_succ hidxc c2]
      have hkoutW : k ∉ childrenKeys children := by
        rw [hdK]
        intro hmem
        rcases List.mem_append.mp hmem with hmem2 | hmem2
        · rcases List.mem_append.mp hmem2 with hmem3 | hmem3
          · exact hkA hmem3
          · exact hknotc hmem3
        · exact hkD hmem2
      cases os2 with
      | none =>
        dsimp only at hspec2
        obtain ⟨hgood2, hidse, hkeyse, hentse⟩ := hspec2
        refine ⟨⟨hpre3, hlen3, hdisj3, hframeW⟩, ?_⟩
        dsimp only
        refine ⟨hgood2, ?_, ?_, ?_⟩
        · rw [hidse, hSsplit, childrenIds_append, childrenIds_append]
          simp only [childrenIds]
          conv_rhs => rw [show nodeIds (MVNode.innerN keys children)
            = childrenIds children from rfl, hdI]
          refine List.perm_iff_count.mpr ?_
          intro a
          have hc := hidsp.count_eq a
          simp only [List.count_append, List.count_nil] at hc ⊢
          omega
        · refine Or.inr ⟨hkoutW, ?_⟩
          show (nodeKeys n2).Perm (k :: childrenKeys children)
          rw [hkeyse, hSsplit, childrenKeys_append, childrenKeys_append]
          simp only [childrenKeys]
          conv_rhs => rw [hdK]
          refine List.perm_iff_count.mpr ?_
          intro a
          have hc := hkeysp.count_eq a
          simp only [List.count_append, List.count_cons, List.count_nil] at hc ⊢
          omega
        · intro q
          rw [hentse, hSsplit, childrenEntries_append, childrenEntries_append]
          simp only [childrenEntries]
          rw [hentA, hentC]
          have hshape : childrenEntries env.heap (children.take idxv)
                ++ (nodeEntries env3.heap c2 ++ List.nil)
                ++ (nodeEntries env3.heap csib
                    ++ childrenEntries env.heap (children.drop (idxv + 1)))
              = childrenEntries env.heap (children.take idxv)
                ++ (nodeEntries env3.heap c2 ++ nodeEntries env3.heap csib)
                ++ childrenEntries env.heap (children.drop (idxv + 1)) := by
            simp only [List.append_nil, List.append_assoc]
          rw [hshape]
          conv_rhs => rw [show nodeEntries env.heap (MVNode.innerN keys children)
            = childrenEntries env.heap children from rfl, childrenEntries_decomp hidxc]
          exact lookupKey_mid (hlookp q) hkAfst
      | some p2 =>
        rcases p2 with ⟨sib2, pk⟩
        dsimp only at hspec2
        obtain ⟨hgood2, hgood3, hab2, hsb2, hidse, hkeyse, hentse⟩ := hspec2
        refine ⟨⟨hpre3, hlen3, hdisj3, hframeW⟩, ?_⟩
        dsimp only
        refine ⟨hgood2, hgood3, hab2, hsb2, ?_, hkoutW, ?_, ?_⟩
        · rw [hidse, hSsplit, childrenIds_append, childrenIds_append]
          simp only [childrenIds]
          conv_rhs => rw [show nodeIds (MVNode.innerN keys children)
            = childrenIds children from rfl, hdI]
          refine List.perm_iff_count.mpr ?_
          intro a
          have hc := hidsp.count_eq a
          simp only [List.count_append, List.count_nil] at hc ⊢
          omega
        · show (nodeKeys n2 ++ nodeKeys sib2).Perm (k :: childrenKeys children)
          rw [hkeyse, hSsplit, childrenKeys_append, childrenKeys_append]
          simp only [childrenKeys]
          conv_rhs => rw [hdK]
          refine List.perm_iff_count.mpr ?_
          intro a
          have hc := hkeysp.count_eq a
          simp only [List.count_append, List.count_cons, List.count_nil] at hc ⊢
          omega
        · intro q
          rw [hentse, hSsplit, childrenEntries_append, childrenEntries_append]
          simp only [childrenEntries]
          rw [hentA, hentC]
          have hshape : childrenEntries env.heap (children.take idxv)
                ++ (nodeEntries env3.heap c2 ++ List.nil)
                ++ (nodeEntries env3.heap csib
                    ++ childrenEntries env.heap (children.drop (idxv + 1)))
              = childrenEntries env.heap (children.take idxv)
                ++ (nodeEntries env3.heap c2 ++ nodeEntries env3.heap csib)
                ++ childrenEntries env.heap (children.drop (idxv + 1)) := by
            simp only [List.append_nil, List.append_assoc]
          rw [hshape]
          conv_rhs => rw [show nodeEntries env.heap (MVNode.innerN keys children)
            = childrenEntries env.heap children from rfl, childrenEntries_decomp hidxc]
          exact lookupKey_mid (hlookp q) hkAfst

/-- The association the routing tree stores, for stating the map semantics. -/
def treeLookup (s : MVTreeState) (q : Key) : Option Val :=
  match s.tree_top with
  | none => none
  | some t => lookupKey (nodeEntries s.env.heap t) q

theorem LeafInv_empty : LeafInv (List.replicate LEAF_KEYS 0)
    (List.replicate LEAF_KEYS []) (List.replicate LEAF_KEYS none) := by
  refine ⟨by simp, by simp, by simp, ?_⟩
  intro i hi2
  rw [getD_replicate hi2 0 0, getD_replicate hi2 ([] : Key) [],
    getD_replicate hi2 (none : Option PSlot) none]
  exact rfl

theorem liveKeysAux_zero {ks : List Key} : ∀ {n : Nat}, n ≤ LEAF_KEYS →
    liveKeysAux (List.replicate LEAF_KEYS 0) ks n = [] := by
  intro n
  induction n with
  | zero => intro _; rfl
  | succ n ih =>
    intro hn
    rw [liveKeysAux, if_pos (getD_replicate (by omega) 0 0)]
    exact ih (by omega)

theorem leafEntriesAux_none : ∀ {n : Nat}, n ≤ LEAF_KEYS →
    leafEntriesAux (List.replicate LEAF_KEYS none) n = [] := by
  intro n
  induction n with
  | zero => intro _; rfl
  | succ n ih =>
    intro hn
    rw [leafEntriesAux, getD_replicate (by omega) (none : Option PSlot) none]
    exact ih (by omega)

theorem cons_perm_range {n : Nat} {l : List Nat} (hl : l.Perm (List.range n)) :
    (n :: l).Perm (List.range (n + 1)) := by
  rw [List.range_succ]
  exact (hl.cons n).trans (List.perm_append_singleton n (List.range n)).symm

/-- `MVTree::Put` preserves the reachable-state invariant and updates the
stored association at exactly the written key. -/
theorem Put_spec {s : MVTreeState} {k : Key} {v : Val} (hr : RInv s) :
    RInv (Put s k v) ∧
    ∀ q, treeLookup (Put s k v) q = if q = k then some v else treeLookup s q := by
  rcases s with ⟨⟨eheap, eheads, epre⟩, etop⟩
  have hpre : epre = [] := hr.prealloc_nil
  subst hpre
  cases etop with
  | none =>
    have hheap : eheap = [] := hr.top_none rfl
    subst hheap
    have hheads : eheads = [] := by
      have hq := hr.perm
      simpa using hq
    subst hheads
    have hlz : liveKeys (List.replicate LEAF_KEYS 0) (List.replicate LEAF_KEYS []) = [] :=
      liveKeysAux_zero (le_refl LEAF_KEYS)
    have hbase := @fill_empty_spec (List.replicate LEAF_KEYS 0)
      (List.replicate LEAF_KEYS []) (List.replicate LEAF_KEYS none)
      (PearsonHash k) 0 k v LeafInv_empty (by rw [hlz]; exact List.nodup_nil)
      (by rw [hlz]; exact List.not_mem_nil k) (getD_replicate (by decide) 0 0)
      (by decide) rfl
    obtain ⟨hinv2, hlive2, hent2, hlook2⟩ := hbase
    rw [hlz] at hlive2
    have hput : Put ⟨⟨[], [], []⟩, none⟩ k v = { env := { heap := [(List.replicate LEAF_KEYS (none : Option PSlot)).set 0 (some ⟨PearsonHash k, k, v⟩)], headIds := [0], leaves_prealloc := [] }, tree_top := some (.leafN ((List.replicate LEAF_KEYS 0).set 0 (PearsonHash k)) ((List.replicate LEAF_KEYS ([] : Key)).set 0 k) 0) } := rfl
    rw [hput]
    constructor
    · refine ⟨?_, rfl, ?_, ?_, ?_, ?_⟩
      · show List.Perm [0] (List.range (1 : Nat))
        exact List.Perm.refl _
      · intro hco
        cases hco
      · intro t' ht'
        injection ht' with ht2
        rw [← ht2]
        refine Good.leaf Nat.zero_lt_one ?_ (fun q _ => ⟨trivial, trivial⟩)
        show LeafInv _ _ ((List.replicate LEAF_KEYS (none : Option PSlot)).set 0
          (some ⟨PearsonHash k, k, v⟩))
        exact hinv2
      · intro t' ht'
        injection ht' with ht2
        rw [← ht2]
        show List.Perm [0] (List.range (1 : Nat))
        exact List.Perm.refl _
      · intro t' ht'
        injection ht' with ht2
        rw [← ht2]
        show (liveKeys _ _).Nodup
        exact hlive2.nodup_iff.mpr (by simp)
    · intro q
      show lookupKey (leafEntriesAux ((List.replicate LEAF_KEYS
        (none : Option PSlot)).set 0 (some ⟨PearsonHash k, k, v⟩)) LEAF_KEYS) q = _
      rw [hlook2 q, leafEntriesAux_none (le_refl LEAF_KEYS)]
      rfl
  | some t =>
    rcases hput : putRec ⟨eheap, eheads, []⟩ (PearsonHash k) k v t with ⟨env2, t2, os⟩
    have hndid : (nodeIds t).Nodup :=
      (hr.top_ids t rfl).nodup_iff.mpr (List.nodup_range _)
    have hgood : Good none none eheap t := hr.top_good t rfl
    have hspec := putRec_spec hgood rfl hput (hr.top_nodup t rfl)
      hndid ⟨trivial, trivial⟩ rfl rfl
    obtain ⟨⟨hpre2, hle0, hdisj0, hframe0⟩, hbranch⟩ := hspec
    have hle2 : eheap.length ≤ env2.heap.length := hle0
    have hdisj2 : (env2.heap.length = eheap.length ∧ env2.headIds = eheads) ∨
        (env2.heap.length = eheap.length + 1 ∧
         env2.headIds = eheap.length :: eheads) := hdisj0
    cases os with
    | none =>
      dsimp only at hbranch
      obtain ⟨hgood0, hids0, hkeys2, hlook0⟩ := hbranch
      have hgood2 : Good none none env2.heap t2 := hgood0
      have hids2 : (nodeIds t2).Perm
          (List.range' eheap.length (env2.heap.length - eheap.length)
            ++ nodeIds t) := hids0
      have hlook2 : ∀ q, lookupKey (nodeEntries env2.heap t2) q
          = if q = k then some v else lookupKey (nodeEntries eheap t) q := hlook0
      have hPut : Put ⟨⟨eheap, eheads, []⟩, some t⟩ k v = ⟨env2, some t2⟩ := by
        unfold Put
        dsimp only
        rw [hput]
      rw [hPut]
      constructor
      · refine ⟨?_, hpre2, ?_, ?_, ?_, ?_⟩
        · rcases hdisj2 with ⟨hleq, hheq⟩ | ⟨hlp1, hhp⟩
          · rw [hleq, hheq]
            exact hr.perm
          · rw [hlp1, hhp]
            exact cons_perm_range hr.perm
        · intro hco
          cases hco
        · intro t' ht'
          injection ht' with ht2
          rw [← ht2]
          exact hgood2
        · intro t' ht'
          injection ht' with ht2
          rw [← ht2]
          rcases hdisj2 with ⟨hleq, hheq⟩ | ⟨hlp1, hhp⟩
          · have hd0 : env2.heap.length - eheap.length = 0 := by omega
            rw [hd0] at hids2
            simp only [List.range', List.nil_append] at hids2
            rw [hleq]
            exact hids2.trans (hr.top_ids t rfl)
          · have hd1 : env2.heap.length - eheap.length = 1 := by omega
            rw [hd1] at hids2
            simp only [List.range'_one] at hids2
            rw [hlp1, List.range_succ]
            refine List.perm_iff_count.mpr ?_
            intro a
            have hc1 := hids2.count_eq a
            have hc2 := (hr.top_ids t rfl).count_eq a
            simp only [List.count_append, List.count_cons, List.count_nil] at hc1 hc2 ⊢
            omega
        · intro t' ht'
          injection ht' with ht2
          rw [← ht2]
          rcases hkeys2 with ⟨hkin, hkp⟩ | ⟨hkout, hkp⟩
          · exact hkp.nodup_iff.mpr (hr.top_nodup t rfl)
          · exact hkp.nodup_iff.mpr
              (List.nodup_cons.mpr ⟨hkout, hr.top_nodup t rfl⟩)
      · intro q
        exact hlook2 q
    | some p =>
      rcases p with ⟨sib, sk⟩
      dsimp only at hbranch
      obtain ⟨hgood0, hgood30, hab2, hsb2, hids0, hkout, hkeys2, hlook0⟩ := hbranch
      have hgood2 : Good none (some sk) env2.heap t2 := hgood0
      have hgood3 : Good (some sk) none env2.heap sib := hgood30
      have hids2 : (nodeIds t2 ++ nodeIds sib).Perm
          (List.range' eheap.length (env2.heap.length - eheap.length)
            ++ nodeIds t) := hids0
      have hlook2 : ∀ q, lookupKey (nodeEntries env2.heap t2
            ++ nodeEntries env2.heap sib) q
          = if q = k then some v else lookupKey (nodeEntries eheap t) q := hlook0
      have hPut : Put ⟨⟨eheap, eheads, []⟩, some t⟩ k v
          = ⟨env2, some (.innerN [sk] [t2, sib])⟩ := by
        unfold Put
        dsimp only
        rw [hput]
      rw [hPut]
      have hidstop : nodeIds (MVNode.innerN [sk] [t2, sib])
          = nodeIds t2 ++ nodeIds sib := by
        simp only [nodeIds, childrenIds, List.append_nil]
      have hkeystop : nodeKeys (MVNode.innerN [sk] [t2, sib])
          = nodeKeys t2 ++ nodeKeys sib := by
        simp only [nodeKeys, childrenKeys, List.append_nil]
      constructor
      · refine ⟨?_, hpre2, ?_, ?_, ?_, ?_⟩
        · rcases hdisj2 with ⟨hleq, hheq⟩ | ⟨hlp1, hhp⟩
          · rw [hleq, hheq]
            exact hr.perm
          · rw [hlp1, hhp]
            exact cons_perm_range hr.perm
        · intro hco
          cases hco
        · intro t' ht'
          injection ht' with ht2
          rw [← ht2]
          refine Good.inner rfl (le_refl 1)
            (by show (1 : Nat) ≤ INNER_KEYS; decide)
            ⟨List.chain'_singleton sk, fun s2 hs2 => ⟨trivial, trivial⟩⟩ ?_
          intro i hi2
          simp only [List.length_cons, List.length_nil] at hi2
          cases i with
          | zero =>
            show Good (sepLo none [sk] 0) (sepHi none [sk] 0) env2.heap t2
            rw [show sepHi (none : Option Key) [sk] 0 = some sk from rfl]
            exact hgood2
          | succ i =>
            cases i with
            | zero =>
              show Good (sepLo none [sk] 1) (sepHi none [sk] 1) env2.heap sib
              rw [show sepHi (none : Option Key) [sk] 1 = none from rfl]
              exact hgood3
            | succ i => omega
        · intro t' ht'
          injection ht' with ht2
          rw [← ht2, hidstop]
          rcases hdisj2 with ⟨hleq, hheq⟩ | ⟨hlp1, hhp⟩
          · have hd0 : env2.heap.length - eheap.length = 0 := by omega
            rw [hd0] at hids2
            simp only [List.range', List.nil_append] at hids2
            rw [hleq]
            exact hids2.trans (hr.top_ids t rfl)
          · have hd1 : env2.heap.length - eheap.length = 1 := by omega
            rw [hd1] at hids2
            simp only [List.range'_one] at hids2
            rw [hlp1, List.range_succ]
            refine List.perm_iff_count.mpr ?_
            intro a
            have hc1 := hids2.count_eq a
            have hc2 := (hr.top_ids t rfl).count_eq a
            simp only [List.count_append, List.count_cons, List.count_nil] at hc1 hc2 ⊢
            omega
        · intro t' ht'
          injection ht' with ht2
          rw [← ht2, hkeystop]
          exact hkeys2.nodup_iff.mpr
            (List.nodup_cons.mpr ⟨hkout, hr.top_nodup t rfl⟩)
      · intro q
        show lookupKey (childrenEntries env2.heap [t2, sib]) q = _
        have hentstop : childrenEntries env2.heap [t2, sib]
            = nodeEntries env2.heap t2 ++ nodeEntries env2.heap sib := by
          simp only [childrenEntries, List.append_nil]
        rw [hentstop]
        exact hlook2 q

theorem liveKeysAux_unique {hs : List Nat} {ks : List Key} :
    ∀ {n : Nat}, (liveKeysAux hs ks n).Nodup →
      ∀ i j, i < n → j < n → hs.getD i 0 ≠ 0 → hs.getD j 0 ≠ 0 →
        ks.getD i [] = ks.getD j [] → i = j := by
  intro n
  induction n with
  | zero => intro _ i j hi2; omega
  | succ n ih =>
    intro hnd i j hi2 hj2 hni hnj hkk
    rw [liveKeysAux] at hnd
    by_cases hn : hs.getD n 0 = 0
    · rw [if_pos hn] at hnd
      have hi3 : i < n := by
        rcases Nat.lt_or_ge i n with hx | hx
        · exact hx
        · exact absurd hn (by rw [show n = i by omega] at hn; exact absurd hn hni)
      have hj3 : j < n := by
        rcases Nat.lt_or_ge j n with hx | hx
        · exact hx
        · exact absurd hn (by rw [show n = j by omega] at hn; exact absurd hn hnj)
      exact ih hnd i j hi3 hj3 hni hnj hkk
    · rw [if_neg hn] at hnd
      rcases List.nodup_cons.mp hnd with ⟨hknot2, hnd2⟩
      by_cases hin : i = n
      · by_cases hjn : j = n
        · rw [hin, hjn]
        · exfalso
          refine hknot2 (mem_liveKeysAux.mpr ⟨j, by omega, hnj, ?_⟩)
          rw [← hkk, hin]
      · by_cases hjn : j = n
        · exfalso
          refine hknot2 (mem_liveKeysAux.mpr ⟨i, by omega, hni, ?_⟩)
          rw [hkk, hjn]
        · exact ih hnd2 i j (by omega) (by omega) hni hnj hkk

theorem searchIdx_inRange {lo hi : Option Key} {keys : List Key} {k : Key}
    (hk : inRange lo hi k) :
    inRange (sepLo lo keys (searchIdx keys k))
      (sepHi hi keys (searchIdx keys k)) k := by
  obtain ⟨idxv, hidxv⟩ : ∃ x, searchIdx keys k = x := ⟨_, rfl⟩
  rw [hidxv]
  refine ⟨?_, ?_⟩
  · cases idxv with
    | zero => exact hk.1
    | succ j =>
      show keys.getD j [] < k
      refine searchIdx_lt ?_
      rw [hidxv]
      omega
  · rw [sepHi]
    by_cases hlt : idxv < keys.length
    · rw [if_pos hlt]
      show k ≤ keys.getD idxv []
      have hx := searchIdx_ge (by rw [hidxv]; exact hlt)
      rw [hidxv] at hx
      exact hx
    · rw [if_neg hlt]
      exact hk.2

theorem searchIdx_not_elsewhere {lo hi : Option Key} {heap : List PLeaf}
    {keys : List Key} {children : List MVNode} {k : Key}
    (hlen : children.length = keys.length + 1)
    (hp : keys.Pairwise (fun a b => a < b))
    (hchild : ∀ i, i < children.length →
        Good (sepLo lo keys i) (sepHi hi keys i) heap (children.getD i default)) :
    ∀ i, i < children.length → i ≠ searchIdx keys k →
      k ∉ nodeKeys (children.getD i default) := by
  obtain ⟨idxv, hidxv⟩ : ∃ x, searchIdx keys k = x := ⟨_, rfl⟩
  rw [hidxv]
  intro i hi3 hine hkmem
  have hzr := nodeKeys_inRange (hchild i hi3) k hkmem
  rcases Nat.lt_or_ge i idxv with hilt | hige
  · have hle2 : k ≤ keys.getD i [] := by
      have hb := hzr.2
      have hidxle : idxv ≤ keys.length := by
        rw [← hidxv]
        exact searchIdx_le_length keys k
      rw [sepHi, if_pos (by omega)] at hb
      exact hb
    have hlt2 : keys.getD i [] < k := searchIdx_lt (by rw [hidxv]; exact hilt)
    exact absurd hle2 (not_le_of_lt hlt2)
  · have hgt2 : idxv < i := by omega
    have hia : i = (i - 1) + 1 := by omega
    have hab : keys.getD (i - 1) [] < k := by
      have ha := hzr.1
      rw [hia] at ha
      exact ha
    have hsge : k ≤ keys.getD idxv [] := by
      have hx : searchIdx keys k < keys.length := by
        rw [hidxv]
        rw [hlen] at hi3
        omega
      have h2 := searchIdx_ge hx
      rw [hidxv] at h2
      exact h2
    have hmono : keys.getD idxv [] ≤ keys.getD (i - 1) [] := by
      rcases Nat.eq_or_lt_of_le (by omega : idxv ≤ i - 1) with he | hlt3
      · rw [he]
      · refine le_of_lt (pairwise_getD_lt hp hlt3 ?_)
        rw [hlen] at hi3
        omega
    exact absurd hab (not_lt_of_le (le_trans hsge hmono))

theorem removeChildren_eq (env : PEnv) (h : Nat) (k : Key) :
    ∀ (children : List MVNode) (idx : Nat), idx < children.length →
      removeChildren env h k children idx
        = ((removeRec env h k (children.getD idx default)).1,
           children.set idx (removeRec env h k (children.getD idx default)).2) := by
  intro children
  induction children with
  | nil => intro idx hidx; cases hidx
  | cons c cs ih =>
    intro idx hidx
    cases idx with
    | zero =>
      simp only [removeChildren, List.getD_cons_zero]
      rcases hr : removeRec env h k c with ⟨env2, c2⟩
      rfl
    | succ n =>
      simp only [removeChildren]
      rw [ih n (by simpa using hidx)]
      rfl

/-- The removal scan of `MVTree::Remove` on a consistent leaf: idempotent on a
missing key, removes exactly the key's slot otherwise. -/
theorem removeScan_spec {hs : List Nat} {ks : List Key} {pl : PLeaf}
    {h : Nat} {k : Key}
    (hinv : LeafInv hs ks pl) (hnd : (liveKeys hs ks).Nodup)
    (hh : h = PearsonHash k) :
    match removeSlotScan hs ks pl h k LEAF_KEYS with
    | (hs2, ks2, pl2) =>
        LeafInv hs2 ks2 pl2 ∧
        ((hs2 = hs ∧ ks2 = ks ∧ pl2 = pl ∧ k ∉ liveKeys hs ks) ∨
         ((liveKeys hs ks).Perm (k :: liveKeys hs2 ks2) ∧ k ∉ liveKeys hs2 ks2)) ∧
        ∀ q, lookupKey (leafEntriesAux pl2 LEAF_KEYS) q
            = if q = k then none else lookupKey (leafEntriesAux pl LEAF_KEYS) q := by
  have hhne : h ≠ 0 := by rw [hh]; exact PearsonHash_ne_zero k
  by_cases hmem : k ∈ liveKeys hs ks
  · rcases mem_liveKeysAux.mp hmem with ⟨s, hslt, hsne, hsk⟩
    have hsh : hs.getD s 0 = h := by
      rcases slotOK_nonempty (hinv.slots s hslt) hsne with ⟨ps, hps, hmh, hmk, hph⟩
      rw [hmh, hph, ← hmk, hsk, hh]
    have huniq : ∀ i, i < LEAF_KEYS → i ≠ s →
        ¬(hs.getD i 0 = h ∧ ks.getD i [] = k) := by
      intro i hi2 hine hpair
      obtain ⟨hih, hik⟩ := hpair
      refine hine (liveKeysAux_unique hnd i s hi2 hslt
        (by rw [hih]; exact hhne) hsne ?_)
      rw [hik, hsk]
    rw [removeSlotScan_match hsh hsk hslt huniq]
    rcases remove_slot_spec hinv hnd hsh hsk hslt hhne with ⟨hinv2, hperm, hlook⟩
    refine ⟨hinv2, Or.inr ⟨hperm, ?_⟩, hlook⟩
    have hx := hperm.nodup_iff.mp hnd
    exact (List.nodup_cons.mp hx).1
  · have hno : ∀ i, i < LEAF_KEYS → ¬(hs.getD i 0 = h ∧ ks.getD i [] = k) := by
      intro i hi2 hpair
      obtain ⟨hih, hik⟩ := hpair
      exact hmem (mem_liveKeysAux.mpr ⟨i, hi2, by rw [hih]; exact hhne, hik⟩)
    rw [removeSlotScan_nomatch hno]
    refine ⟨hinv, Or.inl ⟨rfl, rfl, rfl, hmem⟩, ?_⟩
    intro q
    by_cases hq : q = k
    · subst hq
      rw [if_pos rfl, lookupKey_eq_none]
      rw [leafEntries_map_fst hinv.slots (le_refl LEAF_KEYS)]
      exact hmem
    · rw [if_neg hq]

/-- Specification of `removeRec` (the descent of `MVTree::Remove`): the
environment bookkeeping, preservation of the tree invariant and leaf ids, and
erasure of exactly the removed key from the stored association. -/
theorem removeRec_spec {lo hi : Option Key} {heap : List PLeaf} {t : MVNode}
    (hg : Good lo hi heap t) :
    ∀ {env : PEnv} {h : Nat} {k : Key} {env2 : PEnv} {t2 : MVNode},
      env.heap = heap →
      removeRec env h k t = (env2, t2) →
      (nodeKeys t).Nodup →
      (nodeIds t).Nodup →
      inRange lo hi k →
      h = PearsonHash k →
      env2.headIds = env.headIds ∧
      env2.leaves_prealloc = env.leaves_prealloc ∧
      env2.heap.length = env.heap.length ∧
      (∀ j, j < env.heap.length → j ∉ nodeIds t →
          env2.heap.getD j [] = env.heap.getD j []) ∧
      Good lo hi env2.heap t2 ∧
      nodeIds t2 = nodeIds t ∧
      ((nodeKeys t2 = nodeKeys t) ∨
       ((nodeKeys t).Perm (k :: nodeKeys t2) ∧ k ∉ nodeKeys t2)) ∧
      (∀ q, lookupKey (nodeEntries env2.heap t2) q
          = if q = k then none else lookupKey (nodeEntries env.heap t) q) := by
  induction hg with
  | leaf hid hinv hrange =>
    rename_i lo2 hi2 hp2 hsm ksm id2
    intro env h k env2 t2 heq hrec hnd hndid hk hh
    subst heq
    have hndl : (liveKeys hsm ksm).Nodup := hnd
    unfold removeRec at hrec
    dsimp only at hrec
    have hspec := removeScan_spec hinv hndl hh
    rcases hscan : removeSlotScan hsm ksm (env.heap.getD id2 []) h k LEAF_KEYS
      with ⟨hs2, ks2, pl2⟩
    rw [hscan] at hspec hrec
    dsimp only at hrec hspec
    obtain ⟨hinv2, hcase, hlook⟩ := hspec
    injection hrec with h1 h2
    subst h1
    subst h2
    have hsetlen : (env.heap.set id2 pl2).length = env.heap.length := by simp
    have hplx : (env.heap.set id2 pl2).getD id2 [] = pl2 :=
      getD_set_self hid pl2 []
    refine ⟨rfl, rfl, hsetlen, ?_, ?_, rfl, ?_, ?_⟩
    · intro j hj hjm
      show (env.heap.set id2 pl2).getD j [] = env.heap.getD j []
      refine getD_set_ne (fun hje => hjm ?_) pl2 []
      rw [← hje]
      simp [nodeIds]
    · refine Good.leaf (by rw [hsetlen]; exact hid) (by rw [hplx]; exact hinv2) ?_
      intro q hq
      rcases hcase with ⟨he1, he2, _, _⟩ | ⟨hperm, _⟩
      · rw [he1, he2] at hq
        exact hrange q hq
      · exact hrange q (hperm.mem_iff.mpr (List.mem_cons_of_mem _ hq))
    · rcases hcase with ⟨he1, he2, _, _⟩ | ⟨hperm, hkn⟩
      · refine Or.inl ?_
        show liveKeys hs2 ks2 = liveKeys hsm ksm
        rw [he1, he2]
      · exact Or.inr ⟨hperm, hkn⟩
    · intro q
      simp only [nodeEntries, hplx]
      exact hlook q
  | inner hlen hk1 hk2 hchain hchild ih =>
    rename_i lo2 hi2 hp2 keys children
    intro env h k env2 t2 heq hrec hnd hndid hk hh
    subst heq
    have hndw : (childrenKeys children).Nodup := hnd
    have hndidw : (childrenIds children).Nodup := hndid
    have hp := chain'_lt_pairwise hchain.1
    unfold removeRec at hrec
    obtain ⟨idxv, hidxv⟩ : ∃ x, searchIdx keys k = x := ⟨_, rfl⟩
    rw [hidxv] at hrec
    have hidxle : idxv ≤ keys.length := by
      rw [← hidxv]
      exact searchIdx_le_length keys k
    have hidxc : idxv < children.length := by rw [hlen]; omega
    rw [removeChildren_eq env h k children idxv hidxc] at hrec
    rcases hcall : removeRec env h k (children.getD idxv default) with ⟨env3, c2⟩
    rw [hcall] at hrec
    dsimp only at hrec
    injection hrec with h1 h2
    subst h1
    subst h2
    have hdK := childrenKeys_decomp hidxc
    have hdI := childrenIds_decomp hidxc
    have hndC : (nodeKeys (children.getD idxv default)).Nodup := by
      rw [hdK] at hndw
      exact nodup_of_append_middle hndw
    have hndidC : (nodeIds (children.getD idxv default)).Nodup := by
      rw [hdI] at hndidw
      exact nodup_of_append_middle hndidw
    have hkC : inRange (sepLo lo2 keys idxv) (sepHi hi2 keys idxv) k := by
      rw [← hidxv]
      exact searchIdx_inRange hk
    have hknot := @searchIdx_not_elsewhere lo2 hi2 env.heap keys children k hlen hp hchild
    rw [hidxv] at hknot
    have hIH := ih idxv hidxc rfl hcall hndC hndidC hkC hh
    obtain ⟨hheads3, hpre3, hlen3, hframe3, hgood2, hids2, hkeys2, hlook2⟩ := hIH
    have hgothers : ∀ i, i < children.length → i ≠ idxv →
        Good (sepLo lo2 keys i) (sepHi hi2 keys i) env3.heap
          (children.getD i default) ∧
        nodeEntries env3.heap (children.getD i default)
          = nodeEntries env.heap (children.getD i default) := by
      intro i hi3 hine
      refine Good_frame (hchild i hi3) (le_of_eq hlen3.symm) ?_
      intro j hj
      refine hframe3 j (nodeIds_lt (hchild i hi3) j hj) ?_
      exact childrenIds_disjoint hndidw i idxv hi3 hidxc hine j hj
    have hentA : childrenEntries env3.heap (children.take idxv)
        = childrenEntries env.heap (children.take idxv) := by
      refine childrenEntries_congr ?_
      intro i hi3
      rw [List.length_take] at hi3
      rw [getD_take children idxv i (by omega) default]
      exact (hgothers i (by omega) (by omega)).2
    have hentC : childrenEntries env3.heap (children.drop (idxv + 1))
        = childrenEntries env.heap (children.drop (idxv + 1)) := by
      refine childrenEntries_congr ?_
      intro i hi3
      rw [List.length_drop] at hi3
      rw [getD_drop children (idxv + 1) i default]
      exact (hgothers (idxv + 1 + i) (by omega) (by omega)).2
    have hmapA : (childrenEntries env.heap (children.take idxv)).map Prod.fst
        = childrenKeys (children.take idxv) := by
      refine childrenEntries_map_fst_congr ?_
      intro i hi3
      rw [List.length_take] at hi3
      rw [getD_take children idxv i (by omega) default]
      exact nodeEntries_map_fst (hchild i (by omega))
    have hkA : k ∉ childrenKeys (children.take idxv) := by
      intro hmem
      rcases mem_childrenKeys.mp hmem with ⟨c, hcmem, hkc⟩
      rcases mem_getD_of_mem hcmem default with ⟨i, hi3, hci⟩
      rw [List.length_take] at hi3
      rw [getD_take children idxv i (by omega) default] at hci
      refine hknot i (by omega) (by omega) ?_
      rw [hci]
      exact hkc
    have hkD : k ∉ childrenKeys (children.drop (idxv + 1)) := by
      intro hmem
      rcases mem_childrenKeys.mp hmem with ⟨c, hcmem, hkc⟩
      rcases mem_getD_of_mem hcmem default with ⟨i, hi3, hci⟩
      rw [List.length_drop] at hi3
      rw [getD_drop children (idxv + 1) i default] at hci
      refine hknot (idxv + 1 + i) (by omega) (by omega) ?_
      rw [hci]
      exact hkc
    have hkAfst : k ∉ (childrenEntries env.heap (children.take idxv)).map Prod.fst := by
      rw [hmapA]
      exact hkA
    refine ⟨hheads3, hpre3, hlen3, ?_, ?_, ?_, ?_, ?_⟩
    · intro j hj hjm
      refine hframe3 j hj ?_
      intro hjc
      refine hjm ?_
      simp only [nodeIds]
      exact mem_childrenIds.mpr ⟨children.getD idxv default, getD_mem hidxc default, hjc⟩
    · refine Good.inner (by rw [List.length_set]; exact hlen) hk1 hk2 hchain ?_
      intro i hi3
      rw [List.length_set] at hi3
      by_cases hie : i = idxv
      · subst hie
        rw [getD_set_self hidxc c2 default]
        exact hgood2
      · rw [getD_set_ne (fun he => hie he.symm)]
        exact (hgothers i hi3 hie).1
    · show childrenIds (children.set idxv c2) = childrenIds children
      rw [childrenIds_set hidxc c2, hids2]
      rw [hdI]
    · rcases hkeys2 with hke | ⟨hkp, hkn⟩
      · refine Or.inl ?_
        show childrenKeys (children.set idxv c2) = childrenKeys children
        rw [childrenKeys_set hidxc c2, hke, hdK]
      · refine Or.inr ⟨?_, ?_⟩
        · show (childrenKeys children).Perm (k :: childrenKeys (children.set idxv c2))
          rw [childrenKeys_set hidxc c2]
          conv_lhs => rw [hdK]
          refine List.perm_iff_count.mpr ?_
          intro a
          have hc := hkp.count_eq a
          simp only [List.count_append, List.count_cons] at hc ⊢
          omega
        · show k ∉ childrenKeys (children.set idxv c2)
          rw [childrenKeys_set hidxc c2]
          intro hmem
          rcases List.mem_append.mp hmem with hmem2 | hmem2
          · rcases List.mem_append.mp hmem2 with hmem3 | hmem3
            · exact hkA hmem3
            · exact hkn hmem3
          · exact hkD hmem2
    · intro q
      show lookupKey (childrenEntries env3.heap (children.set idxv c2)) q = _
      rw [childrenEntries_set hidxc c2, hentA, hentC]
      conv_rhs => rw [show nodeEntries env.heap (MVNode.innerN keys children)
        = childrenEntries env.heap children from rfl, childrenEntries_decomp hidxc]
      by_cases hq : q = k
      · subst hq
        have hl2 := hlook2 q
        rw [if_pos rfl] at hl2
        rw [if_pos rfl]
        rw [List.append_assoc, lookupKey_append_right hkAfst, lookupKey_append, hl2]
        rw [lookupKey_eq_none]
        intro hmem
        have hmap2 : (childrenEntries env.heap (children.drop (idxv + 1))).map Prod.fst
            = childrenKeys (children.drop (idxv + 1)) := by
          refine childrenEntries_map_fst_congr ?_
          intro i hi3
          rw [List.length_drop] at hi3
          rw [getD_drop children (idxv + 1) i default]
          exact nodeEntries_map_fst (hchild (idxv + 1 + i) (by omega))
        rw [hmap2] at hmem
        exact hkD hmem
      · have hl2 := hlook2 q
        rw [if_neg hq] at hl2
        rw [if_neg hq]
        rw [List.append_assoc, List.append_assoc, lookupKey_append]
        conv_rhs => rw [lookupKey_append]
        rcases h2 : lookupKey (childrenEntries env.heap (children.take idxv)) q with _ | w
        · dsimp only
          rw [lookupKey_append, hl2]
          conv_rhs => rw [lookupKey_append]
        · rfl

/-- `MVTree::Remove` preserves the reachable-state invariant and erases the
stored association at exactly the removed key. -/
theorem Remove_spec {s : MVTreeState} {k : Key} (hr : RInv s) :
    RInv (Remove s k) ∧
    ∀ q, treeLookup (Remove s k) q = if q = k then none else treeLookup s q := by
  rcases s with ⟨⟨eheap, eheads, epre⟩, etop⟩
  cases etop with
  | none =>
    have hrm : Remove ⟨⟨eheap, eheads, epre⟩, none⟩ k
        = ⟨⟨eheap, eheads, epre⟩, none⟩ := rfl
    rw [hrm]
    refine ⟨hr, ?_⟩
    intro q
    show (none : Option Val) = if q = k then none else none
    by_cases hq : q = k
    · rw [if_pos hq]
    · rw [if_neg hq]
  | some t =>
    rcases hrm : removeRec ⟨eheap, eheads, epre⟩ (PearsonHash k) k t with ⟨env2, t2⟩
    have hgood : Good none none eheap t := hr.top_good t rfl
    have hndid : (nodeIds t).Nodup :=
      (hr.top_ids t rfl).nodup_iff.mpr (List.nodup_range _)
    have hspec := removeRec_spec hgood rfl hrm (hr.top_nodup t rfl) hndid
      ⟨trivial, trivial⟩ rfl
    obtain ⟨hheads0, hpre0, hlen0, hframe0, hgood0, hids0, hkeys0, hlook0⟩ := hspec
    have hheads2 : env2.headIds = eheads := hheads0
    have hpre2 : env2.leaves_prealloc = epre := hpre0
    have hlen2 : env2.heap.length = eheap.length := hlen0
    have hgood2 : Good none none env2.heap t2 := hgood0
    have hlook2 : ∀ q, lookupKey (nodeEntries env2.heap t2) q
        = if q = k then none else lookupKey (nodeEntries eheap t) q := hlook0
    have hRem : Remove ⟨⟨eheap, eheads, epre⟩, some t⟩ k = ⟨env2, some t2⟩ := by
      unfold Remove
      dsimp only
      rw [hrm]
    rw [hRem]
    constructor
    · refine ⟨?_, ?_, ?_, ?_, ?_, ?_⟩
      · rw [hheads2, hlen2]
        exact hr.perm
      · rw [hpre2]
        exact hr.prealloc_nil
      · intro hco
        cases hco
      · intro t' ht'
        injection ht' with ht2
        rw [← ht2]
        exact hgood2
      · intro t' ht'
        injection ht' with ht2
        rw [← ht2, hids0, hlen2]
        exact hr.top_ids t rfl
      · intro t' ht'
        injection ht' with ht2
        rw [← ht2]
        rcases hkeys0 with hke | ⟨hkp, hkn⟩
        · rw [hke]
          exact hr.top_nodup t rfl
        · have hx := hkp.nodup_iff.mp (hr.top_nodup t rfl)
          exact (List.nodup_cons.mp hx).2
    · intro q
      exact hlook2 q

theorem initialState_RInv : RInv initialState := by
  refine ⟨?_, rfl, fun _ => rfl, ?_, ?_, ?_⟩
  · exact List.Perm.refl _
  · intro t ht
    cases ht
  · intro t ht
    cases ht
  · intro t ht
    cases ht

theorem treeLookup_initial (q : Key) : treeLookup initialState q = none := rfl

/-- Running any operation sequence from an invariant state: the invariant is
preserved and the stored association follows the reference map. -/
theorem foldl_applyOp_spec :
    ∀ (ops : List Op) (s : MVTreeState) (m : Key → Option Val),
      RInv s → (∀ q, treeLookup s q = m q) →
      RInv (ops.foldl applyOp s) ∧
      ∀ q, treeLookup (ops.foldl applyOp s) q = ops.foldl mapStep m q := by
  intro ops
  induction ops with
  | nil => intro s m hr hm; exact ⟨hr, hm⟩
  | cons op rest ih =>
    intro s m hr hm
    cases op with
    | put k v =>
      have hp := @Put_spec s k v hr
      refine ih (Put s k v) (mapStep m (.put k v)) hp.1 ?_
      intro q
      rw [hp.2 q, hm q]
      rfl
    | del k =>
      have hp := @Remove_spec s k hr
      refine ih (Remove s k) (mapStep m (.del k)) hp.1 ?_
      intro q
      rw [hp.2 q, hm q]
      rfl

/-- The run of any operation sequence on a fresh engine satisfies the
reachable-state invariant, and its stored association is the reference map. -/
theorem run_spec (ops : List Op) :
    RInv (run ops) ∧ ∀ q, treeLookup (run ops) q = specMap ops q :=
  foldl_applyOp_spec ops initialState (fun _ => none) initialState_RInv
    treeLookup_initial

theorem LeafSearchChild_eq (k : Key) :
    ∀ (children : List MVNode) (idx : Nat), idx < children.length →
      LeafSearchChild k children idx = LeafSearch k (children.getD idx default) := by
  intro children
  induction children with
  | nil => intro idx hidx; cases hidx
  | cons c cs ih =>
    intro idx hidx
    cases idx with
    | zero => rfl
    | succ n =>
      simp only [LeafSearchChild]
      rw [ih n (by simpa using hidx)]
      rfl

/-- `MVTree::LeafSearch` reaches a consistent leaf that determines the whole
tree's association at the searched key. -/
theorem LeafSearch_spec {lo hi : Option Key} {heap : List PLeaf} {t : MVNode}
    (hg : Good lo hi heap t) :
    ∀ {q : Key}, (nodeKeys t).Nodup → inRange lo hi q →
      match LeafSearch q t with
      | (hs, ks, id) =>
          LeafInv hs ks (heap.getD id []) ∧
          (liveKeys hs ks).Nodup ∧
          lookupKey (nodeEntries heap t) q
            = lookupKey (leafEntriesAux (heap.getD id []) LEAF_KEYS) q := by
  induction hg with
  | leaf hid hinv hrange =>
    intro q hnd hk
    exact ⟨hinv, hnd, rfl⟩
  | inner hlen hk1 hk2 hchain hchild ih =>
    rename_i lo2 hi2 hp2 keys children
    intro q hnd hk
    have hndw : (childrenKeys children).Nodup := hnd
    have hp := chain'_lt_pairwise hchain.1
    show match LeafSearchChild q children (searchIdx keys q) with
      | (hs, ks, id) => _
    obtain ⟨idxv, hidxv⟩ : ∃ x, searchIdx keys q = x := ⟨_, rfl⟩
    rw [hidxv]
    have hidxle : idxv ≤ keys.length := by
      rw [← hidxv]
      exact searchIdx_le_length keys q
    have hidxc : idxv < children.length := by rw [hlen]; omega
    rw [LeafSearchChild_eq q children idxv hidxc]
    have hdK := childrenKeys_decomp hidxc
    have hndC : (nodeKeys (children.getD idxv default)).Nodup := by
      rw [hdK] at hndw
      exact nodup_of_append_middle hndw
    have hkC : inRange (sepLo lo2 keys idxv) (sepHi hi2 keys idxv) q := by
      rw [← hidxv]
      exact searchIdx_inRange hk
    have hknot := @searchIdx_not_elsewhere lo2 hi2 hp2 keys children q hlen hp hchild
    rw [hidxv] at hknot
    have hIH := ih idxv hidxc hndC hkC
    rcases hLS : LeafSearch q (children.getD idxv default) with ⟨hs, ks, id⟩
    rw [hLS] at hIH
    obtain ⟨hinv2, hnd2, hlk2⟩ := hIH
    refine ⟨hinv2, hnd2, ?_⟩
    have hmapA : (childrenEntries hp2 (children.take idxv)).map Prod.fst
        = childrenKeys (children.take idxv) := by
      refine childrenEntries_map_fst_congr ?_
      intro i hi3
      rw [List.length_take] at hi3
      rw [getD_take children idxv i (by omega) default]
      exact nodeEntries_map_fst (hchild i (by omega))
    have hmapC : (childrenEntries hp2 (children.drop (idxv + 1))).map Prod.fst
        = childrenKeys (children.drop (idxv + 1)) := by
      refine childrenEntries_map_fst_congr ?_
      intro i hi3
      rw [List.length_drop] at hi3
      rw [getD_drop children (idxv + 1) i default]
      exact nodeEntries_map_fst (hchild (idxv + 1 + i) (by omega))
    have hqA : q ∉ (childrenEntries hp2 (children.take idxv)).map Prod.fst := by
      rw [hmapA]
      intro hmem
      rcases mem_childrenKeys.mp hmem with ⟨c, hcmem, hkc⟩
      rcases mem_getD_of_mem hcmem default with ⟨i, hi3, hci⟩
      rw [List.length_take] at hi3
      rw [getD_take children idxv i (by omega) default] at hci
      refine hknot i (by omega) (by omega) ?_
      rw [hci]
      exact hkc
    have hqC : q ∉ (childrenEntries hp2 (children.drop (idxv + 1))).map Prod.fst := by
      rw [hmapC]
      intro hmem
      rcases mem_childrenKeys.mp hmem with ⟨c, hcmem, hkc⟩
      rcases mem_getD_of_mem hcmem default with ⟨i, hi3, hci⟩
      rw [List.length_drop] at hi3
      rw [getD_drop children (idxv + 1) i default] at hci
      refine hknot (idxv + 1 + i) (by omega) (by omega) ?_
      rw [hci]
      exact hkc
    show lookupKey (childrenEntries hp2 children) q = _
    rw [childrenEntries_decomp hidxc, List.append_assoc,
      lookupKey_append_right hqA, lookupKey_append_left hqC]
    exact hlk2

/-- `MVTree::Get` (via the shared search-and-scan) observes exactly the stored
association of the routing tree. -/
theorem GetOpt_spec {s : MVTreeState} (hr : RInv s) :
    ∀ q, GetOpt s q = treeLookup s q := by
  intro q
  rcases s with ⟨env, etop⟩
  cases etop with
  | none => rfl
  | some t =>
    have hgood : Good none none env.heap t := hr.top_good t rfl
    have hsearch := @LeafSearch_spec none none env.heap t hgood q (hr.top_nodup t rfl) ⟨trivial, trivial⟩
    rcases hLS : LeafSearch q t with ⟨hs, ks, id⟩
    rw [hLS] at hsearch
    obtain ⟨hinv, hnd, hlk⟩ := hsearch
    have hget := @leafGet_spec hs ks (env.heap.getD id []) q hinv hnd
    show GetOpt ⟨env, some t⟩ q = lookupKey (nodeEntries env.heap t) q
    rw [hlk]
    unfold GetOpt findSlot
    dsimp only
    rw [hLS]
    dsimp only
    rcases hf : leafFindSlot hs ks (PearsonHash q) q LEAF_KEYS with _ | slot
    · rw [hf] at hget
      exact hget
    · rw [hf] at hget
      dsimp only at hget ⊢
      rcases hps : (env.heap.getD id []).getD slot none with _ | ps
      · rw [hps] at hget
        exact hget
      · rw [hps] at hget
        exact hget

theorem GetStr_append {s : MVTreeState} {k : Key} {buf : Val} :
    GetStr s k buf =
      (match GetOpt s k with
       | some v => (KVStatus.OK, buf ++ v)
       | none => (KVStatus.NOT_FOUND, buf)) := by
  unfold GetStr GetOpt
  rcases hf : findSlot s k with _ | op
  · rfl
  · rcases op with _ | ps
    · rfl
    · rfl

/-- C1: Sequential map semantics.  For every finite sequence of put and remove
operations executed on a fresh engine, the engine's Get observes exactly the
reference map: `OK` with the value of the most recent put for the key, and
`NOT_FOUND` when the key was never put or its most recent operation was a
remove. -/
theorem C1_sequential_map_semantics (ops : List Op) (k : Key) :
    GetOpt (run ops) k = specMap ops k ∧
    GetStr (run ops) k [] =
      (match specMap ops k with
       | some v => (KVStatus.OK, v)
       | none => (KVStatus.NOT_FOUND, ([] : Val))) := by
  have hrun := run_spec ops
  have h1 : GetOpt (run ops) k = specMap ops k := by
    rw [GetOpt_spec hrun.1 k, hrun.2 k]
  refine ⟨h1, ?_⟩
  rw [GetStr_append, h1]
  rcases specMap ops k with _ | v
  · rfl
  · dsimp only
    rw [List.nil_append]

/-- C6: Size-limited Get.  Whenever the key has a stored value, the buffer
overload writes the stored value's size whether or not the value fits, returns
`FAILED` exactly when the size exceeds the limit (leaving the output buffer
unwritten), copies the value with `OK` when it fits, and returns `NOT_FOUND`
when the key is absent. -/
theorem C6_size_limited_get (s : MVTreeState) (limit : Int) (k : Key) :
    (∀ v, GetOpt s k = some v →
       (GetLimited s limit k).2.1 = some v.length ∧
       ((v.length : Int) ≤ limit →
          GetLimited s limit k = (KVStatus.OK, some v.length, some v)) ∧
       (limit < (v.length : Int) →
          GetLimited s limit k = (KVStatus.FAILED, some v.length, none))) ∧
    (GetOpt s k = none →
       GetLimited s limit k = (KVStatus.NOT_FOUND, none, none)) := by
  constructor
  · intro v hv
    unfold GetOpt at hv
    unfold GetLimited
    rcases hf : findSlot s k with _ | op
    · rw [hf] at hv
      cases hv
    · rcases op with _ | ps
      · rw [hf] at hv
        cases hv
      · rw [hf] at hv
        dsimp only at hv ⊢
        injection hv with hv2
        subst hv2
        by_cases hle : (ps.val.length : Int) ≤ limit
        · rw [if_pos hle]
          exact ⟨rfl, fun _ => rfl, fun hgt => absurd hle (not_le_of_lt hgt)⟩
        · rw [if_neg hle]
          exact ⟨rfl, fun hle2 => absurd hle2 hle, fun _ => rfl⟩
  · intro hv
    unfold GetOpt at hv
    unfold GetLimited
    rcases hf : findSlot s k with _ | op
    · rfl
    · rcases op with _ | ps
      · rfl
      · rw [hf] at hv
        cases hv

/-- C6 witness: a value of size 3 under limits 3 and 2, and a missing key. -/
theorem C6_size_limited_get_witness :
    GetLimited (run [Op.put [1] [5, 6, 7]]) 3 [1] = (KVStatus.OK, some 3, some [5, 6, 7]) ∧
    GetLimited (run [Op.put [1] [5, 6, 7]]) 2 [1] = (KVStatus.FAILED, some 3, none) ∧
    GetLimited (run [Op.put [1] [5, 6, 7]]) 3 [2] = (KVStatus.NOT_FOUND, none, none) := by
  refine ⟨?_, ?_, ?_⟩
  · exact ((C6_size_limited_get (run [Op.put [1] [5, 6, 7]]) 3 [1]).1
      [5, 6, 7] rfl).2.1 (by decide)
  · exact ((C6_size_limited_get (run [Op.put [1] [5, 6, 7]]) 2 [1]).1
      [5, 6, 7] rfl).2.2 (by decide)
  · exact (C6_size_limited_get (run [Op.put [1] [5, 6, 7]]) 3 [2]).2 rfl

/-- C10: the string-output Get appends the stored value to the caller's output
string instead of replacing it: with initial contents `buf`, a hit returns `OK`
and the output equals `buf` followed by the stored value. -/
theorem C10_get_appends_output (s : MVTreeState) (k : Key) (v : Val) (buf : Val)
    (hv : GetOpt s k = some v) :
    GetStr s k buf = (KVStatus.OK, buf ++ v) := by
  rw [GetStr_append, hv]

/-- C10 witness: a hit appends to a non-empty initial buffer. -/
theorem C10_get_appends_output_witness :
    GetStr (run [Op.put [1] [5, 6]]) [1] [9, 9] = (KVStatus.OK, [9, 9, 5, 6]) :=
  C10_get_appends_output (run [Op.put [1] [5, 6]]) [1] [5, 6] [9, 9] rfl

theorem LeafSplitFull_splitKey {env : PEnv} {hs : List Nat} {ks : List Key}
    {id : LeafId} {h : Nat} {k : Key} {v : Val}
    (hpre : env.leaves_prealloc = []) :
    (LeafSplitFull env hs ks id h k v).splitKey
      = (sortBy keyLe (ks ++ [k])).getD LEAF_KEYS_MIDPOINT [] := by
  unfold LeafSplitFull
  have hobtain : obtainLeaf env = (env.heap.length,
      { heap := env.heap ++ [List.replicate LEAF_KEYS none],
        headIds := env.heap.length :: env.headIds,
        leaves_prealloc := env.leaves_prealloc }) := by
    unfold obtainLeaf
    rw [hpre]
    rfl
  rw [hobtain]

/-- The per-slot movement statement of the leaf split (claim C4): a slot whose
mirror key sorts strictly above the split key moves, at an unchanged slot
index, to the new leaf with its mirrors, leaving the source slot empty; every
other slot stays in the source leaf, leaving the new leaf's slot empty. -/
def C4moved (env : PEnv) (hs : List Nat) (ks : List Key) (id : LeafId)
    (r : SplitResult) (s : Nat) : Prop :=
  ∀ i, i < LEAF_KEYS → i ≠ s →
    (keyGt (ks.getD i []) r.splitKey = true →
      r.srcHs.getD i 0 = 0 ∧ r.srcKs.getD i [] = [] ∧
      (r.env.heap.getD id []).getD i none = none ∧
      r.sibHs.getD i 0 = hs.getD i 0 ∧
      r.sibKs.getD i [] = ks.getD i [] ∧
      (r.env.heap.getD r.sibId []).getD i none
        = (env.heap.getD id []).getD i none) ∧
    (keyGt (ks.getD i []) r.splitKey = false →
      r.srcHs.getD i 0 = hs.getD i 0 ∧ r.srcKs.getD i [] = ks.getD i [] ∧
      (r.env.heap.getD id []).getD i none = (env.heap.getD id []).getD i none ∧
      r.sibHs.getD i 0 = 0 ∧ r.sibKs.getD i [] = [] ∧
      (r.env.heap.getD r.sibId []).getD i none = none)

/-- C4: Leaf split algorithm.  For a full leaf none of whose keys matches the
incoming key, the split key is the element at index `LEAF_KEYS_MIDPOINT` of the
sorted union of the existing keys plus the incoming key; exactly the slots
whose keys sort strictly above the split key move, at unchanged slot indices
and with their mirrors, to the new leaf; and the incoming pair is placed in the
new leaf when the key sorts strictly above the split key and in the source leaf
otherwise (a key equal to the split key stays left). -/
theorem C4_leaf_split_algorithm {env : PEnv} {hs : List Nat} {ks : List Key}
    {id : LeafId} {h : Nat} {k : Key} {v : Val} {r : SplitResult}
    {sorted : List Key}
    (hr : r = LeafSplitFull env hs ks id h k v)
    (hlh : hs.length = LEAF_KEYS) (hlk : ks.length = LEAF_KEYS)
    (hlp : (env.heap.getD id []).length = LEAF_KEYS)
    (hfull : ∀ i, i < LEAF_KEYS → hs.getD i 0 ≠ 0)
    (hnd : (ks ++ [k]).Nodup)
    (hpre : env.leaves_prealloc = [])
    (hid : id < env.heap.length)
    (hsortp : sorted.Perm (ks ++ [k]))
    (hsorts : sorted.Pairwise (fun a b => a ≤ b)) :
    r.splitKey = sorted.getD LEAF_KEYS_MIDPOINT [] ∧
    (keyGt k r.splitKey = true →
      ∃ s, s < LEAF_KEYS ∧ keyGt (ks.getD s []) r.splitKey = false ∧
        r.sibHs.getD s 0 = h ∧ r.sibKs.getD s [] = k ∧
        (r.env.heap.getD r.sibId []).getD s none = some ⟨h, k, v⟩ ∧
        r.srcHs.getD s 0 = hs.getD s 0 ∧ r.srcKs.getD s [] = ks.getD s [] ∧
        (r.env.heap.getD id []).getD s none = (env.heap.getD id []).getD s none ∧
        C4moved env hs ks id r s) ∧
    (keyGt k r.splitKey = false →
      ∃ s, s < LEAF_KEYS ∧ keyGt (ks.getD s []) r.splitKey = true ∧
        r.srcHs.getD s 0 = h ∧ r.srcKs.getD s [] = k ∧
        (r.env.heap.getD id []).getD s none = some ⟨h, k, v⟩ ∧
        r.sibHs.getD s 0 = hs.getD s 0 ∧ r.sibKs.getD s [] = ks.getD s [] ∧
        (r.env.heap.getD r.sibId []).getD s none
          = (env.heap.getD id []).getD s none ∧
        C4moved env hs ks id r s) := by
  obtain ⟨pl, hpl⟩ : ∃ x, env.heap.getD id [] = x := ⟨_, rfl⟩
  rw [hpl] at hlp
  obtain ⟨hsperm, hsplt, hslen⟩ := sortBy_keyLe_facts hnd
  have hslen2 : (sortBy keyLe (ks ++ [k])).length = LEAF_KEYS + 1 := by
    rw [hslen, List.length_append, hlk]
    rfl
  have hsorted_eq : sorted = sortBy keyLe (ks ++ [k]) := by
    refine List.eq_of_perm_of_sorted (hsortp.trans hsperm.symm) hsorts ?_
    exact hsplt.imp (fun hx => le_of_lt hx)
  have hsk0 : r.splitKey = (sortBy keyLe (ks ++ [k])).getD LEAF_KEYS_MIDPOINT [] := by
    rw [hr]
    exact LeafSplitFull_splitKey hpre
  obtain ⟨skv, hskv⟩ : ∃ x, (sortBy keyLe (ks ++ [k])).getD LEAF_KEYS_MIDPOINT [] = x :=
    ⟨_, rfl⟩
  have hrsk : r.splitKey = skv := by rw [hsk0, hskv]
  have hmidlt : LEAF_KEYS_MIDPOINT < LEAF_KEYS := by decide
  have hwex : ∃ w, w ∈ ks ++ [k] ∧ skv < w := by
    refine ⟨(sortBy keyLe (ks ++ [k])).getD LEAF_KEYS [], ?_, ?_⟩
    · refine hsperm.mem_iff.mp ?_
      rw [List.getD_eq_getElem _ _ (by omega : LEAF_KEYS < (sortBy keyLe (ks ++ [k])).length)]
      exact List.getElem_mem _
    · rw [← hskv]
      exact pairwise_getD_lt hsplt hmidlt (by omega)
  have hmid0 : 0 < LEAF_KEYS_MIDPOINT := by decide
  have hlowex : ∃ w, w ∈ ks ++ [k] ∧ w < skv := by
    refine ⟨(sortBy keyLe (ks ++ [k])).getD 0 [], ?_, ?_⟩
    · refine hsperm.mem_iff.mp ?_
      rw [List.getD_eq_getElem _ _ (by omega : 0 < (sortBy keyLe (ks ++ [k])).length)]
      exact List.getElem_mem _
    · rw [← hskv]
      exact pairwise_getD_lt hsplt hmid0 (by omega)
  obtain ⟨lp, hlploop⟩ : ∃ x, splitMoveLoop skv LEAF_KEYS
      ⟨hs, ks, pl, List.replicate LEAF_KEYS 0, List.replicate LEAF_KEYS [],
       List.replicate LEAF_KEYS none⟩ = x := ⟨_, rfl⟩
  rcases lp with ⟨sh0, sk0, sp0, nh0, nk0, np0⟩
  have hfacts := @splitMove_facts hs ks pl skv hlh hlk hlp
  rw [hlploop] at hfacts
  dsimp only at hfacts
  have hlens := splitMoveLoop_len skv LEAF_KEYS
      ⟨hs, ks, pl, List.replicate LEAF_KEYS 0, List.replicate LEAF_KEYS [],
       List.replicate LEAF_KEYS none⟩
  rw [hlploop] at hlens
  dsimp only at hlens
  rcases hlens with ⟨hl1, hl2, hl3, hl4, hl5, hl6⟩
  rw [hlh] at hl1
  rw [hlk] at hl2
  rw [hlp] at hl3
  rw [List.length_replicate] at hl4 hl5 hl6
  have hobtain : obtainLeaf env = (env.heap.length,
      { heap := env.heap ++ [List.replicate LEAF_KEYS none],
        headIds := env.heap.length :: env.headIds,
        leaves_prealloc := env.leaves_prealloc }) := by
    unfold obtainLeaf
    rw [hpre]
    rfl
  refine ⟨by rw [hsorted_eq, hsk0], ?_, ?_⟩
  · -- the incoming key goes to the new leaf
    intro hgt0
    rw [hrsk] at hgt0
    rcases hlowex with ⟨w, hwmem, hwlt⟩
    have hkgt : skv < k := by
      have := keyGt_iff.mp hgt0
      exact this
    have hwks : w ∈ ks := by
      rcases List.mem_append.mp hwmem with hx | hx
      · exact hx
      · rcases List.mem_singleton.mp hx with rfl
        exact absurd hkgt (not_lt_of_lt hwlt)
    rcases mem_getD_of_mem hwks [] with ⟨iw, hiw, hiwk⟩
    have hiw2 : iw < LEAF_KEYS := by omega
    have hempty : nh0.getD iw 0 = 0 := by
      have hg : keyGt (ks.getD iw []) skv = false := by
        rw [hiwk]
        exact keyGt_false_iff.mpr (le_of_lt hwlt)
      exact ((hfacts iw hiw2).2 hg).2.2.2.1
    rcases findEmptySlotDesc_isSome hempty hiw2 with ⟨slot, hslot⟩
    rcases findEmptySlotDesc_some hslot with ⟨hslotlt, hslot0⟩
    have hre : r = { env := { heap := ((env.heap ++ [List.replicate LEAF_KEYS none]).set id sp0).set env.heap.length (np0.set slot (some ⟨h, k, v⟩)), headIds := env.heap.length :: env.headIds, leaves_prealloc := env.leaves_prealloc }, srcHs := sh0, srcKs := sk0, sibHs := nh0.set slot h, sibKs := nk0.set slot k, sibId := env.heap.length, splitKey := skv } := by
      rw [hr]
      unfold LeafSplitFull
      rw [hobtain]
      dsimp only
      rw [hskv]
      rw [getD_append_left hid, getD_append_len, hpl, hlploop]
      dsimp only
      rw [hgt0]
      rw [if_pos rfl]
      unfold LeafFillEmptySlot
      rw [hslot]
      unfold LeafFillSpecificSlot
      dsimp only
      rw [if_pos hslot0]
    have hheapid : r.env.heap.getD id [] = sp0 := by
      rw [hre]
      have hne : env.heap.length ≠ id := ne_of_gt hid
      rw [getD_set_ne hne]
      rw [getD_set_self (by simp only [List.length_append, List.length_singleton]; exact Nat.lt_succ_of_lt hid)]
    have hheapsib : r.env.heap.getD r.sibId [] = np0.set slot (some ⟨h, k, v⟩) := by
      rw [hre]
      rw [getD_set_self (by simp only [List.length_set, List.length_append, List.length_singleton]; exact Nat.lt_succ_self _)]
    have hmvslot : keyGt (ks.getD slot []) skv = false := by
      rcases hg : keyGt (ks.getD slot []) skv with _ | _
      · rfl
      · exfalso
        have hx := ((hfacts slot hslotlt).1 hg).2.2.2.1
        rw [hx] at hslot0
        exact hfull slot hslotlt hslot0
    refine ⟨slot, hslotlt, by rw [hrsk]; exact hmvslot, ?_, ?_, ?_, ?_, ?_, ?_, ?_⟩
    · rw [hre]
      show (nh0.set slot h).getD slot 0 = h
      exact getD_set_self (by rw [hl4]; exact hslotlt) h 0
    · rw [hre]
      show (nk0.set slot k).getD slot [] = k
      exact getD_set_self (by rw [hl5]; exact hslotlt) k []
    · rw [hheapsib]
      exact getD_set_self (by rw [hl6]; exact hslotlt) _ none
    · rw [hre]
      show sh0.getD slot 0 = hs.getD slot 0
      exact ((hfacts slot hslotlt).2 hmvslot).1
    · rw [hre]
      show sk0.getD slot [] = ks.getD slot []
      exact ((hfacts slot hslotlt).2 hmvslot).2.1
    · rw [hheapid, hpl]
      exact ((hfacts slot hslotlt).2 hmvslot).2.2.1
    · intro i hi3 hine
      rw [hrsk]
      constructor
      · intro hg
        obtain ⟨e1, e2, e3, e4, e5, e6⟩ := (hfacts i hi3).1 hg
        refine ⟨?_, ?_, ?_, ?_, ?_, ?_⟩
        · rw [hre]
          exact e1
        · rw [hre]
          exact e2
        · rw [hheapid]
          exact e3
        · rw [hre]
          show (nh0.set slot h).getD i 0 = hs.getD i 0
          rw [getD_set_ne (fun he => hine he.symm)]
          exact e4
        · rw [hre]
          show (nk0.set slot k).getD i [] = ks.getD i []
          rw [getD_set_ne (fun he => hine he.symm)]
          exact e5
        · rw [hheapsib, hpl]
          rw [getD_set_ne (fun he => hine he.symm)]
          exact e6
      · intro hg
        obtain ⟨e1, e2, e3, e4, e5, e6⟩ := (hfacts i hi3).2 hg
        refine ⟨?_, ?_, ?_, ?_, ?_, ?_⟩
        · rw [hre]
          exact e1
        · rw [hre]
          exact e2
        · rw [hheapid, hpl]
          exact e3
        · rw [hre]
          show (nh0.set slot h).getD i 0 = 0
          rw [getD_set_ne (fun he => hine he.symm)]
          exact e4
        · rw [hre]
          show (nk0.set slot k).getD i [] = []
          rw [getD_set_ne (fun he => hine he.symm)]
          exact e5
        · rw [hheapsib]
          rw [getD_set_ne (fun he => hine he.symm)]
          exact e6
  · -- the incoming key stays in the source leaf
    intro hgt0
    rw [hrsk] at hgt0
    rcases hwex with ⟨w, hwmem, hwlt⟩
    have hkle : k ≤ skv := keyGt_false_iff.mp hgt0
    have hwks : w ∈ ks := by
      rcases List.mem_append.mp hwmem with hx | hx
      · exact hx
      · rcases List.mem_singleton.mp hx with rfl
        exact absurd hwlt (not_lt_of_le hkle)
    rcases mem_getD_of_mem hwks [] with ⟨iw, hiw, hiwk⟩
    have hiw2 : iw < LEAF_KEYS := by omega
    have hempty : sh0.getD iw 0 = 0 := by
      have hg : keyGt (ks.getD iw []) skv = true := by
        rw [hiwk]
        exact keyGt_iff.mpr hwlt
      exact ((hfacts iw hiw2).1 hg).1
    rcases findEmptySlotDesc_isSome hempty hiw2 with ⟨slot, hslot⟩
    rcases findEmptySlotDesc_some hslot with ⟨hslotlt, hslot0⟩
    have hre : r = { env := { heap := ((env.heap ++ [List.replicate LEAF_KEYS none]).set id (sp0.set slot (some ⟨h, k, v⟩))).set env.heap.length np0, headIds := env.heap.length :: env.headIds, leaves_prealloc := env.leaves_prealloc }, srcHs := sh0.set slot h, srcKs := sk0.set slot k, sibHs := nh0, sibKs := nk0, sibId := env.heap.length, splitKey := skv } := by
      rw [hr]
      unfold LeafSplitFull
      rw [hobtain]
      dsimp only
      rw [hskv]
      rw [getD_append_left hid, getD_append_len, hpl, hlploop]
      dsimp only
      rw [hgt0]
      simp only [Bool.false_eq_true, if_false]
      unfold LeafFillEmptySlot
      rw [hslot]
      unfold LeafFillSpecificSlot
      dsimp only
      rw [if_pos hslot0]
    have hheapid : r.env.heap.getD id [] = sp0.set slot (some ⟨h, k, v⟩) := by
      rw [hre]
      have hne : env.heap.length ≠ id := ne_of_gt hid
      rw [getD_set_ne hne]
      rw [getD_set_self (by simp only [List.length_append, List.length_singleton]; exact Nat.lt_succ_of_lt hid)]
    have hheapsib : r.env.heap.getD r.sibId [] = np0 := by
      rw [hre]
      rw [getD_set_self (by simp only [List.length_set, List.length_append, List.length_singleton]; exact Nat.lt_succ_self _)]
    have hmvslot : keyGt (ks.getD slot []) skv = true := by
      rcases hg : keyGt (ks.getD slot []) skv with _ | _
      · exfalso
        have hx := ((hfacts slot hslotlt).2 hg).1
        rw [hx] at hslot0
        exact hfull slot hslotlt hslot0
      · rfl
    refine ⟨slot, hslotlt, by rw [hrsk]; exact hmvslot, ?_, ?_, ?_, ?_, ?_, ?_, ?_⟩
    · rw [hre]
      show (sh0.set slot h).getD slot 0 = h
      exact getD_set_self (by rw [hl1]; exact hslotlt) h 0
    · rw [hre]
      show (sk0.set slot k).getD slot [] = k
      exact getD_set_self (by rw [hl2]; exact hslotlt) k []
    · rw [hheapid]
      exact getD_set_self (by rw [hl3]; exact hslotlt) _ none
    · rw [hre]
      show nh0.getD slot 0 = hs.getD slot 0
      exact ((hfacts slot hslotlt).1 hmvslot).2.2.2.1
    · rw [hre]
      show nk0.getD slot [] = ks.getD slot []
      exact ((hfacts slot hslotlt).1 hmvslot).2.2.2.2.1
    · rw [hheapsib, hpl]
      exact ((hfacts slot hslotlt).1 hmvslot).2.2.2.2.2
    · intro i hi3 hine
      rw [hrsk]
      constructor
      · intro hg
        obtain ⟨e1, e2, e3, e4, e5, e6⟩ := (hfacts i hi3).1 hg
        refine ⟨?_, ?_, ?_, ?_, ?_, ?_⟩
        · rw [hre]
          show (sh0.set slot h).getD i 0 = 0
          rw [getD_set_ne (fun he => hine he.symm)]
          exact e1
        · rw [hre]
          show (sk0.set slot k).getD i [] = []
          rw [getD_set_ne (fun he => hine he.symm)]
          exact e2
        · rw [hheapid]
          rw [getD_set_ne (fun he => hine he.symm)]
          exact e3
        · rw [hre]
          exact e4
        · rw [hre]
          exact e5
        · rw [hheapsib, hpl]
          exact e6
      · intro hg
        obtain ⟨e1, e2, e3, e4, e5, e6⟩ := (hfacts i hi3).2 hg
        refine ⟨?_, ?_, ?_, ?_, ?_, ?_⟩
        · rw [hre]
          show (sh0.set slot h).getD i 0 = hs.getD i 0
          rw [getD_set_ne (fun he => hine he.symm)]
          exact e1
        · rw [hre]
          show (sk0.set slot k).getD i [] = ks.getD i []
          rw [getD_set_ne (fun he => hine he.symm)]
          exact e2
        · rw [hheapid, hpl]
          rw [getD_set_ne (fun he => hine he.symm)]
          exact e3
        · rw [hre]
          exact e4
        · rw [hre]
          exact e5
        · rw [hheapsib]
          exact e6

/-- A concrete full leaf for exercising the split: 48 distinct one-byte keys. -/
def ksW : List Key := (List.range LEAF_KEYS).map (fun i => [i])

def hsW : List Nat := ksW.map PearsonHash

def plW : PLeaf := (List.range LEAF_KEYS).map (fun i => some ⟨PearsonHash [i], [i], [9]⟩)

def envW : PEnv := ⟨[plW], [0], []⟩

/-- C4 witness: the split of the concrete full leaf with incoming key `[100]`
has the split key promised by the sorted union. -/
theorem C4_leaf_split_algorithm_witness :
    (LeafSplitFull envW hsW ksW 0 (PearsonHash [100]) [100] [7]).splitKey
      = (sortBy keyLe (ksW ++ [[100]])).getD LEAF_KEYS_MIDPOINT [] ∧
    (LeafSplitFull envW hsW ksW 0 (PearsonHash [100]) [100] [7]).splitKey = [24] := by
  have hnd : (ksW ++ [[100]]).Nodup := by decide
  obtain ⟨hsperm, hsplt, hslen⟩ := sortBy_keyLe_facts hnd
  have hmain := @C4_leaf_split_algorithm envW hsW ksW 0 (PearsonHash [100]) [100] [7]
    (LeafSplitFull envW hsW ksW 0 (PearsonHash [100]) [100] [7])
    (sortBy keyLe (ksW ++ [[100]]))
    rfl rfl rfl rfl (by decide) hnd rfl Nat.zero_lt_one hsperm
    (hsplt.imp (fun hx => le_of_lt hx))
  exact ⟨hmain.1, by decide⟩

/-- The volatile effect of the slot-clearing loop of `MVTree::Remove` when the
enclosing `transaction::exec_tx` aborts: the mirror writes
(`leafnode->hashes[slot] = 0; leafnode->keys[slot].clear()`) are executed
before the transaction starts, and a pmemobj abort rolls back only persistent
writes, so the mirrors stay cleared while the persistent slot is untouched. -/
def removeSlotScanAbort (hs : List Nat) (ks : List Key) (h : Nat) (k : Key) :
    Nat → List Nat × List Key
  | 0 => (hs, ks)
  | n + 1 =>
      if hs.getD n 0 = h ∧ ks.getD n [] = k then
        (hs.set n 0, ks.set n [])
      else removeSlotScanAbort hs ks h k n

mutual

/-- The volatile tree after a `MVTree::Remove` whose clearing transaction
aborts: mirrors of the reached leaf are cleared, the heap is unchanged. -/
def removeRecAbort (h : Nat) (k : Key) : MVNode → MVNode
  | .leafN hs ks id =>
      match removeSlotScanAbort hs ks h k LEAF_KEYS with
      | (hs2, ks2) => .leafN hs2 ks2 id
  | .innerN keys children =>
      .innerN keys (removeChildrenAbort h k children (searchIdx keys k))

def removeChildrenAbort (h : Nat) (k : Key) : List MVNode → Nat → List MVNode
  | [], _ => []
  | c :: cs, 0 => removeRecAbort h k c :: cs
  | c :: cs, n + 1 => c :: removeChildrenAbort h k cs n

end

/-- `MVTree::Remove` when the transaction clearing the persistent slot aborts:
the persistent environment is rolled back (unchanged), but the mirror zeroing
executed before the transaction survives. -/
def RemoveAbortInClear (s : MVTreeState) (k : Key) : MVTreeState :=
  match s.tree_top with
  | none => s
  | some t =>
      { env := s.env, tree_top := some (removeRecAbort (PearsonHash k) k t) }

mutual

/-- The volatile tree after a `MVTree::Put` whose `slot.set` aborts inside the
transaction of `MVTree::LeafFillSlotForKey`: the mirror writes of
`LeafFillSpecificSlot` are volatile mutations inside the aborted transaction,
which pmemobj does not roll back, so they survive while the persistent slot
write is undone. -/
def putRecAbort (h : Nat) (k : Key) : MVNode → MVNode
  | .leafN hs ks id =>
      match scanFillSlots hs ks h k LEAF_KEYS none with
      | (lastEmpty, keyMatch) =>
          match keyMatch with
          | some _ => .leafN hs ks id
          | none =>
              match lastEmpty with
              | some slot => .leafN (hs.set slot h) (ks.set slot k) id
              | none => .leafN hs ks id
  | .innerN keys children =>
      .innerN keys (putChildrenAbort h k children (searchIdx keys k))

def putChildrenAbort (h : Nat) (k : Key) : List MVNode → Nat → List MVNode
  | [], _ => []
  | c :: cs, 0 => putRecAbort h k c :: cs
  | c :: cs, n + 1 => c :: putChildrenAbort h k cs n

end

/-- `MVTree::Put` on a non-full leaf when the persistent `slot.set` aborts: the
persistent environment is rolled back (unchanged) and `Put` returns `FAILED`,
but the mirror writes performed inside the transaction survive. -/
def PutAbortInFill (s : MVTreeState) (k : Key) : MVTreeState × KVStatus :=
  match s.tree_top with
  | none => (s, .FAILED)
  | some t =>
      ({ env := s.env, tree_top := some (putRecAbort (PearsonHash k) k t) },
       .FAILED)

/-- C3 is refuted by the code: an aborted persistent transaction does not roll
back the volatile mirror arrays.  Starting from the engine holding only
`([1], [5])`: (1) a `Remove [1]` whose clearing transaction aborts leaves the
persistent environment unchanged but zeroes the volatile mirror of the key's
slot, so the stored pair becomes unreadable (`NOT_FOUND` instead of `OK`) —
the engine state is not "the same as before the operation"; (2) a `Put [2]`
whose `slot.set` aborts leaves the persistent slot empty but installs the
mirror hash and key of `[2]` — the mirror is updated while the slot is not
set, exactly the partial application the claim rules out. -/
theorem C3_failure_atomicity_refuted :
    (RemoveAbortInClear (run [Op.put [1] [5]]) [1]).env
      = (run [Op.put [1] [5]]).env ∧
    GetStr (run [Op.put [1] [5]]) [1] [] = (KVStatus.OK, [5]) ∧
    GetStr (RemoveAbortInClear (run [Op.put [1] [5]]) [1]) [1] []
      = (KVStatus.NOT_FOUND, []) ∧
    (match (RemoveAbortInClear (run [Op.put [1] [5]]) [1]).tree_top with
     | some t => (LeafSearch [1] t).1.getD 0 0
     | none => 1) = 0 ∧
    (PutAbortInFill (run [Op.put [1] [5]]) [2]).1.env
      = (run [Op.put [1] [5]]).env ∧
    (PutAbortInFill (run [Op.put [1] [5]]) [2]).2 = KVStatus.FAILED ∧
    (match (PutAbortInFill (run [Op.put [1] [5]]) [2]).1.tree_top with
     | some t => ((LeafSearch [2] t).1.getD 1 0, (LeafSearch [2] t).2.1.getD 1 [])
     | none => (0, [])) = (PearsonHash [2], [2]) ∧
    (match (PutAbortInFill (run [Op.put [1] [5]]) [2]).1.tree_top with
     | some t =>
         ((PutAbortInFill (run [Op.put [1] [5]]) [2]).1.env.heap.getD
           (LeafSearch [2] t).2.2 []).getD 1 none
     | none => some ⟨1, [], []⟩) = none := by
  refine ⟨rfl, ?_, ?_, ?_, rfl, rfl, ?_, ?_⟩
  · decide
  · decide
  · decide
  · decide
  · decide
